import Mathlib

/-!
# Thompson-construction regex engine (`nfa.h`): shallow embedding

The C++ program allocates `State` objects with `new` and never frees them, and
it links them by raw pointers which the combinators mutate in place.  The
embedding makes that store explicit:

* a `Heap` is the list of all `State` objects allocated so far together with
  the static counter `NFA::state_id`;
* a `State*` is the position of the object in that list (the n-th allocation),
  so two pointers are equal exactly when they denote the same object;
* an `NFA*` is the pair `(start, end)` it points to, since `NFA` objects are
  never mutated after `new NFA(start, end)`;
* a C `char` is a `Char`, a `std::string` a `List Char`;
* a `std::set<State*>` is a strictly increasing `List Nat` (the order in which
  the real set is traversed depends on the addresses the allocator hands out;
  it does not influence which states end up in a set);
* a `std::vector` used as a stack is a `List` whose head is `back()`.

Dereferencing a pointer that is not in the heap, and calling `back()` on an
empty vector, are undefined behaviour in C++; the embedding reports them as
`Fault.undefined_behaviour`.  Loops and recursions of the source that are not
structurally recursive carry a fuel argument; running out of it is reported as
`Fault.out_of_fuel`, which is kept apart from undefined behaviour.

The counter `state_id` and the field `id` are C `int`s: 32 bits, two's
complement.  The increment `state_id++` at `INT_MAX` is a signed overflow; the
compiled program wraps around to `INT_MIN` and goes on, and the embedding does
what the compiled program does (`int_wrap`).  No function of the program reads
`id` or compares `state_id`.
-/

namespace RegexNFA

/-- Ways in which a run of the embedded program can fail to produce a value. -/
inductive Fault where
  | undefined_behaviour
  | out_of_fuel
  deriving DecidableEq, Repr

/-- Result of a run: a value or a fault. -/
abbrev Res (α : Type) : Type := Except Fault α

/-- The class `State`: `id`, `is_end`, the labelled transitions
(`map<char, vector<State*>>`, kept as an association list) and the epsilon
transitions. -/
structure State where
  id : Int
  is_end : Bool
  transitions : List (Char × List Nat)
  epsilon_transitions : List Nat
  deriving DecidableEq, Repr

/-- The class `NFA`: the two pointers `start` and `end`. -/
structure NFA where
  start : Nat
  end_ : Nat
  deriving DecidableEq, Repr

/-- The store: every `State` allocated so far, and the static `NFA::state_id`. -/
structure Heap where
  states : List State
  state_id : Int
  deriving DecidableEq, Repr

/-- The value of an `int` expression whose mathematical value is `n`: the
representative of `n` modulo `2^32` between `INT_MIN = -2147483648` and
`INT_MAX = 2147483647`. -/
def int_wrap (n : Int) : Int := (n + 2147483648) % 4294967296 - 2147483648

/-- The store of a fresh process: nothing allocated, `int NFA::state_id = 0`. -/
def Heap.init : Heap := ⟨[], 0⟩

/-- The expression `new State(state_id++)`: the constructor gets the old value
of the counter, sets `is_end` to false and leaves both transition containers
empty; the counter is incremented as an `int`, from `INT_MAX` to `INT_MIN`. -/
def Heap.new_State (H : Heap) : Nat × Heap :=
  (H.states.length,
    ⟨H.states ++ [⟨H.state_id, false, [], []⟩], int_wrap (H.state_id + 1)⟩)

/-- Read through a `State*`. -/
def Heap.deref (H : Heap) (p : Nat) : Res State :=
  match H.states[p]? with
  | some st => .ok st
  | none => .error .undefined_behaviour

/-- Write through a `State*`: the object at `p` becomes `f` of itself. -/
def Heap.store (H : Heap) (p : Nat) (f : State → State) : Res Heap :=
  match H.states[p]? with
  | some st => .ok ⟨H.states.set p (f st), H.state_id⟩
  | none => .error .undefined_behaviour

/-- The assignment `p->is_end = b`. -/
def Heap.set_is_end (H : Heap) (p : Nat) (b : Bool) : Res Heap :=
  H.store p (fun st => { st with is_end := b })

/-- The call `p->epsilon_transitions.push_back(q)`. -/
def Heap.push_epsilon (H : Heap) (p q : Nat) : Res Heap :=
  H.store p (fun st => { st with epsilon_transitions := st.epsilon_transitions ++ [q] })

/-- The expression `m[c].push_back(q)` on a `map<char, vector<State*>>`:
`operator[]` creates the entry when the key is absent. -/
def map_push (c : Char) (q : Nat) : List (Char × List Nat) → List (Char × List Nat)
  | [] => [(c, [q])]
  | (k, v) :: rest => if k = c then (k, v ++ [q]) :: rest else (k, v) :: map_push c q rest

/-- The call `p->transitions[c].push_back(q)`. -/
def Heap.push_transition (H : Heap) (p : Nat) (c : Char) (q : Nat) : Res Heap :=
  H.store p (fun st => { st with transitions := map_push c q st.transitions })

/-- `NFA::concat`. -/
def NFA.concat (H : Heap) (nfa1 nfa2 : NFA) : Res (NFA × Heap) := do
  let H ← H.set_is_end nfa1.end_ false
  let H ← H.push_epsilon nfa1.end_ nfa2.start
  return (⟨nfa1.start, nfa2.end_⟩, H)

/-- `NFA::alternation`. -/
def NFA.alternation (H : Heap) (nfa1 nfa2 : NFA) : Res (NFA × Heap) := do
  let (start, H) := H.new_State
  let (end_, H) := H.new_State
  let H ← H.push_epsilon start nfa1.start
  let H ← H.push_epsilon start nfa2.start
  let H ← H.set_is_end nfa1.end_ false
  let H ← H.set_is_end nfa2.end_ false
  let H ← H.push_epsilon nfa1.end_ end_
  let H ← H.push_epsilon nfa2.end_ end_
  let H ← H.set_is_end end_ true
  return (⟨start, end_⟩, H)

/-- `NFA::kleene_star`. -/
def NFA.kleene_star (H : Heap) (nfa : NFA) : Res (NFA × Heap) := do
  let (start, H) := H.new_State
  let (end_, H) := H.new_State
  let H ← H.push_epsilon start nfa.start
  let H ← H.push_epsilon start end_
  let H ← H.set_is_end nfa.end_ false
  let H ← H.push_epsilon nfa.end_ nfa.start
  let H ← H.push_epsilon nfa.end_ end_
  let H ← H.set_is_end end_ true
  return (⟨start, end_⟩, H)

/-- `NFA::plus`. -/
def NFA.plus (H : Heap) (nfa : NFA) : Res (NFA × Heap) := do
  let (start, H) := H.new_State
  let (end_, H) := H.new_State
  let H ← H.push_epsilon start nfa.start
  let H ← H.set_is_end nfa.end_ false
  let H ← H.push_epsilon nfa.end_ nfa.start
  let H ← H.push_epsilon nfa.end_ end_
  let H ← H.set_is_end end_ true
  return (⟨start, end_⟩, H)

/-- `NFA::optional`. -/
def NFA.optional (H : Heap) (nfa : NFA) : Res (NFA × Heap) := do
  let (start, H) := H.new_State
  let (end_, H) := H.new_State
  let H ← H.push_epsilon start nfa.start
  let H ← H.push_epsilon start end_
  let H ← H.set_is_end nfa.end_ false
  let H ← H.push_epsilon nfa.end_ end_
  let H ← H.set_is_end end_ true
  return (⟨start, end_⟩, H)

/-- `NFA::from_char`. -/
def NFA.from_char (H : Heap) (c : Char) : Res (NFA × Heap) := do
  let (start, H) := H.new_State
  let (end_, H) := H.new_State
  let H ← H.push_transition start c end_
  let H ← H.set_is_end end_ true
  return (⟨start, end_⟩, H)

/-- The C library `isalnum` in the "C" locale: ASCII letters and digits. -/
def isalnum (c : Char) : Bool := c.isAlpha || c.isDigit

/-- The lambda `precedence` of `regex_to_nfa_helper`. -/
def precedence (op : Char) : Nat :=
  if op = '*' then 3
  else if op = '+' then 3
  else if op = '?' then 3
  else if op = '.' then 2
  else if op = '|' then 1
  else 0

/-- The lambda `apply_operator` of `regex_to_nfa_helper`, on the two stacks it
captures by reference.  `back()` of an empty vector is undefined behaviour. -/
def apply_operator (H : Heap) (nfa_stack : List NFA) (op_stack : List Char) :
    Res (Heap × List NFA × List Char) :=
  match op_stack with
  | [] => .error .undefined_behaviour
  | op :: op_stack =>
    if op = '.' then
      match nfa_stack with
      | nfa2 :: nfa1 :: nfa_stack => do
        let (r, H) ← NFA.concat H nfa1 nfa2
        return (H, r :: nfa_stack, op_stack)
      | _ => .error .undefined_behaviour
    else if op = '|' then
      match nfa_stack with
      | nfa2 :: nfa1 :: nfa_stack => do
        let (r, H) ← NFA.alternation H nfa1 nfa2
        return (H, r :: nfa_stack, op_stack)
      | _ => .error .undefined_behaviour
    else if op = '*' then
      match nfa_stack with
      | nfa :: nfa_stack => do
        let (r, H) ← NFA.kleene_star H nfa
        return (H, r :: nfa_stack, op_stack)
      | _ => .error .undefined_behaviour
    else if op = '+' then
      match nfa_stack with
      | nfa :: nfa_stack => do
        let (r, H) ← NFA.plus H nfa
        return (H, r :: nfa_stack, op_stack)
      | _ => .error .undefined_behaviour
    else if op = '?' then
      match nfa_stack with
      | nfa :: nfa_stack => do
        let (r, H) ← NFA.optional H nfa
        return (H, r :: nfa_stack, op_stack)
      | _ => .error .undefined_behaviour
    else .ok (H, nfa_stack, op_stack)

/-- The loop
`while (!op_stack.empty() && precedence(op_stack.back()) >= prec) apply_operator();`
that precedes every push onto the operator stack.  One unit of fuel per
iteration. -/
def reduce : Nat → Nat → Heap → List NFA → List Char → Res (Heap × List NFA × List Char)
  | _, _, H, nfa_stack, [] => .ok (H, nfa_stack, [])
  | 0, prec, H, nfa_stack, op :: op_stack =>
    if precedence op ≥ prec then .error .out_of_fuel else .ok (H, nfa_stack, op :: op_stack)
  | fuel + 1, prec, H, nfa_stack, op :: op_stack =>
    if precedence op ≥ prec then do
      let (H, nfa_stack, op_stack) ← apply_operator H nfa_stack (op :: op_stack)
      reduce fuel prec H nfa_stack op_stack
    else .ok (H, nfa_stack, op :: op_stack)

/-- The final loop `while (!op_stack.empty()) apply_operator();`. -/
def drain : Nat → Heap → List NFA → List Char → Res (Heap × List NFA × List Char)
  | _, H, nfa_stack, [] => .ok (H, nfa_stack, [])
  | 0, _, _, _ :: _ => .error .out_of_fuel
  | fuel + 1, H, nfa_stack, op :: op_stack => do
    let (H, nfa_stack, op_stack) ← apply_operator H nfa_stack (op :: op_stack)
    drain fuel H nfa_stack op_stack

/-- The look-ahead `pos < regex.size() && (isalnum(regex[pos]) || regex[pos] == '(')`. -/
def implicit_concat (regex : List Char) (pos : Nat) : Bool :=
  match regex[pos]? with
  | some d => isalnum d || d == '('
  | none => false

/-- The step "reduce by `prec`, then `op_stack.push_back(op)`". -/
def push_op (op : Char) (H : Heap) (nfa_stack : List NFA) (op_stack : List Char) :
    Res (Heap × List NFA × List Char) := do
  let (H, nfa_stack, op_stack) ← reduce op_stack.length (precedence op) H nfa_stack op_stack
  return (H, nfa_stack, op :: op_stack)

mutual
/-- The main `while (pos < regex.size())` loop of `regex_to_nfa_helper`, from
the state (`pos`, heap, both stacks) to the state at loop exit. -/
def parse_loop : Nat → List Char → Nat → Heap → List NFA → List Char →
    Res (Heap × List NFA × List Char × Nat)
  | 0, _, _, _, _, _ => .error .out_of_fuel
  | fuel + 1, regex, pos, H, nfa_stack, op_stack =>
    match regex[pos]? with
    | none => .ok (H, nfa_stack, op_stack, pos)
    | some c =>
      if isalnum c then do
        let (a, H) ← NFA.from_char H c
        let nfa_stack := a :: nfa_stack
        let pos := pos + 1
        if implicit_concat regex pos then do
          let (H, nfa_stack, op_stack) ← push_op '.' H nfa_stack op_stack
          parse_loop fuel regex pos H nfa_stack op_stack
        else parse_loop fuel regex pos H nfa_stack op_stack
      else if c = '(' then do
        let pos := pos + 1
        let (sub_nfa, pos, H) ← regex_to_nfa_helper fuel regex pos H
        let nfa_stack := sub_nfa :: nfa_stack
        if implicit_concat regex pos then do
          let (H, nfa_stack, op_stack) ← push_op '.' H nfa_stack op_stack
          parse_loop fuel regex pos H nfa_stack op_stack
        else parse_loop fuel regex pos H nfa_stack op_stack
      else if c = ')' then
        .ok (H, nfa_stack, op_stack, pos + 1)
      else if c = '*' then do
        let (H, nfa_stack, op_stack) ← push_op '*' H nfa_stack op_stack
        parse_loop fuel regex (pos + 1) H nfa_stack op_stack
      else if c = '+' then do
        let (H, nfa_stack, op_stack) ← push_op '+' H nfa_stack op_stack
        parse_loop fuel regex (pos + 1) H nfa_stack op_stack
      else if c = '?' then do
        let (H, nfa_stack, op_stack) ← push_op '?' H nfa_stack op_stack
        parse_loop fuel regex (pos + 1) H nfa_stack op_stack
      else if c = '|' then do
        let (H, nfa_stack, op_stack) ← push_op '|' H nfa_stack op_stack
        parse_loop fuel regex (pos + 1) H nfa_stack op_stack
      else parse_loop fuel regex (pos + 1) H nfa_stack op_stack
/-- `NFA::regex_to_nfa_helper(regex, pos)`: returns the fragment, the updated
`pos` and the updated heap. -/
def regex_to_nfa_helper : Nat → List Char → Nat → Heap → Res (NFA × Nat × Heap)
  | 0, _, _, _ => .error .out_of_fuel
  | fuel + 1, regex, pos, H => do
    let (H, nfa_stack, op_stack, pos) ← parse_loop fuel regex pos H [] []
    let (H, nfa_stack, _) ← drain op_stack.length H nfa_stack op_stack
    match nfa_stack with
    | [] => .error .undefined_behaviour
    | top :: _ => return (top, pos, H)
end

/-- `NFA::regex_to_nfa(regex)`.  Every loop iteration and every recursive call
consumes a character of `regex`; `2 * regex.size() + 2` units of fuel are
enough for every pattern (`regex_to_nfa_fuel`). -/
def NFA.regex_to_nfa (H : Heap) (regex : List Char) : Res (NFA × Heap) := do
  let (nfa, _, H) ← regex_to_nfa_helper (2 * regex.length + 2) regex 0 H
  return (nfa, H)

/-- `std::set<State*>::insert`. -/
def set_insert (x : Nat) : List Nat → List Nat
  | [] => [x]
  | y :: ys => if x < y then x :: y :: ys else if x = y then y :: ys else y :: set_insert x ys

/-- `NFA::epsilon_closure(state, closure)`; the fuel bounds the recursion depth. -/
def NFA.epsilon_closure : Nat → Heap → Nat → List Nat → Res (List Nat)
  | 0, _, _, _ => .error .out_of_fuel
  | fuel + 1, H, state, closure =>
    if closure.contains state then .ok closure
    else do
      let closure := set_insert state closure
      let st ← H.deref state
      st.epsilon_transitions.foldlM (fun closure next_state =>
        NFA.epsilon_closure fuel H next_state closure) closure

/-- `NFA::move(state, c, result)`. -/
def NFA.move (H : Heap) (state : Nat) (c : Char) (result : List Nat) : Res (List Nat) := do
  let st ← H.deref state
  match st.transitions.lookup c with
  | some dests => return dests.foldl (fun result next_state => set_insert next_state result) result
  | none => return result

/-- The body of the `for (char c : s)` loop of `NFA::matches`. -/
def NFA.step (H : Heap) (current_states : List Nat) (c : Char) : Res (List Nat) := do
  let next_states ← current_states.foldlM (fun next_states state =>
    NFA.move H state c next_states) []
  next_states.foldlM (fun current_states state =>
    NFA.epsilon_closure (H.states.length + 1) H state current_states) []

/-- The last loop of `NFA::matches`: is some state of the set an end state? -/
def NFA.any_end (H : Heap) : List Nat → Res Bool
  | [] => .ok false
  | state :: rest => do
    let st ← H.deref state
    if st.is_end then return true else NFA.any_end H rest

/-- `NFA::matches(s)` on the automaton `nfa` in the heap `H`.  Every call of
`epsilon_closure` gets one unit of fuel more than there are allocated states:
a call that does not return at once puts a new state into the set. -/
def NFA.matches_ (H : Heap) (nfa : NFA) (s : List Char) : Res Bool := do
  let current_states ← NFA.epsilon_closure (H.states.length + 1) H nfa.start []
  let current_states ← s.foldlM (NFA.step H) current_states
  NFA.any_end H current_states

/-- The use `main` makes of the library: `NFA* nfa = NFA::regex_to_nfa(pattern);`
followed by `nfa->matches(test_str)`. -/
def regex_matches (H : Heap) (pattern test_str : List Char) : Res Bool := do
  let (nfa, H) ← NFA.regex_to_nfa H pattern
  NFA.matches_ H nfa test_str

/-! ## Definitions used only in proofs -/

/-- The rest of `NFA::matches` once `current_states` holds the set `cur`: the
loop over the remaining input and the final test. -/
def NFA.run_from (H : Heap) (cur : List Nat) (s : List Char) : Res Bool :=
  s.foldlM (NFA.step H) cur >>= NFA.any_end H

/-- Every transition key of every state of `cur` is listed in `K`. -/
def keys_within (H : Heap) (cur : List Nat) (K : List Char) : Prop :=
  ∀ p ∈ cur, ∃ st, H.states[p]? = some st ∧ ∀ kv ∈ st.transitions, kv.1 ∈ K

/-- The store after `from_char(c)`: two more objects, the first with a
transition on `c` to the second, the second an end state. -/
def Heap.with_char (H : Heap) (c : Char) : Heap :=
  ⟨H.states ++ [⟨H.state_id, false, [(c, [H.states.length + 1])], []⟩,
    ⟨int_wrap (H.state_id + 1), true, [], []⟩], int_wrap (int_wrap (H.state_id + 1) + 1)⟩

/-- Move every pointer held in a state up by `b`, and give the state the `id`
`i`. -/
def State.shift (b : Nat) (i : Int) (st : State) : State :=
  ⟨i, st.is_end, st.transitions.map (fun kv => (kv.1, kv.2.map (b + ·))),
    st.epsilon_transitions.map (b + ·)⟩

/-- The value of the counter after `k` increments `state_id++` from `j`. -/
def counter_after : Nat → Int → Int
  | 0, j => j
  | k + 1, j => int_wrap (counter_after k j + 1)

/-- Move both pointers of a fragment up by `b`. -/
def NFA.shift (b : Nat) (n : NFA) : NFA := ⟨b + n.start, b + n.end_⟩

/-- The store `Hx` placed after the objects of `H0`: the `k`-th object of `Hx`
gets the `id` that `k` increments make of the counter of `H0`. -/
def Heap.reloc (H0 Hx : Heap) : Heap :=
  ⟨H0.states ++ Hx.states.mapIdx (fun k st =>
      State.shift H0.states.length (counter_after k H0.state_id) st),
    counter_after Hx.states.length H0.state_id⟩

/-- Relocation of a fragment together with the store it lives in. -/
def reloc_frag (H0 : Heap) (r : NFA × Heap) : NFA × Heap :=
  (NFA.shift H0.states.length r.1, Heap.reloc H0 r.2)

/-- Relocation of the parser state: the store and the operand stack. -/
def reloc_parse (H0 : Heap) (r : Heap × List NFA × List Char) : Heap × List NFA × List Char :=
  (Heap.reloc H0 r.1, r.2.1.map (NFA.shift H0.states.length), r.2.2)

/-- Relocation of the state of the main loop at its exit. -/
def reloc_loop (H0 : Heap) (r : Heap × List NFA × List Char × Nat) :
    Heap × List NFA × List Char × Nat :=
  (Heap.reloc H0 r.1, r.2.1.map (NFA.shift H0.states.length), r.2.2.1, r.2.2.2)

/-- Relocation of what `regex_to_nfa_helper` returns. -/
def reloc_helper (H0 : Heap) (r : NFA × Nat × Heap) : NFA × Nat × Heap :=
  (NFA.shift H0.states.length r.1, r.2.1, Heap.reloc H0 r.2.2)

/-- The store built for the pattern `x*` in a fresh process. -/
def star_heap (x : Char) : Heap :=
  ⟨[⟨0, false, [(x, [1])], []⟩, ⟨1, false, [], [0, 3]⟩, ⟨2, false, [], [0, 3]⟩,
    ⟨3, true, [], []⟩], 4⟩

/-- The store built for the pattern `x+` in a fresh process. -/
def plus_heap (x : Char) : Heap :=
  ⟨[⟨0, false, [(x, [1])], []⟩, ⟨1, false, [], [0, 3]⟩, ⟨2, false, [], [0]⟩,
    ⟨3, true, [], []⟩], 4⟩

/-- The store built for the pattern `x?` in a fresh process. -/
def optional_heap (x : Char) : Heap :=
  ⟨[⟨0, false, [(x, [1])], []⟩, ⟨1, false, [], [3]⟩, ⟨2, false, [], [0, 3]⟩,
    ⟨3, true, [], []⟩], 4⟩

/-- The store built for the pattern `x|y` in a fresh process. -/
def alt_heap (x y : Char) : Heap :=
  ⟨[⟨0, false, [(x, [1])], []⟩, ⟨1, false, [], [5]⟩, ⟨2, false, [(y, [3])], []⟩,
    ⟨3, false, [], [5]⟩, ⟨4, false, [], [0, 2]⟩, ⟨5, true, [], []⟩], 6⟩

/-- The store built for the pattern `ab|c` in a fresh process. -/
def ab_or_c_heap : Heap :=
  ⟨[⟨0, false, [('a', [1])], []⟩, ⟨1, false, [], [2]⟩, ⟨2, false, [('b', [3])], []⟩,
    ⟨3, false, [], [7]⟩, ⟨4, false, [('c', [5])], []⟩, ⟨5, false, [], [7]⟩,
    ⟨6, false, [], [0, 4]⟩, ⟨7, true, [], []⟩], 8⟩

/-- The store built for the pattern `(ab)*` in a fresh process. -/
def group_star_heap : Heap :=
  ⟨[⟨0, false, [('a', [1])], []⟩, ⟨1, false, [], [2]⟩, ⟨2, false, [('b', [3])], []⟩,
    ⟨3, false, [], [0, 5]⟩, ⟨4, false, [], [0, 5]⟩, ⟨5, true, [], []⟩], 6⟩

/-- The store built for the pattern `(a|b)c` in a fresh process. -/
def group_then_c_heap : Heap :=
  ⟨[⟨0, false, [('a', [1])], []⟩, ⟨1, false, [], [5]⟩, ⟨2, false, [('b', [3])], []⟩,
    ⟨3, false, [], [5]⟩, ⟨4, false, [], [0, 2]⟩, ⟨5, false, [], [6]⟩,
    ⟨6, false, [('c', [7])], []⟩, ⟨7, true, [], []⟩], 8⟩

/-- The store built for the pattern `(a|b)c` by a process whose counter is
`INT_MAX - 2` at the start: the counter wraps around to `INT_MIN` after the
third object. -/
def group_then_c_heap_wrapped : Heap :=
  ⟨[⟨2147483645, false, [('a', [1])], []⟩, ⟨2147483646, false, [], [5]⟩,
    ⟨2147483647, false, [('b', [3])], []⟩, ⟨-2147483648, false, [], [5]⟩,
    ⟨-2147483647, false, [], [0, 2]⟩, ⟨-2147483646, false, [], [6]⟩,
    ⟨-2147483645, false, [('c', [7])], []⟩, ⟨-2147483644, true, [], []⟩], -2147483643⟩

/-- The shape of the store after the first `k` characters of the literal
pattern `p` have been compiled and concatenated in a fresh process: object
`2 * i` carries the transition on the `i`-th character to object `2 * i + 1`,
which is linked by an epsilon edge to object `2 * i + 2`, except for the last
one, which is the only end state. -/
def chain_inv (p : List Char) (k : Nat) (H : Heap) : Prop :=
  H.states.length = 2 * k ∧
  (∀ i c, i < k → p[i]? = some c →
    ∃ id, H.states[2 * i]? = some ⟨id, false, [(c, [2 * i + 1])], []⟩) ∧
  (∀ i, i < k →
    ∃ id, H.states[2 * i + 1]? =
      some ⟨id, decide (i + 1 = k), [], if i + 1 = k then [] else [2 * i + 2]⟩)

/-- The part of `regex_to_nfa_helper` that follows the main loop: drain the
operator stack and return the top operand. -/
def helper_finish (r : Heap × List NFA × List Char × Nat) : Res (NFA × Nat × Heap) := do
  let (H, nfa_stack, _) ← drain r.2.2.1.length r.1 r.2.1 r.2.2.1
  match nfa_stack with
  | [] => .error .undefined_behaviour
  | top :: _ => return (top, r.2.2.2, H)

/-- The set of current states after the first `i + 1` characters of a literal
pattern of length `n` have been matched. -/
def chain_cur (n i : Nat) : List Nat :=
  if i + 1 = n then [2 * i + 1] else [2 * i + 1, 2 * i + 2]

/-- The run did not stop for lack of fuel: it produced a value or hit
undefined behaviour of the source. -/
def fuel_sufficed {α : Type} (x : Res α) : Prop := x ≠ .error .out_of_fuel
/-- The set `current_states` of `NFA::matches` at the end of the loop over the
input `s`. -/
def NFA.current_after (H : Heap) (nfa : NFA) (s : List Char) : Res (List Nat) := do
  let current_states ← NFA.epsilon_closure (H.states.length + 1) H nfa.start []
  s.foldlM (NFA.step H) current_states

/-- The store built for a pattern `x k y` whose middle character is skipped. -/
def skip_heap (x y : Char) : Heap :=
  ⟨[⟨0, false, [(x, [1])], []⟩, ⟨1, true, [], []⟩, ⟨2, false, [(y, [3])], []⟩,
    ⟨3, true, [], []⟩], 4⟩

/-- A character the main loop skips: not alphanumeric and none of `( ) * + ? |`. -/
def ignored (k : Char) : Prop :=
  isalnum k = false ∧ k ≠ '(' ∧ k ≠ ')' ∧ k ≠ '*' ∧ k ≠ '+' ∧ k ≠ '?' ∧ k ≠ '|'

instance ignored_decidable (k : Char) : Decidable (ignored k) := by
  unfold ignored; infer_instance

/-- Every `)` of the pattern closes an earlier `(`: scanning from the left with
`depth` parentheses open, no `)` is met while none is open. -/
def closes_earlier : Nat → List Char → Bool
  | _, [] => true
  | depth, c :: rest =>
    if c = '(' then closes_earlier (depth + 1) rest
    else if c = ')' then decide (0 < depth) && closes_earlier (depth - 1) rest
    else closes_earlier depth rest

/-- The single-accept invariant of a fragment `f` whose construction used the
nodes `nodes`: the end node is one of them, all of them are allocated, and the
end node is the only one of them with `is_end = true`. -/
def single_accept (H : Heap) (nodes : List Nat) (f : NFA) : Prop :=
  f.end_ ∈ nodes ∧ ∀ p ∈ nodes, ∃ st, H.states[p]? = some st ∧ (st.is_end = true ↔ p = f.end_)

/-- The flag `is_end` of the object at `p`, if `p` is allocated. -/
def is_end_at (H : Heap) (p : Nat) : Option Bool := (H.states[p]?).map (·.is_end)

/-- A finite automaton in the store: every pointer kept in an allocated object
points to an allocated object. -/
def Heap.wf (H : Heap) : Prop :=
  ∀ (p : Nat) (st : State), H.states[p]? = some st →
    (∀ q ∈ st.epsilon_transitions, q < H.states.length) ∧
    (∀ kv ∈ st.transitions, ∀ q ∈ kv.2, q < H.states.length)

/-- There is an epsilon edge from `p` to `q`. -/
def eps_edge (H : Heap) (p q : Nat) : Prop :=
  ∃ st, H.states[p]? = some st ∧ q ∈ st.epsilon_transitions

/-- Node `q` is reachable from `p` by following zero or more epsilon edges. -/
def eps_reach (H : Heap) : Nat → Nat → Prop := Relation.ReflTransGen (eps_edge H)

/-- Node `q` is a destination of the edges of `p` labelled `c`. -/
def labeled_edge (H : Heap) (p : Nat) (c : Char) (q : Nat) : Prop :=
  ∃ st dests, H.states[p]? = some st ∧ st.transitions.lookup c = some dests ∧ q ∈ dests

/-- A `std::set<State*>` of allocated objects: strictly increasing, all below
the number `N` of allocated objects. -/
@[reducible] def set_ok (N : Nat) (l : List Nat) : Prop := l.Pairwise (· < ·) ∧ ∀ x ∈ l, x < N

/-- What a call `epsilon_closure(p, closure)` achieves when `closure` held `cl`
before and holds `r` after. -/
@[reducible] def closure_post (H : Heap) (p : Nat) (cl r : List Nat) : Prop :=
  set_ok H.states.length r ∧ cl.length ≤ r.length ∧ (∀ x ∈ cl, x ∈ r) ∧ p ∈ r ∧
  (∀ x ∈ r, x ∉ cl → ∀ y, eps_edge H x y → y ∈ r) ∧
  (∀ x ∈ r, x ∈ cl ∨ eps_reach H p x)

/-- What a loop of `epsilon_closure` calls over the nodes `ps` achieves. -/
@[reducible] def closure_fold_post (H : Heap) (ps cl r : List Nat) : Prop :=
  set_ok H.states.length r ∧ cl.length ≤ r.length ∧ (∀ x ∈ cl, x ∈ r) ∧ (∀ p ∈ ps, p ∈ r) ∧
  (∀ x ∈ r, x ∉ cl → ∀ y, eps_edge H x y → y ∈ r) ∧
  (∀ x ∈ r, x ∈ cl ∨ ∃ p ∈ ps, eps_reach H p x)

/-- Reference subset simulation, initial set: the nodes reachable from the
start node by epsilon edges. -/
def ref_start (H : Heap) (start : Nat) : Set Nat := {q | eps_reach H start q}

/-- Reference subset simulation, one input symbol: the union, over the nodes
of `cur`, of the epsilon-reachable sets of their destinations on `c`. -/
def ref_step (H : Heap) (cur : Set Nat) (c : Char) : Set Nat :=
  {q | ∃ p ∈ cur, ∃ d, labeled_edge H p c d ∧ eps_reach H d q}

/-- Reference subset simulation: the set `current` after the input `s`. -/
def ref_current (H : Heap) (start : Nat) (s : List Char) : Set Nat :=
  s.foldl (ref_step H) (ref_start H start)

/-- Reference subset simulation: the match succeeds when the final set holds a
node with `is_end = true`. -/
def ref_matches (H : Heap) (nfa : NFA) (s : List Char) : Prop :=
  ∃ q ∈ ref_current H nfa.start s, ∃ st : State, H.states[q]? = some st ∧ st.is_end = true

/-- A check of `Heap.wf` that can be evaluated. -/
def Heap.wf_check (H : Heap) : Bool :=
  H.states.all fun st =>
    st.epsilon_transitions.all (fun q => decide (q < H.states.length)) &&
    st.transitions.all (fun kv => kv.2.all (fun q => decide (q < H.states.length)))

/-- Both pointers of every fragment of an operand stack point to allocated
objects. -/
def stack_valid (H : Heap) (nfa_stack : List NFA) : Prop :=
  ∀ f ∈ nfa_stack, f.start < H.states.length ∧ f.end_ < H.states.length

/-- The pointers kept in a state are all below `N`. -/
def State.ptrs_lt (N : Nat) (st : State) : Prop :=
  (∀ q ∈ st.epsilon_transitions, q < N) ∧ (∀ kv ∈ st.transitions, ∀ q ∈ kv.2, q < N)

/-- The automaton graph of the store reads the word `w` along a path from node
`p` to node `q`: epsilon edges read nothing, an edge labelled `c` reads `c`. -/
inductive Path (H : Heap) : Nat → List Char → Nat → Prop
  | nil (p : Nat) : Path H p [] p
  | eps (p q r : Nat) (w : List Char) : eps_edge H p q → Path H q w r → Path H p w r
  | sym (p q r : Nat) (c : Char) (w : List Char) :
      labeled_edge H p c q → Path H q w r → Path H p (c :: w) r

/-- The fragment `f` is a sound automaton for the language `L`, built from the
nodes `lo ≤ p < hi` of the store: no edge leaves these nodes, the end node has
no outgoing edge and is the only one among them with `is_end = true`, and the
words read from `f.start` to `f.end_` are those of `L`. -/
structure FragOK (H : Heap) (f : NFA) (lo hi : Nat) (L : Language Char) : Prop where
  start_lo : lo ≤ f.start
  start_hi : f.start < hi
  end_lo : lo ≤ f.end_
  end_hi : f.end_ < hi
  hi_le : hi ≤ H.states.length
  ends : ∀ p, lo ≤ p → p < hi → is_end_at H p = some (decide (p = f.end_))
  eps_in : ∀ p q, lo ≤ p → p < hi → eps_edge H p q → lo ≤ q ∧ q < hi
  lab_in : ∀ p c q, lo ≤ p → p < hi → labeled_edge H p c q → lo ≤ q ∧ q < hi
  end_eps : ∀ q, ¬ eps_edge H f.end_ q
  end_lab : ∀ c q, ¬ labeled_edge H f.end_ c q
  lang : ∀ w, Path H f.start w f.end_ ↔ w ∈ L

/-- The nodes below `n` look the same in the stores `H` and `H2`: same flag
`is_end`, same outgoing edges. -/
def Heap.agree (n : Nat) (H H2 : Heap) : Prop :=
  ∀ p, p < n → is_end_at H2 p = is_end_at H p ∧ (∀ q, eps_edge H2 p q ↔ eps_edge H p q) ∧
    (∀ c q, labeled_edge H2 p c q ↔ labeled_edge H p c q)

/-- The epsilon edges that `kleene_star` (`skip`, `loop`), `plus` (`loop`) and
`optional` (`skip`) add around the fragment `f`: the new start node is
`H.states.length` and the new end node is `H.states.length + 1`. -/
def wrap_eps (H : Heap) (f : NFA) (skip loop : Bool) (a q : Nat) : Prop :=
  (a = H.states.length ∧ q = f.start) ∨
  (skip = true ∧ a = H.states.length ∧ q = H.states.length + 1) ∨
  (loop = true ∧ a = f.end_ ∧ q = f.start) ∨
  (a = f.end_ ∧ q = H.states.length + 1)

/-- The store `H2` is the store `H` with the fragment `f` wrapped by a unary
combinator. -/
structure Wrapped (H H2 : Heap) (f : NFA) (skip loop : Bool) : Prop where
  len : H2.states.length = H.states.length + 2
  ends : ∀ q, is_end_at H2 q =
    if q = H.states.length + 1 then some true
    else if q = f.end_ then some false
    else if q = H.states.length then some false else is_end_at H q
  eps : ∀ a q, eps_edge H2 a q ↔ eps_edge H a q ∨ wrap_eps H f skip loop a q
  lab : ∀ a c q, labeled_edge H2 a c q ↔ labeled_edge H a c q

/-- The language of a wrapped fragment. -/
def wrap_lang (skip loop : Bool) (L : Language Char) : Language Char :=
  (if skip then 1 else 0) + L * (if loop then KStar.kstar L else 1)

/-- The tail shared by the two operand branches of the main loop of
`regex_to_nfa_helper`: the look-ahead for an implicit concatenation, then the
rest of the loop. -/
def after_operand (fuel : Nat) (regex : List Char) (pos : Nat) (H : Heap) (nfa_stack : List NFA)
    (op_stack : List Char) : Res (Heap × List NFA × List Char × Nat) :=
  if implicit_concat regex pos then
    push_op '.' H nfa_stack op_stack >>= fun r => parse_loop fuel regex pos r.1 r.2.1 r.2.2
  else parse_loop fuel regex pos H nfa_stack op_stack

/-- Apply the operators `ops` one after the other, the first one first, to the
operand stack. -/
def apply_ops : List Char → Heap → List NFA → Res (Heap × List NFA)
  | [], H, nfa_stack => .ok (H, nfa_stack)
  | op :: ops, H, nfa_stack =>
    apply_operator H nfa_stack [op] >>= fun r => apply_ops ops r.1 r.2.1

/-- The rest `t` of the pattern starts with an operand: an alphanumeric
character or an opening parenthesis. -/
def starts_operand (t : List Char) : Bool :=
  match t.head? with
  | some d => isalnum d || d == '('
  | none => false

/-- The loop `while (!op_stack.empty() && precedence(op_stack.back()) >= prec)`
stops at once on the operator stack `ops`. -/
def stops (prec : Nat) (ops : List Char) : Prop :=
  ∀ op ∈ ops.head?, precedence op < prec

/-- Every completed run of the main loop from the second state is the outcome
of a run of the main loop from the first state. -/
def Reaches (regex : List Char) (pos : Nat) (H : Heap) (nfa_stack : List NFA)
    (op_stack : List Char) (pos2 : Nat) (H2 : Heap) (nfa_stack2 : List NFA)
    (op_stack2 : List Char) : Prop :=
  ∀ f r, parse_loop f regex pos2 H2 nfa_stack2 op_stack2 = .ok r →
    ∃ g, parse_loop g regex pos H nfa_stack op_stack = .ok r

/-- The language a postfix operator makes of the language of its operand:
`*` zero or more, `+` one or more, `?` zero or one. -/
def apply_post (c : Char) (L : Language Char) : Language Char :=
  if c = '*' then KStar.kstar L
  else if c = '+' then L * KStar.kstar L
  else if c = '?' then 1 + L
  else L

/-- The syntactic classes of the grammar
`expr ::= term ('|' term)*`, `term ::= prim* prim post*`,
`prim ::= alphanumeric | '(' expr ')'`, `post ::= '*' | '+' | '?'`.
A term is either `last` or `pre` followed by `last`, where `pre` is one or more
primaries and `last` is one primary followed by zero or more postfix
operators. -/
inductive Level where
  | prim
  | pre
  | last
  | term
  | expr

/-- The pattern `x` is generated by the grammar at the given level and denotes
the language `L` under the usual semantics: a postfix operator binds tighter
than concatenation, which binds tighter than alternation. -/
inductive Generates : Level → List Char → Language Char → Prop
  | atom (c : Char) : isalnum c = true → Generates .prim [c] ({[c]} : Language Char)
  | group (e : List Char) (L : Language Char) :
      Generates .expr e L → Generates .prim ('(' :: e ++ [')']) L
  | pre_one (p : List Char) (L : Language Char) : Generates .prim p L → Generates .pre p L
  | pre_cons (x p : List Char) (L1 L2 : Language Char) :
      Generates .pre x L1 → Generates .prim p L2 → Generates .pre (x ++ p) (L1 * L2)
  | last_prim (p : List Char) (L : Language Char) : Generates .prim p L → Generates .last p L
  | last_post (x : List Char) (c : Char) (L : Language Char) :
      Generates .last x L → (c = '*' ∨ c = '+' ∨ c = '?') →
      Generates .last (x ++ [c]) (apply_post c L)
  | term_last (x : List Char) (L : Language Char) : Generates .last x L → Generates .term x L
  | term_pre (x y : List Char) (L1 L2 : Language Char) :
      Generates .pre x L1 → Generates .last y L2 → Generates .term (x ++ y) (L1 * L2)
  | expr_term (x : List Char) (L : Language Char) : Generates .term x L → Generates .expr x L
  | expr_alt (x y : List Char) (L1 L2 : Language Char) :
      Generates .expr x L1 → Generates .term y L2 → Generates .expr (x ++ '|' :: y) (L1 + L2)

/-- What the main loop does on a primary `x` found at `pos`: it allocates a
sound fragment for `L` above the old store, pushes it, and goes on with the
look-ahead for an implicit concatenation. -/
def PrimSpec (x : List Char) (L : Language Char) : Prop :=
  ∀ (regex : List Char) (pos : Nat) (t : List Char) (H : Heap) (nfa_stack : List NFA)
    (op_stack : List Char), regex.drop pos = x ++ t →
    ∃ H2 P, Heap.agree H.states.length H H2 ∧
      FragOK H2 P H.states.length H2.states.length L ∧
      ∀ f r, after_operand f regex (pos + x.length) H2 (P :: nfa_stack) op_stack = .ok r →
        ∃ g, parse_loop g regex pos H nfa_stack op_stack = .ok r

/-- What the main loop does on one or more primaries `x` that are followed by
another operand: it reaches the state in which one sound fragment for `L` and
the concatenation operator have been pushed. -/
def PreSpec (x : List Char) (L : Language Char) : Prop :=
  ∀ (regex : List Char) (pos : Nat) (t : List Char) (H : Heap) (nfa_stack : List NFA)
    (op_stack : List Char), regex.drop pos = x ++ t → starts_operand t = true →
    stops 2 op_stack →
    ∃ H2 F, Heap.agree H.states.length H H2 ∧
      FragOK H2 F H.states.length H2.states.length L ∧
      Reaches regex pos H nfa_stack op_stack (pos + x.length) H2 (F :: nfa_stack)
        ('.' :: op_stack)

/-- What the main loop does on a piece `x` of the pattern that is not followed
by an operand: it reaches a state with pending operators `opsX` of precedence
at least `k` on top of the old operator stack, and applying the pending
operators leaves one sound fragment for `L` on top of the old operand stack. -/
def TailSpec (k : Nat) (x : List Char) (L : Language Char) : Prop :=
  ∀ (regex : List Char) (pos : Nat) (t : List Char) (H : Heap) (nfa_stack : List NFA)
    (op_stack : List Char), regex.drop pos = x ++ t → starts_operand t = false →
    stops k op_stack →
    ∃ H1 n1 opsX, Reaches regex pos H nfa_stack op_stack (pos + x.length) H1 n1
        (opsX ++ op_stack) ∧
      (∀ op ∈ opsX, k ≤ precedence op) ∧
      ∃ H2 T, apply_ops opsX H1 n1 = .ok (H2, T :: nfa_stack) ∧
        Heap.agree H.states.length H H2 ∧ FragOK H2 T H.states.length H2.states.length L

/-- The statement proved about each level of the grammar. -/
def Statement : Level → List Char → Language Char → Prop
  | .prim, x, L => PrimSpec x L
  | .pre, x, L => PreSpec x L
  | .last, x, L => TailSpec 3 x L
  | .term, x, L => TailSpec 2 x L
  | .expr, x, L => TailSpec 1 x L

/-! ## Results: elementary rewriting rules -/

@[simp] theorem ok_bind {α β : Type} (a : α) (f : α → Res β) :
    ((Except.ok a : Res α) >>= f) = f a := rfl

@[simp] theorem error_bind {α β : Type} (e : Fault) (f : α → Res β) :
    ((Except.error e : Res α) >>= f) = Except.error e := rfl

@[simp] theorem pure_eq_ok {α : Type} (a : α) : (pure a : Res α) = Except.ok a := rfl

@[simp] theorem map_ok {α β : Type} (g : α → β) (a : α) :
    g <$> (Except.ok a : Res α) = Except.ok (g a) := rfl

@[simp] theorem map_error {α β : Type} (g : α → β) (e : Fault) :
    g <$> (Except.error e : Res α) = Except.error e := rfl

/-! ## The counter `state_id` -/

/-- An `int` value is not changed by `int_wrap`. -/
theorem int_wrap_of_int (n : Int) (h1 : -2147483648 ≤ n) (h2 : n ≤ 2147483647) :
    int_wrap n = n := by
  unfold int_wrap
  omega

/-- The result of `int_wrap` is an `int` value. -/
theorem int_wrap_range (n : Int) : -2147483648 ≤ int_wrap n ∧ int_wrap n ≤ 2147483647 := by
  unfold int_wrap
  omega

/-- The increment `state_id++` at `INT_MAX` gives `INT_MIN`. -/
theorem new_State_at_int_max (states : List State) :
    (Heap.new_State ⟨states, 2147483647⟩).2.state_id = -2147483648 := by
  simp only [Heap.new_State]
  decide

/-- Below `INT_MAX` the increment `state_id++` adds one. -/
theorem new_State_below_int_max (H : Heap) (h1 : -2147483648 ≤ H.state_id)
    (h2 : H.state_id < 2147483647) : (H.new_State).2.state_id = H.state_id + 1 := by
  simp only [Heap.new_State]
  exact int_wrap_of_int _ (by omega) (by omega)

/-! ## Relocation

Running the program in a store that already holds objects gives the same
result as running it in the empty store, with every new pointer moved up by the
number of objects that were there before.  -/

theorem reloc_init (H0 : Heap) : Heap.reloc H0 Heap.init = H0 := by
  cases H0; simp [Heap.reloc, Heap.init, counter_after]

theorem reloc_length (H0 Hx : Heap) :
    (Heap.reloc H0 Hx).states.length = H0.states.length + Hx.states.length := by
  simp [Heap.reloc]

theorem reloc_getElem? (H0 Hx : Heap) (p : Nat) :
    (Heap.reloc H0 Hx).states[H0.states.length + p]? =
      (Hx.states[p]?).map
        (State.shift H0.states.length (counter_after p H0.state_id)) := by
  simp [Heap.reloc, List.getElem?_append_right]

theorem new_State_reloc (H0 Hx : Heap) :
    (Heap.reloc H0 Hx).new_State =
      (H0.states.length + Hx.new_State.1, Heap.reloc H0 Hx.new_State.2) := by
  simp [Heap.new_State, Heap.reloc, State.shift, counter_after, List.mapIdx_concat]

theorem deref_reloc (H0 Hx : Heap) (p : Nat) :
    (Heap.reloc H0 Hx).deref (H0.states.length + p) =
      State.shift H0.states.length (counter_after p H0.state_id) <$> Hx.deref p := by
  unfold Heap.deref
  rw [reloc_getElem?]
  cases Hx.states[p]? <;> simp

theorem store_reloc (H0 Hx : Heap) (p : Nat) (f g : State → State)
    (hfg : ∀ i st, g (State.shift H0.states.length i st) =
      State.shift H0.states.length i (f st)) :
    (Heap.reloc H0 Hx).store (H0.states.length + p) g = Heap.reloc H0 <$> Hx.store p f := by
  unfold Heap.store
  rw [reloc_getElem?]
  cases h : Hx.states[p]? with
  | none => simp
  | some st =>
    simp [Heap.reloc, hfg, List.set_append_right, List.mapIdx_set]

theorem set_is_end_reloc (H0 Hx : Heap) (p : Nat) (v : Bool) :
    (Heap.reloc H0 Hx).set_is_end (H0.states.length + p) v =
      Heap.reloc H0 <$> Hx.set_is_end p v :=
  store_reloc H0 Hx p _ _ (fun _ _ => rfl)

theorem push_epsilon_reloc (H0 Hx : Heap) (p q : Nat) :
    (Heap.reloc H0 Hx).push_epsilon (H0.states.length + p) (H0.states.length + q) =
      Heap.reloc H0 <$> Hx.push_epsilon p q :=
  store_reloc H0 Hx p _ _ (fun i st => by simp [State.shift])

theorem map_push_shift (b : Nat) (c : Char) (q : Nat) (m : List (Char × List Nat)) :
    map_push c (b + q) (m.map (fun kv => (kv.1, kv.2.map (b + ·)))) =
      (map_push c q m).map (fun kv => (kv.1, kv.2.map (b + ·))) := by
  induction m with
  | nil => simp [map_push]
  | cons kv m ih =>
    obtain ⟨k, v⟩ := kv
    by_cases h : k = c <;> simp [map_push, h, ih]

theorem push_transition_reloc (H0 Hx : Heap) (p : Nat) (c : Char) (q : Nat) :
    (Heap.reloc H0 Hx).push_transition (H0.states.length + p) c (H0.states.length + q) =
      Heap.reloc H0 <$> Hx.push_transition p c q :=
  store_reloc H0 Hx p _ _ (fun i st => by simp [State.shift, map_push_shift])

theorem concat_reloc (H0 Hx : Heap) (n1 n2 : NFA) :
    NFA.concat (Heap.reloc H0 Hx) (n1.shift H0.states.length) (n2.shift H0.states.length) =
      reloc_frag H0 <$> NFA.concat Hx n1 n2 := by
  simp only [NFA.concat, NFA.shift, set_is_end_reloc, push_epsilon_reloc, bind_map_left, map_bind]
  simp [reloc_frag, NFA.shift]

theorem alternation_reloc (H0 Hx : Heap) (n1 n2 : NFA) :
    NFA.alternation (Heap.reloc H0 Hx) (n1.shift H0.states.length) (n2.shift H0.states.length) =
      reloc_frag H0 <$> NFA.alternation Hx n1 n2 := by
  simp only [NFA.alternation, NFA.shift, new_State_reloc, set_is_end_reloc, push_epsilon_reloc,
    bind_map_left, map_bind]
  simp [reloc_frag, NFA.shift]

theorem kleene_star_reloc (H0 Hx : Heap) (n : NFA) :
    NFA.kleene_star (Heap.reloc H0 Hx) (n.shift H0.states.length) =
      reloc_frag H0 <$> NFA.kleene_star Hx n := by
  simp only [NFA.kleene_star, NFA.shift, new_State_reloc, set_is_end_reloc, push_epsilon_reloc,
    bind_map_left, map_bind]
  simp [reloc_frag, NFA.shift]

theorem plus_reloc (H0 Hx : Heap) (n : NFA) :
    NFA.plus (Heap.reloc H0 Hx) (n.shift H0.states.length) =
      reloc_frag H0 <$> NFA.plus Hx n := by
  simp only [NFA.plus, NFA.shift, new_State_reloc, set_is_end_reloc, push_epsilon_reloc,
    bind_map_left, map_bind]
  simp [reloc_frag, NFA.shift]

theorem optional_reloc (H0 Hx : Heap) (n : NFA) :
    NFA.optional (Heap.reloc H0 Hx) (n.shift H0.states.length) =
      reloc_frag H0 <$> NFA.optional Hx n := by
  simp only [NFA.optional, NFA.shift, new_State_reloc, set_is_end_reloc, push_epsilon_reloc,
    bind_map_left, map_bind]
  simp [reloc_frag, NFA.shift]

theorem from_char_reloc (H0 Hx : Heap) (c : Char) :
    NFA.from_char (Heap.reloc H0 Hx) c = reloc_frag H0 <$> NFA.from_char Hx c := by
  simp only [NFA.from_char, new_State_reloc, set_is_end_reloc, push_transition_reloc,
    bind_map_left, map_bind]
  simp [reloc_frag, NFA.shift]

theorem apply_operator_reloc (H0 Hx : Heap) (nfa_stack : List NFA) (op_stack : List Char) :
    apply_operator (Heap.reloc H0 Hx) (nfa_stack.map (NFA.shift H0.states.length)) op_stack =
      reloc_parse H0 <$> apply_operator Hx nfa_stack op_stack := by
  unfold apply_operator
  cases op_stack with
  | nil => rfl
  | cons op ops =>
    rcases nfa_stack with _ | ⟨a, _ | ⟨a2, rest⟩⟩ <;>
      simp only [List.map_nil, List.map_cons, concat_reloc, alternation_reloc, kleene_star_reloc,
        plus_reloc, optional_reloc, bind_map_left, map_bind] <;>
      split_ifs <;> simp [reloc_parse, reloc_frag]

theorem reduce_reloc (H0 : Heap) (fuel prec : Nat) (Hx : Heap) (nfa_stack : List NFA)
    (op_stack : List Char) :
    reduce fuel prec (Heap.reloc H0 Hx) (nfa_stack.map (NFA.shift H0.states.length)) op_stack =
      reloc_parse H0 <$> reduce fuel prec Hx nfa_stack op_stack := by
  induction fuel generalizing Hx nfa_stack op_stack with
  | zero =>
    cases op_stack with
    | nil => simp [reduce, reloc_parse]
    | cons op ops => simp only [reduce]; split_ifs <;> simp [reloc_parse]
  | succ fuel ih =>
    cases op_stack with
    | nil => simp [reduce, reloc_parse]
    | cons op ops =>
      simp only [reduce, apply_operator_reloc, bind_map_left, map_bind]
      split_ifs
      · cases apply_operator Hx nfa_stack (op :: ops) with
        | error e => rfl
        | ok r => obtain ⟨H1, n1, o1⟩ := r; simp [reloc_parse, ih]
      · simp [reloc_parse]

theorem drain_reloc (H0 : Heap) (fuel : Nat) (Hx : Heap) (nfa_stack : List NFA)
    (op_stack : List Char) :
    drain fuel (Heap.reloc H0 Hx) (nfa_stack.map (NFA.shift H0.states.length)) op_stack =
      reloc_parse H0 <$> drain fuel Hx nfa_stack op_stack := by
  induction fuel generalizing Hx nfa_stack op_stack with
  | zero =>
    cases op_stack with
    | nil => simp [drain, reloc_parse]
    | cons op ops => simp [drain]
  | succ fuel ih =>
    cases op_stack with
    | nil => simp [drain, reloc_parse]
    | cons op ops =>
      simp only [drain, apply_operator_reloc, bind_map_left, map_bind]
      cases apply_operator Hx nfa_stack (op :: ops) with
      | error e => rfl
      | ok r => obtain ⟨H1, n1, o1⟩ := r; simp [reloc_parse, ih]

theorem push_op_reloc (H0 : Heap) (op : Char) (Hx : Heap) (nfa_stack : List NFA)
    (op_stack : List Char) :
    push_op op (Heap.reloc H0 Hx) (nfa_stack.map (NFA.shift H0.states.length)) op_stack =
      reloc_parse H0 <$> push_op op Hx nfa_stack op_stack := by
  simp only [push_op, reduce_reloc, bind_map_left, map_bind]
  cases reduce op_stack.length (precedence op) Hx nfa_stack op_stack with
  | error e => rfl
  | ok r => obtain ⟨H1, n1, o1⟩ := r; simp [reloc_parse]

theorem parse_reloc (H0 : Heap) (regex : List Char) (fuel : Nat) :
    (∀ pos Hx nfa_stack op_stack,
      parse_loop fuel regex pos (Heap.reloc H0 Hx) (nfa_stack.map (NFA.shift H0.states.length))
          op_stack = reloc_loop H0 <$> parse_loop fuel regex pos Hx nfa_stack op_stack) ∧
    (∀ pos Hx,
      regex_to_nfa_helper fuel regex pos (Heap.reloc H0 Hx) =
        reloc_helper H0 <$> regex_to_nfa_helper fuel regex pos Hx) := by
  induction fuel with
  | zero => constructor <;> intros <;> simp [parse_loop, regex_to_nfa_helper]
  | succ fuel ih =>
    obtain ⟨ihl, ihh⟩ := ih
    have hpush : ∀ (op : Char) (pos : Nat) (Hx : Heap) (nfa_stack : List NFA)
        (op_stack : List Char),
        (push_op op (Heap.reloc H0 Hx) (nfa_stack.map (NFA.shift H0.states.length)) op_stack >>=
          fun x => parse_loop fuel regex pos x.1 x.2.1 x.2.2) =
        reloc_loop H0 <$> (push_op op Hx nfa_stack op_stack >>=
          fun x => parse_loop fuel regex pos x.1 x.2.1 x.2.2) := by
      intro op pos Hx nfa_stack op_stack
      rw [push_op_reloc]
      cases push_op op Hx nfa_stack op_stack with
      | error e => rfl
      | ok r => obtain ⟨H1, n1, o1⟩ := r; simp [reloc_parse, ihl]
    constructor
    · intro pos Hx nfa_stack op_stack
      simp only [parse_loop]
      cases regex[pos]? with
      | none => simp [reloc_loop]
      | some c =>
        simp only []
        split_ifs
        · rw [from_char_reloc]
          cases NFA.from_char Hx c with
          | error e => rfl
          | ok r =>
            obtain ⟨a, H1⟩ := r
            simp only [map_ok, ok_bind, reloc_frag]
            have := hpush '.' (pos + 1) H1 (a :: nfa_stack) op_stack
            simp only [List.map_cons] at this
            exact this
        · rw [from_char_reloc]
          cases NFA.from_char Hx c with
          | error e => rfl
          | ok r =>
            obtain ⟨a, H1⟩ := r
            simp only [map_ok, ok_bind, reloc_frag]
            exact ihl _ _ (a :: nfa_stack) _
        · rw [ihh]
          cases regex_to_nfa_helper fuel regex (pos + 1) Hx with
          | error e => rfl
          | ok r =>
            obtain ⟨a, p1, H1⟩ := r
            simp only [map_ok, ok_bind, reloc_helper]
            split_ifs
            · exact hpush '.' p1 H1 (a :: nfa_stack) op_stack
            · exact ihl _ _ (a :: nfa_stack) _
        · simp [reloc_loop]
        · exact hpush '*' (pos + 1) Hx nfa_stack op_stack
        · exact hpush '+' (pos + 1) Hx nfa_stack op_stack
        · exact hpush '?' (pos + 1) Hx nfa_stack op_stack
        · exact hpush '|' (pos + 1) Hx nfa_stack op_stack
        · exact ihl _ _ _ _
    · intro pos Hx
      simp only [regex_to_nfa_helper]
      have := ihl pos Hx [] []
      simp only [List.map_nil] at this
      rw [this]
      cases parse_loop fuel regex pos Hx [] [] with
      | error e => rfl
      | ok r =>
        obtain ⟨H1, n1, o1, p1⟩ := r
        simp only [map_ok, ok_bind, reloc_loop, drain_reloc]
        cases drain o1.length H1 n1 o1 with
        | error e => rfl
        | ok r2 =>
          obtain ⟨H2, n2, o2⟩ := r2
          cases n2 <;> simp [reloc_parse, reloc_helper]

theorem regex_to_nfa_reloc (H0 Hx : Heap) (regex : List Char) :
    NFA.regex_to_nfa (Heap.reloc H0 Hx) regex = reloc_frag H0 <$> NFA.regex_to_nfa Hx regex := by
  simp only [NFA.regex_to_nfa, (parse_reloc H0 regex _).2]
  cases regex_to_nfa_helper (2 * regex.length + 2) regex 0 Hx with
  | error e => rfl
  | ok r => obtain ⟨a, p1, H1⟩ := r; simp [reloc_helper, reloc_frag]

/-! ## The simulator under relocation, and its fuel -/

theorem set_insert_shift (b x : Nat) (l : List Nat) :
    set_insert (b + x) (l.map (b + ·)) = (set_insert x l).map (b + ·) := by
  induction l with
  | nil => rfl
  | cons y ys ih =>
    simp only [List.map_cons, set_insert, Nat.add_lt_add_iff_left, Nat.add_left_cancel_iff]
    split_ifs <;> simp [ih]

theorem contains_shift (b x : Nat) (l : List Nat) :
    (l.map (b + ·)).contains (b + x) = l.contains x := by
  induction l with
  | nil => rfl
  | cons y ys ih => simp [List.contains_cons, ih]

theorem foldlM_closure_reloc (H0 Hx : Heap) (fuel : Nat)
    (ih : ∀ p cl, NFA.epsilon_closure fuel (Heap.reloc H0 Hx) (H0.states.length + p)
        (cl.map (H0.states.length + ·)) =
      List.map (H0.states.length + ·) <$> NFA.epsilon_closure fuel Hx p cl)
    (eps cl : List Nat) :
    (eps.map (H0.states.length + ·)).foldlM (fun closure next_state =>
        NFA.epsilon_closure fuel (Heap.reloc H0 Hx) next_state closure)
        (cl.map (H0.states.length + ·)) =
      List.map (H0.states.length + ·) <$> eps.foldlM (fun closure next_state =>
        NFA.epsilon_closure fuel Hx next_state closure) cl := by
  induction eps generalizing cl with
  | nil => simp
  | cons q eps ihe =>
    simp only [List.map_cons, List.foldlM_cons, ih]
    cases NFA.epsilon_closure fuel Hx q cl with
    | error e => rfl
    | ok r => simp [ihe]

theorem epsilon_closure_reloc (H0 Hx : Heap) (fuel : Nat) (p : Nat) (cl : List Nat) :
    NFA.epsilon_closure fuel (Heap.reloc H0 Hx) (H0.states.length + p)
        (cl.map (H0.states.length + ·)) =
      List.map (H0.states.length + ·) <$> NFA.epsilon_closure fuel Hx p cl := by
  induction fuel generalizing p cl with
  | zero => rfl
  | succ fuel ih =>
    simp only [NFA.epsilon_closure, contains_shift, deref_reloc]
    split_ifs
    · rfl
    · cases Hx.deref p with
      | error e => rfl
      | ok st =>
        simp only [map_ok, ok_bind, State.shift, set_insert_shift]
        exact foldlM_closure_reloc H0 Hx fuel ih _ _

theorem foldl_insert_shift (b : Nat) (dests result : List Nat) :
    (dests.map (b + ·)).foldl (fun result next_state => set_insert next_state result)
        (result.map (b + ·)) =
      (dests.foldl (fun result next_state => set_insert next_state result) result).map
        (b + ·) := by
  induction dests generalizing result with
  | nil => rfl
  | cons d ds ih => simp only [List.map_cons, List.foldl_cons, set_insert_shift, ih]

theorem lookup_shift (b : Nat) (c : Char) (m : List (Char × List Nat)) :
    (m.map (fun kv => (kv.1, kv.2.map (b + ·)))).lookup c =
      (m.lookup c).map (List.map (b + ·)) := by
  induction m with
  | nil => rfl
  | cons kv m ih =>
    obtain ⟨k, v⟩ := kv
    simp only [List.map_cons, List.lookup_cons]
    cases c == k <;> simp [ih]

theorem move_reloc (H0 Hx : Heap) (p : Nat) (c : Char) (result : List Nat) :
    NFA.move (Heap.reloc H0 Hx) (H0.states.length + p) c (result.map (H0.states.length + ·)) =
      List.map (H0.states.length + ·) <$> NFA.move Hx p c result := by
  simp only [NFA.move, deref_reloc]
  cases Hx.deref p with
  | error e => rfl
  | ok st =>
    simp only [map_ok, ok_bind, State.shift, lookup_shift]
    cases st.transitions.lookup c <;> simp [foldl_insert_shift]

theorem any_end_reloc (H0 Hx : Heap) (cur : List Nat) :
    NFA.any_end (Heap.reloc H0 Hx) (cur.map (H0.states.length + ·)) = NFA.any_end Hx cur := by
  induction cur with
  | nil => rfl
  | cons p ps ih =>
    simp only [List.map_cons, NFA.any_end, deref_reloc]
    cases Hx.deref p with
    | error e => rfl
    | ok st => simp [State.shift, ih]

theorem foldlM_closure_mono (H : Heap) (f f2 : Nat)
    (ih : ∀ p cl r, NFA.epsilon_closure f H p cl = .ok r → NFA.epsilon_closure f2 H p cl = .ok r)
    (eps cl r : List Nat)
    (h : eps.foldlM (fun closure next_state => NFA.epsilon_closure f H next_state closure) cl =
      .ok r) :
    eps.foldlM (fun closure next_state => NFA.epsilon_closure f2 H next_state closure) cl =
      .ok r := by
  induction eps generalizing cl with
  | nil => simpa using h
  | cons q eps ihe =>
    simp only [List.foldlM_cons] at h ⊢
    cases hq : NFA.epsilon_closure f H q cl with
    | error e => rw [hq] at h; cases h
    | ok r1 =>
      rw [hq] at h
      rw [ih q cl r1 hq]
      exact ihe r1 h

theorem epsilon_closure_succ_fuel (H : Heap) (f : Nat) (p : Nat) (cl r : List Nat)
    (h : NFA.epsilon_closure f H p cl = .ok r) : NFA.epsilon_closure (f + 1) H p cl = .ok r := by
  induction f generalizing p cl r with
  | zero => cases h
  | succ f ih =>
    simp only [NFA.epsilon_closure] at h
    rw [NFA.epsilon_closure]
    split_ifs at h ⊢
    · exact h
    · cases hd : H.deref p with
      | error e => rw [hd] at h; cases h
      | ok st =>
        rw [hd] at h
        exact foldlM_closure_mono H f (f + 1) ih _ _ _ h

/-- More fuel never changes a closure that was computed. -/
theorem epsilon_closure_mono (H : Heap) (f k : Nat) (p : Nat) (cl r : List Nat)
    (h : NFA.epsilon_closure f H p cl = .ok r) : NFA.epsilon_closure (f + k) H p cl = .ok r := by
  induction k with
  | zero => exact h
  | succ k ih => exact epsilon_closure_succ_fuel H (f + k) p cl r ih

theorem foldlM_move_reloc (H0 Hx : Heap) (c : Char) (cur result : List Nat) :
    (cur.map (H0.states.length + ·)).foldlM (fun next_states state =>
        NFA.move (Heap.reloc H0 Hx) state c next_states) (result.map (H0.states.length + ·)) =
      List.map (H0.states.length + ·) <$> cur.foldlM (fun next_states state =>
        NFA.move Hx state c next_states) result := by
  induction cur generalizing result with
  | nil => simp
  | cons q cur ih =>
    simp only [List.map_cons, List.foldlM_cons, move_reloc]
    cases NFA.move Hx q c result with
    | error e => rfl
    | ok r => simp [ih]

theorem closure_reloc_ok (H0 Hx : Heap) (p : Nat) (cl r : List Nat)
    (h : NFA.epsilon_closure (Hx.states.length + 1) Hx p cl = .ok r) :
    NFA.epsilon_closure ((Heap.reloc H0 Hx).states.length + 1) (Heap.reloc H0 Hx)
        (H0.states.length + p) (cl.map (H0.states.length + ·)) =
      .ok (r.map (H0.states.length + ·)) := by
  have h1 := epsilon_closure_reloc H0 Hx (Hx.states.length + 1) p cl
  rw [h] at h1
  have h2 := epsilon_closure_mono _ _ H0.states.length _ _ _ h1
  rw [reloc_length]
  rw [show H0.states.length + Hx.states.length + 1 =
    Hx.states.length + 1 + H0.states.length by omega]
  exact h2

theorem foldlM_closure_reloc_ok (H0 Hx : Heap) (next cl r : List Nat)
    (h : next.foldlM (fun current_states state =>
        NFA.epsilon_closure (Hx.states.length + 1) Hx state current_states) cl = .ok r) :
    (next.map (H0.states.length + ·)).foldlM (fun current_states state =>
        NFA.epsilon_closure ((Heap.reloc H0 Hx).states.length + 1) (Heap.reloc H0 Hx) state
          current_states) (cl.map (H0.states.length + ·)) =
      .ok (r.map (H0.states.length + ·)) := by
  induction next generalizing cl with
  | nil => simp at h; simp [h]
  | cons q next ih =>
    simp only [List.map_cons, List.foldlM_cons] at h ⊢
    cases hq : NFA.epsilon_closure (Hx.states.length + 1) Hx q cl with
    | error e => rw [hq] at h; cases h
    | ok r1 =>
      rw [hq] at h
      rw [closure_reloc_ok H0 Hx q cl r1 hq]
      exact ih r1 h

theorem step_reloc_ok (H0 Hx : Heap) (cur : List Nat) (c : Char) (r : List Nat)
    (h : NFA.step Hx cur c = .ok r) :
    NFA.step (Heap.reloc H0 Hx) (cur.map (H0.states.length + ·)) c =
      .ok (r.map (H0.states.length + ·)) := by
  unfold NFA.step at h ⊢
  have hm := foldlM_move_reloc H0 Hx c cur []
  simp only [List.map_nil] at hm
  rw [hm]
  cases hmv : cur.foldlM (fun next_states state => NFA.move Hx state c next_states) [] with
  | error e => rw [hmv] at h; cases h
  | ok nx =>
    rw [hmv] at h
    have := foldlM_closure_reloc_ok H0 Hx nx [] r h
    simpa using this

theorem foldlM_step_reloc_ok (H0 Hx : Heap) (s : List Char) (cur r : List Nat)
    (h : s.foldlM (NFA.step Hx) cur = .ok r) :
    s.foldlM (NFA.step (Heap.reloc H0 Hx)) (cur.map (H0.states.length + ·)) =
      .ok (r.map (H0.states.length + ·)) := by
  induction s generalizing cur with
  | nil => simp at h; simp [h]
  | cons c s ih =>
    simp only [List.foldlM_cons] at h ⊢
    cases hc : NFA.step Hx cur c with
    | error e => rw [hc] at h; cases h
    | ok r1 =>
      rw [hc] at h
      rw [step_reloc_ok H0 Hx cur c r1 hc]
      exact ih r1 h

/-- A match that succeeds in a store succeeds with the same answer after the
store has been relocated behind other objects. -/
theorem matches_reloc_ok (H0 Hx : Heap) (nfa : NFA) (s : List Char) (v : Bool)
    (h : NFA.matches_ Hx nfa s = .ok v) :
    NFA.matches_ (Heap.reloc H0 Hx) (nfa.shift H0.states.length) s = .ok v := by
  unfold NFA.matches_ at h ⊢
  cases h0 : NFA.epsilon_closure (Hx.states.length + 1) Hx nfa.start [] with
  | error e => rw [h0] at h; cases h
  | ok c0 =>
    rw [h0] at h
    have := closure_reloc_ok H0 Hx nfa.start [] c0 h0
    simp only [List.map_nil] at this
    simp only [NFA.shift, this, ok_bind] at h ⊢
    cases h1 : s.foldlM (NFA.step Hx) c0 with
    | error e => rw [h1] at h; cases h
    | ok c1 =>
      rw [h1] at h
      rw [foldlM_step_reloc_ok H0 Hx s c0 c1 h1]
      simpa [any_end_reloc] using h

theorem getElem?_append_two_fst {α : Type} (l : List α) (a b : α) :
    (l ++ [a, b])[l.length]? = some a := by
  rw [List.getElem?_append_right (le_refl _), Nat.sub_self]; rfl

theorem getElem?_append_two_snd {α : Type} (l : List α) (a b : α) :
    (l ++ [a, b])[l.length + 1]? = some b := by
  rw [List.getElem?_append_right (Nat.le_add_right _ _), Nat.add_sub_cancel_left]; rfl

theorem set_append_two_fst {α : Type} (l : List α) (a b a2 : α) :
    (l ++ [a, b]).set l.length a2 = l ++ [a2, b] := by
  simp [List.set_append_right]

theorem set_append_two_snd {α : Type} (l : List α) (a b b2 : α) :
    (l ++ [a, b]).set (l.length + 1) b2 = l ++ [a, b2] := by
  simp [List.set_append_right]

theorem from_char_eq (H : Heap) (c : Char) :
    NFA.from_char H c = .ok (⟨H.states.length, H.states.length + 1⟩, H.with_char c) := by
  simp only [NFA.from_char, Heap.new_State, Heap.push_transition, Heap.set_is_end, Heap.store,
    Heap.with_char, List.append_assoc, List.singleton_append, List.length_append,
    List.length_singleton, getElem?_append_two_fst, getElem?_append_two_snd,
    set_append_two_fst, set_append_two_snd, ok_bind, map_push, pure_eq_ok]

theorem parse_loop_alnum (fuel : Nat) (regex : List Char) (pos : Nat) (H : Heap)
    (nfa_stack : List NFA) (op_stack : List Char) (c : Char) (hc : regex[pos]? = some c)
    (hx : isalnum c = true) :
    parse_loop (fuel + 1) regex pos H nfa_stack op_stack =
      if implicit_concat regex (pos + 1) then
        push_op '.' (H.with_char c) (⟨H.states.length, H.states.length + 1⟩ :: nfa_stack)
          op_stack >>= fun r => parse_loop fuel regex (pos + 1) r.1 r.2.1 r.2.2
      else
        parse_loop fuel regex (pos + 1) (H.with_char c)
          (⟨H.states.length, H.states.length + 1⟩ :: nfa_stack) op_stack := by
  rw [parse_loop]
  simp only [hc, hx, if_true, from_char_eq, ok_bind]

/-! ## Running the simulator from a known set -/

theorem regex_matches_lift (H0 : Heap) (pattern s : List Char) (v : Bool)
    (h : regex_matches Heap.init pattern s = .ok v) : regex_matches H0 pattern s = .ok v := by
  unfold regex_matches at h ⊢
  have hr := regex_to_nfa_reloc H0 Heap.init pattern
  rw [reloc_init] at hr
  rw [hr]
  cases hp : NFA.regex_to_nfa Heap.init pattern with
  | error e => rw [hp] at h; cases h
  | ok r =>
    obtain ⟨nfa, H⟩ := r
    rw [hp] at h
    exact matches_reloc_ok H0 H nfa s v h

theorem regex_matches_eq (pattern s : List Char) (nfa : NFA) (H : Heap) (cur : List Nat)
    (hp : NFA.regex_to_nfa Heap.init pattern = .ok (nfa, H))
    (hc : NFA.epsilon_closure (H.states.length + 1) H nfa.start [] = .ok cur) :
    regex_matches Heap.init pattern s = NFA.run_from H cur s := by
  simp only [regex_matches, hp, ok_bind, NFA.matches_, hc, NFA.run_from]

theorem run_from_nil (H : Heap) (cur : List Nat) : NFA.run_from H cur [] = NFA.any_end H cur := rfl

theorem run_from_cons (H : Heap) (cur nx : List Nat) (c : Char) (s : List Char)
    (h : NFA.step H cur c = .ok nx) : NFA.run_from H cur (c :: s) = NFA.run_from H nx s := by
  simp only [NFA.run_from, List.foldlM_cons, h, ok_bind]

theorem step_nil (H : Heap) (c : Char) : NFA.step H [] c = .ok [] := rfl

theorem run_from_dead (H : Heap) (s : List Char) : NFA.run_from H [] s = .ok false := by
  induction s with
  | nil => rfl
  | cons c s ih => rw [run_from_cons H [] [] c s (step_nil H c)]; exact ih

theorem step_eq (H : Heap) (cur : List Nat) (c : Char) (nx r : List Nat)
    (hm : cur.foldlM (fun next_states state => NFA.move H state c next_states) [] = .ok nx)
    (hc : nx.foldlM (fun current_states state =>
      NFA.epsilon_closure (H.states.length + 1) H state current_states) [] = .ok r) :
    NFA.step H cur c = .ok r := by
  simp only [NFA.step, hm, ok_bind, hc]

theorem lookup_eq_none_of_keys (c : Char) (K : List Char) (m : List (Char × List Nat))
    (hK : ∀ kv ∈ m, kv.1 ∈ K) (hc : c ∉ K) : m.lookup c = none := by
  induction m with
  | nil => rfl
  | cons kv m ih =>
    obtain ⟨k, v⟩ := kv
    have hk : k ∈ K := hK (k, v) (List.mem_cons_self _ _)
    have hne : (c == k) = false := by
      rw [beq_eq_false_iff_ne]; intro h; exact hc (h ▸ hk)
    simp only [List.lookup_cons, hne]
    exact ih (fun kv h => hK kv (List.mem_cons_of_mem _ h))

theorem foldlM_move_dead (H : Heap) (cur : List Nat) (K : List Char) (c : Char)
    (h : keys_within H cur K) (hc : c ∉ K) (result : List Nat) :
    cur.foldlM (fun next_states state => NFA.move H state c next_states) result =
      .ok result := by
  induction cur with
  | nil => rfl
  | cons p ps ih =>
    obtain ⟨st, hst, hk⟩ := h p (List.mem_cons_self _ _)
    simp only [List.foldlM_cons, NFA.move, Heap.deref, hst, ok_bind,
      lookup_eq_none_of_keys c K _ hk hc, pure_eq_ok]
    exact ih (fun q hq => h q (List.mem_cons_of_mem _ hq))

/-- A symbol that labels no transition of the current states empties the set. -/
theorem step_dead (H : Heap) (cur : List Nat) (K : List Char) (c : Char)
    (h : keys_within H cur K) (hc : c ∉ K) : NFA.step H cur c = .ok [] :=
  step_eq H cur c [] [] (foldlM_move_dead H cur K c h hc []) rfl

theorem run_from_cons_dead (H : Heap) (cur : List Nat) (K : List Char) (c : Char)
    (s : List Char) (h : keys_within H cur K) (hc : c ∉ K) :
    NFA.run_from H cur (c :: s) = .ok false := by
  rw [run_from_cons H cur [] c s (step_dead H cur K c h hc)]; exact run_from_dead H s

theorem lookup_single_self (c : Char) (v : List Nat) : List.lookup c [(c, v)] = some v := by
  simp [List.lookup]

theorem lookup_single_ne (c k : Char) (v : List Nat) (h : ¬c = k) :
    List.lookup c [(k, v)] = none := by
  have : (c == k) = false := by simpa using h
  simp [List.lookup, this]

theorem helper_eq_finish (fuel : Nat) (regex : List Char) (pos : Nat) (H : Heap) :
    regex_to_nfa_helper (fuel + 1) regex pos H =
      parse_loop fuel regex pos H [] [] >>= helper_finish := by
  rw [regex_to_nfa_helper]
  rfl

theorem parse_loop_end (fuel : Nat) (regex : List Char) (pos : Nat) (H : Heap)
    (nfa_stack : List NFA) (op_stack : List Char) (h : regex[pos]? = none) :
    parse_loop (fuel + 1) regex pos H nfa_stack op_stack =
      .ok (H, nfa_stack, op_stack, pos) := by
  rw [parse_loop]
  simp only [h]

/-! ## The fuel of the parser is never used up -/

theorem fuel_sufficed_ok {α : Type} (a : α) : fuel_sufficed (Except.ok a : Res α) := by
  intro h; cases h

theorem fuel_sufficed_undefined {α : Type} :
    fuel_sufficed (Except.error Fault.undefined_behaviour : Res α) := by
  intro h; cases h

theorem fuel_sufficed_bind {α β : Type} (x : Res α) (f : α → Res β) (hx : fuel_sufficed x)
    (hf : ∀ a, x = .ok a → fuel_sufficed (f a)) : fuel_sufficed (x >>= f) := by
  cases x with
  | error e =>
    cases e with
    | undefined_behaviour => exact fuel_sufficed_undefined
    | out_of_fuel => exact absurd rfl hx
  | ok a => exact hf a rfl

theorem store_fuel (H : Heap) (p : Nat) (f : State → State) : fuel_sufficed (H.store p f) := by
  unfold Heap.store
  cases H.states[p]? with
  | none => exact fuel_sufficed_undefined
  | some st => exact fuel_sufficed_ok _

theorem concat_fuel (H : Heap) (n1 n2 : NFA) : fuel_sufficed (NFA.concat H n1 n2) := by
  unfold NFA.concat Heap.set_is_end Heap.push_epsilon
  repeat first
    | exact fuel_sufficed_ok _
    | refine fuel_sufficed_bind _ _ (store_fuel _ _ _) (fun _ _ => ?_)

theorem alternation_fuel (H : Heap) (n1 n2 : NFA) :
    fuel_sufficed (NFA.alternation H n1 n2) := by
  unfold NFA.alternation Heap.set_is_end Heap.push_epsilon
  repeat first
    | exact fuel_sufficed_ok _
    | refine fuel_sufficed_bind _ _ (store_fuel _ _ _) (fun _ _ => ?_)

theorem kleene_star_fuel (H : Heap) (n : NFA) : fuel_sufficed (NFA.kleene_star H n) := by
  unfold NFA.kleene_star Heap.set_is_end Heap.push_epsilon
  repeat first
    | exact fuel_sufficed_ok _
    | refine fuel_sufficed_bind _ _ (store_fuel _ _ _) (fun _ _ => ?_)

theorem plus_fuel (H : Heap) (n : NFA) : fuel_sufficed (NFA.plus H n) := by
  unfold NFA.plus Heap.set_is_end Heap.push_epsilon
  repeat first
    | exact fuel_sufficed_ok _
    | refine fuel_sufficed_bind _ _ (store_fuel _ _ _) (fun _ _ => ?_)

theorem optional_fuel (H : Heap) (n : NFA) : fuel_sufficed (NFA.optional H n) := by
  unfold NFA.optional Heap.set_is_end Heap.push_epsilon
  repeat first
    | exact fuel_sufficed_ok _
    | refine fuel_sufficed_bind _ _ (store_fuel _ _ _) (fun _ _ => ?_)

theorem apply_operator_fuel (H : Heap) (nfa_stack : List NFA) (op_stack : List Char) :
    fuel_sufficed (apply_operator H nfa_stack op_stack) := by
  unfold apply_operator
  cases op_stack with
  | nil => exact fuel_sufficed_undefined
  | cons op ops =>
    rcases nfa_stack with _ | ⟨a, _ | ⟨a2, rest⟩⟩ <;> simp only [] <;> split_ifs <;>
      first
      | exact fuel_sufficed_undefined
      | exact fuel_sufficed_ok _
      | exact fuel_sufficed_bind _ _ (concat_fuel _ _ _) (fun _ _ => fuel_sufficed_ok _)
      | exact fuel_sufficed_bind _ _ (alternation_fuel _ _ _) (fun _ _ => fuel_sufficed_ok _)
      | exact fuel_sufficed_bind _ _ (kleene_star_fuel _ _) (fun _ _ => fuel_sufficed_ok _)
      | exact fuel_sufficed_bind _ _ (plus_fuel _ _) (fun _ _ => fuel_sufficed_ok _)
      | exact fuel_sufficed_bind _ _ (optional_fuel _ _) (fun _ _ => fuel_sufficed_ok _)

/-- `apply_operator` pops exactly one operator. -/
theorem apply_operator_pops (H : Heap) (nfa_stack : List NFA) (op_stack : List Char)
    (r : Heap × List NFA × List Char) (h : apply_operator H nfa_stack op_stack = .ok r) :
    r.2.2.length + 1 = op_stack.length := by
  unfold apply_operator at h
  cases op_stack with
  | nil => cases h
  | cons op ops =>
    have key : ∀ (x : Res (NFA × Heap)) (rest : List NFA),
        (x >>= fun q => (pure (q.2, q.1 :: rest, ops) : Res _)) = .ok r →
          r.2.2.length + 1 = (op :: ops).length := by
      intro x rest hx
      cases x with
      | error e => cases hx
      | ok q => cases hx; rfl
    rcases nfa_stack with _ | ⟨a, _ | ⟨a2, rest⟩⟩ <;> simp only [] at h <;> split_ifs at h <;>
      first
      | exact key _ _ h
      | (cases h; rfl)

theorem reduce_fuel (fuel prec : Nat) (H : Heap) (nfa_stack : List NFA) (op_stack : List Char)
    (hf : op_stack.length ≤ fuel) : fuel_sufficed (reduce fuel prec H nfa_stack op_stack) := by
  induction fuel generalizing H nfa_stack op_stack with
  | zero =>
    cases op_stack with
    | nil => exact fuel_sufficed_ok _
    | cons op ops => simp at hf
  | succ fuel ih =>
    cases op_stack with
    | nil => exact fuel_sufficed_ok _
    | cons op ops =>
      simp only [reduce]
      split_ifs
      · refine fuel_sufficed_bind _ _ (apply_operator_fuel _ _ _) (fun r hr => ?_)
        have := apply_operator_pops _ _ _ r hr
        obtain ⟨H1, n1, o1⟩ := r
        exact ih H1 n1 o1 (by simp only [List.length_cons] at hf this; omega)
      · exact fuel_sufficed_ok _

theorem drain_fuel (fuel : Nat) (H : Heap) (nfa_stack : List NFA) (op_stack : List Char)
    (hf : op_stack.length ≤ fuel) : fuel_sufficed (drain fuel H nfa_stack op_stack) := by
  induction fuel generalizing H nfa_stack op_stack with
  | zero =>
    cases op_stack with
    | nil => exact fuel_sufficed_ok _
    | cons op ops => simp at hf
  | succ fuel ih =>
    cases op_stack with
    | nil => exact fuel_sufficed_ok _
    | cons op ops =>
      simp only [drain]
      refine fuel_sufficed_bind _ _ (apply_operator_fuel _ _ _) (fun r hr => ?_)
      have := apply_operator_pops _ _ _ r hr
      obtain ⟨H1, n1, o1⟩ := r
      exact ih H1 n1 o1 (by simp only [List.length_cons] at hf this; omega)

theorem push_op_fuel (op : Char) (H : Heap) (nfa_stack : List NFA) (op_stack : List Char) :
    fuel_sufficed (push_op op H nfa_stack op_stack) :=
  fuel_sufficed_bind _ _ (reduce_fuel _ _ _ _ _ (le_refl _)) (fun _ _ => fuel_sufficed_ok _)

theorem from_char_fuel (H : Heap) (c : Char) : fuel_sufficed (NFA.from_char H c) := by
  rw [from_char_eq]; exact fuel_sufficed_ok _

/-- With `2 * (regex.size() - pos) + 1` units of fuel the main loop does not run
out of fuel, and it never moves `pos` backwards; likewise for
`regex_to_nfa_helper` with one more unit. -/
theorem parse_fuel (regex : List Char) (fuel : Nat) :
    (∀ pos H nfa_stack op_stack, 2 * (regex.length - pos) + 1 ≤ fuel →
      fuel_sufficed (parse_loop fuel regex pos H nfa_stack op_stack) ∧
      ∀ r, parse_loop fuel regex pos H nfa_stack op_stack = .ok r → pos ≤ r.2.2.2) ∧
    (∀ pos H, 2 * (regex.length - pos) + 2 ≤ fuel →
      fuel_sufficed (regex_to_nfa_helper fuel regex pos H) ∧
      ∀ r, regex_to_nfa_helper fuel regex pos H = .ok r → pos ≤ r.2.1) := by
  induction fuel with
  | zero => constructor <;> intro _ _ <;> intros <;> omega
  | succ fuel ih =>
    obtain ⟨ihl, ihh⟩ := ih
    -- going on from a later position, after a step that may have failed
    have hstep : ∀ (pos pos1 : Nat) (x : Res (Heap × List NFA × List Char)), fuel_sufficed x →
        pos < pos1 → pos < regex.length → 2 * (regex.length - pos) + 1 ≤ fuel + 1 →
        fuel_sufficed (x >>= fun q => parse_loop fuel regex pos1 q.1 q.2.1 q.2.2) ∧
        ∀ r, (x >>= fun q => parse_loop fuel regex pos1 q.1 q.2.1 q.2.2) = .ok r →
          pos ≤ r.2.2.2 := by
      intro pos pos1 x hx hlt1 hlt hf
      constructor
      · exact fuel_sufficed_bind _ _ hx (fun q _ => (ihl pos1 _ _ _ (by omega)).1)
      · intro r hr
        cases x with
        | error e => cases hr
        | ok q =>
          have := (ihl pos1 q.1 q.2.1 q.2.2 (by omega)).2 r hr
          omega
    have hplain : ∀ (pos pos1 : Nat) (H : Heap) (nfa_stack : List NFA) (op_stack : List Char),
        pos < pos1 → pos < regex.length → 2 * (regex.length - pos) + 1 ≤ fuel + 1 →
        fuel_sufficed (parse_loop fuel regex pos1 H nfa_stack op_stack) ∧
        ∀ r, parse_loop fuel regex pos1 H nfa_stack op_stack = .ok r → pos ≤ r.2.2.2 := by
      intro pos pos1 H nfa_stack op_stack hlt1 hlt hf
      have := ihl pos1 H nfa_stack op_stack (by omega)
      exact ⟨this.1, fun r hr => by have := this.2 r hr; omega⟩
    constructor
    · intro pos H nfa_stack op_stack hf
      by_cases hlt : pos < regex.length
      · have hc : regex[pos]? = some regex[pos] := List.getElem?_eq_getElem hlt
        rw [parse_loop]
        simp only [hc]
        split_ifs
        · simp only [from_char_eq, ok_bind]
          exact hstep pos (pos + 1) _ (push_op_fuel _ _ _ _) (by omega) hlt hf
        · simp only [from_char_eq, ok_bind]
          exact hplain pos (pos + 1) _ _ _ (by omega) hlt hf
        · have hh1 := ihh (pos + 1) H (by omega)
          cases hh : regex_to_nfa_helper fuel regex (pos + 1) H with
          | error e =>
            rw [hh] at hh1
            simp only [error_bind]
            refine ⟨?_, fun r hr => by cases hr⟩
            cases e with
            | undefined_behaviour => exact fuel_sufficed_undefined
            | out_of_fuel => exact absurd rfl hh1.1
          | ok q =>
            have hq := hh1.2 q hh
            obtain ⟨a, p1, H1⟩ := q
            simp only [ok_bind]
            split_ifs
            · exact hstep pos p1 _ (push_op_fuel _ _ _ _) (by simp only at hq; omega) hlt hf
            · exact hplain pos p1 _ _ _ (by simp only at hq; omega) hlt hf
        · exact ⟨fuel_sufficed_ok _, fun r hr => by cases hr; exact Nat.le_succ _⟩
        · exact hstep pos (pos + 1) _ (push_op_fuel _ _ _ _) (by omega) hlt hf
        · exact hstep pos (pos + 1) _ (push_op_fuel _ _ _ _) (by omega) hlt hf
        · exact hstep pos (pos + 1) _ (push_op_fuel _ _ _ _) (by omega) hlt hf
        · exact hstep pos (pos + 1) _ (push_op_fuel _ _ _ _) (by omega) hlt hf
        · exact hplain pos (pos + 1) _ _ _ (by omega) hlt hf
      · rw [parse_loop_end _ _ _ _ _ _ (List.getElem?_eq_none (by omega))]
        exact ⟨fuel_sufficed_ok _, fun r hr => by cases hr; exact le_refl _⟩
    · intro pos H hf
      rw [helper_eq_finish]
      have hl := ihl pos H [] [] (by omega)
      constructor
      · refine fuel_sufficed_bind _ _ hl.1 (fun q _ => ?_)
        refine fuel_sufficed_bind _ _ (drain_fuel _ _ _ _ (le_refl _)) (fun q2 _ => ?_)
        obtain ⟨H2, n2, o2⟩ := q2
        cases n2 with
        | nil => exact fuel_sufficed_undefined
        | cons top rest => exact fuel_sufficed_ok _
      · intro r hr
        cases hq : parse_loop fuel regex pos H [] [] with
        | error e => rw [hq] at hr; cases hr
        | ok q =>
          rw [hq] at hr
          have hpos := hl.2 q hq
          simp only [ok_bind, helper_finish] at hr
          cases hd : drain q.2.2.1.length q.1 q.2.1 q.2.2.1 with
          | error e => rw [hd] at hr; cases hr
          | ok q2 =>
            rw [hd] at hr
            obtain ⟨H2, n2, o2⟩ := q2
            cases n2 with
            | nil => cases hr
            | cons top rest => cases hr; exact hpos

/-- `regex_to_nfa` never stops for lack of fuel: on every store and every
pattern it returns a fragment or hits undefined behaviour of the source. -/
theorem regex_to_nfa_fuel (H : Heap) (regex : List Char) :
    fuel_sufficed (NFA.regex_to_nfa H regex) :=
  fuel_sufficed_bind _ _ ((parse_fuel regex _).2 0 H (by omega)).1
    (fun _ _ => fuel_sufficed_ok _)

/-! ## What each store operation and each combinator does to the `is_end` flags -/

theorem is_end_at_lt (H : Heap) (p : Nat) (b : Bool) (h : is_end_at H p = some b) :
    p < H.states.length := by
  unfold is_end_at at h
  cases hp : H.states[p]? with
  | none => rw [hp] at h; cases h
  | some st => exact (List.getElem?_eq_some.mp hp).1

theorem new_State_spec (H : Heap) :
    (H.new_State).1 = H.states.length ∧
      (H.new_State).2.states.length = H.states.length + 1 ∧
      ∀ q, is_end_at (H.new_State).2 q =
        if q = H.states.length then some false else is_end_at H q := by
  refine ⟨rfl, by simp [Heap.new_State], fun q => ?_⟩
  simp only [Heap.new_State, is_end_at, List.getElem?_append]
  by_cases h1 : q < H.states.length
  · have h2 : q ≠ H.states.length := by omega
    simp [h1, h2]
  · by_cases h2 : q = H.states.length
    · simp [h2]
    · have h3 : H.states.length ≤ q := by omega
      have h4 : q - H.states.length ≠ 0 := by omega
      obtain ⟨m, hm⟩ := Nat.exists_eq_succ_of_ne_zero h4
      simp [h1, h2, List.getElem?_eq_none h3, hm]

theorem store_spec (H : Heap) (p : Nat) (f : State → State) (hp : p < H.states.length) :
    ∃ H2, H.store p f = .ok H2 ∧ H2.states.length = H.states.length ∧
      ∀ q, H2.states[q]? = if q = p then (H.states[p]?).map f else H.states[q]? := by
  unfold Heap.store
  rw [List.getElem?_eq_getElem hp]
  refine ⟨_, rfl, by simp, fun q => ?_⟩
  by_cases hq : q = p
  · subst hq; simp [List.getElem?_set_self hp]
  · have hq2 : p ≠ q := fun h => hq h.symm
    simp [hq, List.getElem?_set_ne hq2]

theorem set_is_end_spec (H : Heap) (p : Nat) (b : Bool) (hp : p < H.states.length) :
    ∃ H2, H.set_is_end p b = .ok H2 ∧ H2.states.length = H.states.length ∧
      ∀ q, is_end_at H2 q = if q = p then some b else is_end_at H q := by
  obtain ⟨H2, h1, h2, h3⟩ := store_spec H p (fun st => { st with is_end := b }) hp
  refine ⟨H2, h1, h2, fun q => ?_⟩
  simp only [is_end_at, h3]
  by_cases hq : q = p
  · simp [hq, List.getElem?_eq_getElem hp]
  · simp [hq]

theorem push_epsilon_spec (H : Heap) (p x : Nat) (hp : p < H.states.length) :
    ∃ H2, H.push_epsilon p x = .ok H2 ∧ H2.states.length = H.states.length ∧
      ∀ q, is_end_at H2 q = is_end_at H q := by
  obtain ⟨H2, h1, h2, h3⟩ := store_spec H p
    (fun st => { st with epsilon_transitions := st.epsilon_transitions ++ [x] }) hp
  refine ⟨H2, h1, h2, fun q => ?_⟩
  simp only [is_end_at, h3]
  by_cases hq : q = p
  · simp [hq, List.getElem?_eq_getElem hp]
  · simp [hq]

theorem push_transition_spec (H : Heap) (p : Nat) (c : Char) (x : Nat)
    (hp : p < H.states.length) :
    ∃ H2, H.push_transition p c x = .ok H2 ∧ H2.states.length = H.states.length ∧
      ∀ q, is_end_at H2 q = is_end_at H q := by
  obtain ⟨H2, h1, h2, h3⟩ := store_spec H p
    (fun st => { st with transitions := map_push c x st.transitions }) hp
  refine ⟨H2, h1, h2, fun q => ?_⟩
  simp only [is_end_at, h3]
  by_cases hq : q = p
  · simp [hq, List.getElem?_eq_getElem hp]
  · simp [hq]

theorem single_accept_iff (H : Heap) (nodes : List Nat) (f : NFA) :
    single_accept H nodes f ↔
      f.end_ ∈ nodes ∧ ∀ p ∈ nodes, ∃ b, is_end_at H p = some b ∧ (b = true ↔ p = f.end_) := by
  unfold single_accept is_end_at
  constructor
  · rintro ⟨h1, h2⟩
    refine ⟨h1, fun p hp => ?_⟩
    obtain ⟨st, hst, hiff⟩ := h2 p hp
    exact ⟨st.is_end, by simp [hst], hiff⟩
  · rintro ⟨h1, h2⟩
    refine ⟨h1, fun p hp => ?_⟩
    obtain ⟨b, hb, hiff⟩ := h2 p hp
    cases hst : H.states[p]? with
    | none => rw [hst] at hb; cases hb
    | some st =>
      rw [hst] at hb
      simp only [Option.map_some', Option.some.injEq] at hb
      exact ⟨st, rfl, by rw [hb]; exact hiff⟩
theorem concat_spec (H : Heap) (f1 f2 : NFA) (h1 : f1.end_ < H.states.length) :
    ∃ H2, NFA.concat H f1 f2 = .ok (⟨f1.start, f2.end_⟩, H2) ∧
      H2.states.length = H.states.length ∧
      ∀ q, is_end_at H2 q = if q = f1.end_ then some false else is_end_at H q := by
  obtain ⟨Ha, ha1, ha2, ha3⟩ := set_is_end_spec H f1.end_ false h1
  obtain ⟨Hb, hb1, hb2, hb3⟩ := push_epsilon_spec Ha f1.end_ f2.start (by omega)
  refine ⟨Hb, by simp only [NFA.concat, ha1, hb1, ok_bind, pure_eq_ok], by omega, fun q => ?_⟩
  rw [hb3, ha3]

theorem two_new_States (H : Heap) :
    ∃ Hb, (H.new_State).2.new_State = (H.states.length + 1, Hb) ∧
      Hb.states.length = H.states.length + 2 ∧
      ∀ q, is_end_at Hb q =
        if q = H.states.length + 1 then some false
        else if q = H.states.length then some false else is_end_at H q := by
  obtain ⟨e1, e2, e3⟩ := new_State_spec H
  obtain ⟨g1, g2, g3⟩ := new_State_spec (H.new_State).2
  refine ⟨((H.new_State).2.new_State).2, ?_, by omega, fun q => ?_⟩
  · rw [← e2, ← g1]
  · rw [g3, e3, e2]

theorem alternation_spec (H : Heap) (f1 f2 : NFA) (h1 : f1.end_ < H.states.length)
    (h2 : f2.end_ < H.states.length) :
    ∃ H2, NFA.alternation H f1 f2 = .ok (⟨H.states.length, H.states.length + 1⟩, H2) ∧
      H2.states.length = H.states.length + 2 ∧
      ∀ q, is_end_at H2 q =
        if q = H.states.length + 1 then some true
        else if q = f2.end_ then some false
        else if q = f1.end_ then some false
        else if q = H.states.length then some false else is_end_at H q := by
  obtain ⟨H0, hn, hl0, he0⟩ := two_new_States H
  obtain ⟨Ha, ha1, ha2, ha3⟩ := push_epsilon_spec H0 H.states.length f1.start (by omega)
  obtain ⟨Hb, hb1, hb2, hb3⟩ := push_epsilon_spec Ha H.states.length f2.start (by omega)
  obtain ⟨Hc, hc1, hc2, hc3⟩ := set_is_end_spec Hb f1.end_ false (by omega)
  obtain ⟨Hd, hd1, hd2, hd3⟩ := set_is_end_spec Hc f2.end_ false (by omega)
  obtain ⟨He, he1, he2, he3⟩ := push_epsilon_spec Hd f1.end_ (H.states.length + 1) (by omega)
  obtain ⟨Hf, hf1, hf2, hf3⟩ := push_epsilon_spec He f2.end_ (H.states.length + 1) (by omega)
  obtain ⟨Hg, hg1, hg2, hg3⟩ := set_is_end_spec Hf (H.states.length + 1) true (by omega)
  refine ⟨Hg, ?_, by omega, fun q => ?_⟩
  · have hn1 : H.new_State = (H.states.length, (H.new_State).2) := rfl
    simp only [NFA.alternation]
    rw [hn1]
    simp only [hn, ha1, hb1, hc1, hd1, he1, hf1, hg1, ok_bind, pure_eq_ok]
  · rw [hg3, hf3, he3, hd3, hc3, hb3, ha3, he0]
    by_cases c1 : q = H.states.length + 1 <;> simp [c1]

theorem kleene_star_spec (H : Heap) (f : NFA) (h1 : f.end_ < H.states.length) :
    ∃ H2, NFA.kleene_star H f = .ok (⟨H.states.length, H.states.length + 1⟩, H2) ∧
      H2.states.length = H.states.length + 2 ∧
      ∀ q, is_end_at H2 q =
        if q = H.states.length + 1 then some true
        else if q = f.end_ then some false
        else if q = H.states.length then some false else is_end_at H q := by
  obtain ⟨H0, hn, hl0, he0⟩ := two_new_States H
  obtain ⟨Ha, ha1, ha2, ha3⟩ := push_epsilon_spec H0 H.states.length f.start (by omega)
  obtain ⟨Hb, hb1, hb2, hb3⟩ := push_epsilon_spec Ha H.states.length (H.states.length + 1)
    (by omega)
  obtain ⟨Hc, hc1, hc2, hc3⟩ := set_is_end_spec Hb f.end_ false (by omega)
  obtain ⟨Hd, hd1, hd2, hd3⟩ := push_epsilon_spec Hc f.end_ f.start (by omega)
  obtain ⟨He, he1, he2, he3⟩ := push_epsilon_spec Hd f.end_ (H.states.length + 1) (by omega)
  obtain ⟨Hg, hg1, hg2, hg3⟩ := set_is_end_spec He (H.states.length + 1) true (by omega)
  refine ⟨Hg, ?_, by omega, fun q => ?_⟩
  · have hn1 : H.new_State = (H.states.length, (H.new_State).2) := rfl
    simp only [NFA.kleene_star]
    rw [hn1]
    simp only [hn, ha1, hb1, hc1, hd1, he1, hg1, ok_bind, pure_eq_ok]
  · rw [hg3, he3, hd3, hc3, hb3, ha3, he0]
    by_cases c1 : q = H.states.length + 1 <;> simp [c1]

theorem plus_spec (H : Heap) (f : NFA) (h1 : f.end_ < H.states.length) :
    ∃ H2, NFA.plus H f = .ok (⟨H.states.length, H.states.length + 1⟩, H2) ∧
      H2.states.length = H.states.length + 2 ∧
      ∀ q, is_end_at H2 q =
        if q = H.states.length + 1 then some true
        else if q = f.end_ then some false
        else if q = H.states.length then some false else is_end_at H q := by
  obtain ⟨H0, hn, hl0, he0⟩ := two_new_States H
  obtain ⟨Ha, ha1, ha2, ha3⟩ := push_epsilon_spec H0 H.states.length f.start (by omega)
  obtain ⟨Hc, hc1, hc2, hc3⟩ := set_is_end_spec Ha f.end_ false (by omega)
  obtain ⟨Hd, hd1, hd2, hd3⟩ := push_epsilon_spec Hc f.end_ f.start (by omega)
  obtain ⟨He, he1, he2, he3⟩ := push_epsilon_spec Hd f.end_ (H.states.length + 1) (by omega)
  obtain ⟨Hg, hg1, hg2, hg3⟩ := set_is_end_spec He (H.states.length + 1) true (by omega)
  refine ⟨Hg, ?_, by omega, fun q => ?_⟩
  · have hn1 : H.new_State = (H.states.length, (H.new_State).2) := rfl
    simp only [NFA.plus]
    rw [hn1]
    simp only [hn, ha1, hc1, hd1, he1, hg1, ok_bind, pure_eq_ok]
  · rw [hg3, he3, hd3, hc3, ha3, he0]
    by_cases c1 : q = H.states.length + 1 <;> simp [c1]

theorem optional_spec (H : Heap) (f : NFA) (h1 : f.end_ < H.states.length) :
    ∃ H2, NFA.optional H f = .ok (⟨H.states.length, H.states.length + 1⟩, H2) ∧
      H2.states.length = H.states.length + 2 ∧
      ∀ q, is_end_at H2 q =
        if q = H.states.length + 1 then some true
        else if q = f.end_ then some false
        else if q = H.states.length then some false else is_end_at H q := by
  obtain ⟨H0, hn, hl0, he0⟩ := two_new_States H
  obtain ⟨Ha, ha1, ha2, ha3⟩ := push_epsilon_spec H0 H.states.length f.start (by omega)
  obtain ⟨Hb, hb1, hb2, hb3⟩ := push_epsilon_spec Ha H.states.length (H.states.length + 1)
    (by omega)
  obtain ⟨Hc, hc1, hc2, hc3⟩ := set_is_end_spec Hb f.end_ false (by omega)
  obtain ⟨He, he1, he2, he3⟩ := push_epsilon_spec Hc f.end_ (H.states.length + 1) (by omega)
  obtain ⟨Hg, hg1, hg2, hg3⟩ := set_is_end_spec He (H.states.length + 1) true (by omega)
  refine ⟨Hg, ?_, by omega, fun q => ?_⟩
  · have hn1 : H.new_State = (H.states.length, (H.new_State).2) := rfl
    simp only [NFA.optional]
    rw [hn1]
    simp only [hn, ha1, hb1, hc1, he1, hg1, ok_bind, pure_eq_ok]
  · rw [hg3, he3, hc3, hb3, ha3, he0]
    by_cases c1 : q = H.states.length + 1 <;> simp [c1]

theorem from_char_spec (H : Heap) (c : Char) :
    ∃ H2, NFA.from_char H c = .ok (⟨H.states.length, H.states.length + 1⟩, H2) ∧
      H2.states.length = H.states.length + 2 ∧
      ∀ q, is_end_at H2 q =
        if q = H.states.length + 1 then some true
        else if q = H.states.length then some false else is_end_at H q := by
  obtain ⟨H0, hn, hl0, he0⟩ := two_new_States H
  obtain ⟨Ha, ha1, ha2, ha3⟩ := push_transition_spec H0 H.states.length c
    (H.states.length + 1) (by omega)
  obtain ⟨Hg, hg1, hg2, hg3⟩ := set_is_end_spec Ha (H.states.length + 1) true (by omega)
  refine ⟨Hg, ?_, by omega, fun q => ?_⟩
  · have hn1 : H.new_State = (H.states.length, (H.new_State).2) := rfl
    simp only [NFA.from_char]
    rw [hn1]
    simp only [hn, ha1, hg1, ok_bind, pure_eq_ok]
  · rw [hg3, ha3, he0]
    by_cases c1 : q = H.states.length + 1 <;> simp [c1]

/-! ## The epsilon closure: termination and result -/

theorem mem_set_insert (x y : Nat) (l : List Nat) : y ∈ set_insert x l ↔ y = x ∨ y ∈ l := by
  induction l with
  | nil => simp [set_insert]
  | cons z zs ih =>
    simp only [set_insert]
    split_ifs with h1 h2
    · simp
    · subst h2; simp
    · simp only [List.mem_cons, ih]
      tauto

theorem set_insert_pairwise (x : Nat) (l : List Nat) (h : l.Pairwise (· < ·)) :
    (set_insert x l).Pairwise (· < ·) := by
  induction l with
  | nil => simp [set_insert]
  | cons z zs ih =>
    simp only [set_insert]
    rw [List.pairwise_cons] at h
    split_ifs with h1 h2
    · rw [List.pairwise_cons]
      refine ⟨fun a ha => ?_, List.pairwise_cons.mpr h⟩
      rcases List.mem_cons.mp ha with rfl | ha
      · exact h1
      · exact lt_trans h1 (h.1 a ha)
    · exact List.pairwise_cons.mpr h
    · rw [List.pairwise_cons]
      refine ⟨fun a ha => ?_, ih h.2⟩
      rcases (mem_set_insert x a zs).mp ha with rfl | ha
      · omega
      · exact h.1 a ha

theorem length_set_insert (x : Nat) (l : List Nat) (h : x ∉ l) :
    (set_insert x l).length = l.length + 1 := by
  induction l with
  | nil => rfl
  | cons z zs ih =>
    simp only [List.mem_cons, not_or] at h
    simp only [set_insert]
    split_ifs with h1 h2
    · rfl
    · exact absurd h2 h.1
    · simp [ih h.2]

theorem length_le_set_insert (x : Nat) (l : List Nat) :
    l.length ≤ (set_insert x l).length := by
  induction l with
  | nil => simp [set_insert]
  | cons z zs ih =>
    simp only [set_insert]
    split_ifs <;> simp
    omega

theorem set_ok_nil (N : Nat) : set_ok N [] :=
  ⟨List.Pairwise.nil, fun _ h => absurd h (List.not_mem_nil _)⟩

theorem set_ok_insert (N x : Nat) (l : List Nat) (h : set_ok N l) (hx : x < N) :
    set_ok N (set_insert x l) :=
  ⟨set_insert_pairwise x l h.1, fun y hy => by
    rcases (mem_set_insert x y l).mp hy with rfl | hy
    · exact hx
    · exact h.2 y hy⟩

theorem set_ok_length_le (N : Nat) (l : List Nat) (h : set_ok N l) : l.length ≤ N := by
  have hnd : l.Nodup := h.1.imp (fun hab => Nat.ne_of_lt hab)
  have hsub : l.toFinset ⊆ Finset.range N := by
    intro x hx
    rw [List.mem_toFinset] at hx
    exact Finset.mem_range.mpr (h.2 x hx)
  have := Finset.card_le_card hsub
  rwa [List.toFinset_card_of_nodup hnd, Finset.card_range] at this

theorem contains_iff_mem (x : Nat) (l : List Nat) : l.contains x = true ↔ x ∈ l := by
  simp

theorem eps_edge_unique (H : Heap) (p : Nat) (st : State) (h : H.states[p]? = some st) (y : Nat) :
    eps_edge H p y ↔ y ∈ st.epsilon_transitions := by
  constructor
  · rintro ⟨st2, h2, hy⟩
    rw [h] at h2
    cases h2
    exact hy
  · exact fun hy => ⟨st, h, hy⟩

/-- The loop over the epsilon successors, given that single calls with the same
fuel behave. -/
theorem closure_fold_spec (H : Heap) (f : Nat)
    (ih : ∀ p cl, p < H.states.length → set_ok H.states.length cl →
      H.states.length + 1 ≤ f + cl.length →
      ∃ r, NFA.epsilon_closure f H p cl = .ok r ∧ closure_post H p cl r)
    (ps : List Nat) (hps : ∀ p ∈ ps, p < H.states.length) :
    ∀ cl, set_ok H.states.length cl → H.states.length + 1 ≤ f + cl.length →
      ∃ r, ps.foldlM (fun closure next_state => NFA.epsilon_closure f H next_state closure) cl =
          .ok r ∧ closure_fold_post H ps cl r := by
  induction ps with
  | nil =>
    intro cl hok _
    exact ⟨cl, rfl, hok, le_refl _, fun _ h => h, fun _ h => absurd h (List.not_mem_nil _),
      fun x hx hn => absurd hx hn, fun x hx => Or.inl hx⟩
  | cons q rest ihp =>
    intro cl hok hfuel
    obtain ⟨r1, hr1, ok1, len1, sub1, mem1, closed1, reach1⟩ :=
      ih q cl (hps q (List.mem_cons_self _ _)) hok hfuel
    obtain ⟨r, hr, ok2, len2, sub2, mem2, closed2, reach2⟩ :=
      ihp (fun p hp => hps p (List.mem_cons_of_mem _ hp)) r1 ok1 (by omega)
    refine ⟨r, by rw [List.foldlM_cons, hr1, ok_bind, hr], ok2, by omega,
      fun x hx => sub2 x (sub1 x hx), ?_, ?_, ?_⟩
    · intro p hp
      rcases List.mem_cons.mp hp with rfl | hp
      · exact sub2 _ mem1
      · exact mem2 p hp
    · intro x hx hn y hy
      by_cases hx1 : x ∈ r1
      · exact sub2 y (closed1 x hx1 hn y hy)
      · exact closed2 x hx hx1 y hy
    · intro x hx
      rcases reach2 x hx with h | ⟨p, hp, hpx⟩
      · rcases reach1 x h with h | h
        · exact Or.inl h
        · exact Or.inr ⟨q, List.mem_cons_self _ _, h⟩
      · exact Or.inr ⟨p, List.mem_cons_of_mem _ hp, hpx⟩

/-- A call of `epsilon_closure` with enough fuel for the nodes not yet in the
set returns, and the new members of the set are exactly the nodes it had to
add: all reachable from `p`, and with all their epsilon successors in the set. -/
theorem closure_spec (H : Heap) (hwf : H.wf) (f : Nat) :
    ∀ p cl, p < H.states.length → set_ok H.states.length cl →
      H.states.length + 1 ≤ f + cl.length →
      ∃ r, NFA.epsilon_closure f H p cl = .ok r ∧ closure_post H p cl r := by
  induction f with
  | zero =>
    intro p cl _ hok hfuel
    have := set_ok_length_le _ _ hok
    omega
  | succ f ih =>
    intro p cl hp hok hfuel
    rw [NFA.epsilon_closure]
    by_cases hc : p ∈ cl
    · have hc2 : cl.contains p = true := (contains_iff_mem p cl).mpr hc
      simp only [hc2, if_true]
      exact ⟨cl, rfl, hok, le_refl _, fun _ h => h, hc, fun x hx hn => absurd hx hn,
        fun x hx => Or.inl hx⟩
    · have hc2 : cl.contains p = false := by
        rw [Bool.eq_false_iff]; exact fun h => hc ((contains_iff_mem p cl).mp h)
      simp only [hc2, Bool.false_eq_true, if_false]
      have hst : H.states[p]? = some H.states[p] := List.getElem?_eq_getElem hp
      have hlen := length_set_insert p cl hc
      obtain ⟨r, hr, ok2, len2, sub2, mem2, closed2, reach2⟩ :=
        closure_fold_spec H f ih H.states[p].epsilon_transitions (hwf p _ hst).1
          (set_insert p cl) (set_ok_insert _ p cl hok hp) (by omega)
      have hpr : p ∈ r := sub2 p ((mem_set_insert p p cl).mpr (Or.inl rfl))
      refine ⟨r, by simp only [Heap.deref, hst, ok_bind, hr], ok2, by omega,
        fun x hx => sub2 x ((mem_set_insert p x cl).mpr (Or.inr hx)), hpr, ?_, ?_⟩
      · intro x hx hn y hy
        by_cases hx1 : x ∈ set_insert p cl
        · rcases (mem_set_insert p x cl).mp hx1 with rfl | h
          · exact mem2 y ((eps_edge_unique H x _ hst y).mp hy)
          · exact absurd h hn
        · exact closed2 x hx hx1 y hy
      · intro x hx
        rcases reach2 x hx with h | ⟨q, hq, hqx⟩
        · rcases (mem_set_insert p x cl).mp h with rfl | h
          · exact Or.inr Relation.ReflTransGen.refl
          · exact Or.inl h
        · exact Or.inr (Relation.ReflTransGen.head ((eps_edge_unique H p _ hst q).mpr hq) hqx)

theorem matches_eq_current_after (H : Heap) (nfa : NFA) (s : List Char) :
    NFA.matches_ H nfa s = NFA.current_after H nfa s >>= NFA.any_end H := by
  simp only [NFA.matches_, NFA.current_after, bind_assoc]

theorem foldlM_step_dead (H : Heap) (t : List Char) :
    t.foldlM (NFA.step H) [] = .ok [] := by
  induction t with
  | nil => rfl
  | cons c t ih => rw [List.foldlM_cons, step_nil, ok_bind, ih]

theorem current_after_append (H : Heap) (nfa : NFA) (s t : List Char) :
    NFA.current_after H nfa (s ++ t) =
      NFA.current_after H nfa s >>= fun cur => t.foldlM (NFA.step H) cur := by
  simp only [NFA.current_after, List.foldlM_append, bind_assoc]

/-! ## The simulator against the reference subset simulation -/

theorem foldl_insert_spec (N : Nat) (dests result : List Nat) (hok : set_ok N result)
    (hd : ∀ d ∈ dests, d < N) :
    set_ok N (dests.foldl (fun result next_state => set_insert next_state result) result) ∧
      ∀ q, q ∈ dests.foldl (fun result next_state => set_insert next_state result) result ↔
        q ∈ result ∨ q ∈ dests := by
  induction dests generalizing result with
  | nil => exact ⟨hok, fun q => by simp⟩
  | cons d ds ih =>
    obtain ⟨h1, h2⟩ := ih (set_insert d result)
      (set_ok_insert N d result hok (hd d (List.mem_cons_self _ _)))
      (fun x hx => hd x (List.mem_cons_of_mem _ hx))
    refine ⟨h1, fun q => ?_⟩
    rw [List.foldl_cons, h2, mem_set_insert, List.mem_cons]
    tauto

theorem lookup_mem (c : Char) (m : List (Char × List Nat)) (v : List Nat)
    (h : m.lookup c = some v) : ∃ kv ∈ m, kv.2 = v := by
  induction m with
  | nil => cases h
  | cons kv m ih =>
    obtain ⟨k, w⟩ := kv
    rw [List.lookup_cons] at h
    cases hk : c == k with
    | true =>
      rw [hk] at h
      exact ⟨(k, w), List.mem_cons_self _ _, by cases h; rfl⟩
    | false =>
      rw [hk] at h
      obtain ⟨kv, hkv, hv⟩ := ih h
      exact ⟨kv, List.mem_cons_of_mem _ hkv, hv⟩

theorem labeled_edge_iff (H : Heap) (p : Nat) (st : State) (h : H.states[p]? = some st)
    (c : Char) (q : Nat) :
    labeled_edge H p c q ↔ ∃ dests, st.transitions.lookup c = some dests ∧ q ∈ dests := by
  constructor
  · rintro ⟨st2, dests, h2, hl, hq⟩
    rw [h] at h2
    cases h2
    exact ⟨dests, hl, hq⟩
  · rintro ⟨dests, hl, hq⟩
    exact ⟨st, dests, h, hl, hq⟩

theorem move_spec (H : Heap) (hwf : H.wf) (p : Nat) (c : Char) (result : List Nat)
    (hp : p < H.states.length) (hok : set_ok H.states.length result) :
    ∃ r, NFA.move H p c result = .ok r ∧ set_ok H.states.length r ∧
      ∀ q, q ∈ r ↔ q ∈ result ∨ labeled_edge H p c q := by
  have hst : H.states[p]? = some H.states[p] := List.getElem?_eq_getElem hp
  simp only [NFA.move, Heap.deref, hst, ok_bind]
  cases hl : H.states[p].transitions.lookup c with
  | none =>
    refine ⟨result, rfl, hok, fun q => ?_⟩
    rw [labeled_edge_iff H p _ hst, hl]
    simp
  | some dests =>
    obtain ⟨kv, hkv, hv⟩ := lookup_mem c _ dests hl
    have hd : ∀ d ∈ dests, d < H.states.length := fun d hd =>
      (hwf p _ hst).2 kv hkv d (hv ▸ hd)
    obtain ⟨h1, h2⟩ := foldl_insert_spec _ dests result hok hd
    refine ⟨_, rfl, h1, fun q => ?_⟩
    rw [h2, labeled_edge_iff H p _ hst, hl]
    simp

theorem move_fold_spec (H : Heap) (hwf : H.wf) (c : Char) (cur : List Nat)
    (hcur : ∀ p ∈ cur, p < H.states.length) :
    ∀ result, set_ok H.states.length result →
      ∃ nx, cur.foldlM (fun next_states state => NFA.move H state c next_states) result =
          .ok nx ∧ set_ok H.states.length nx ∧
        ∀ q, q ∈ nx ↔ q ∈ result ∨ ∃ p ∈ cur, labeled_edge H p c q := by
  induction cur with
  | nil => exact fun result hok => ⟨result, rfl, hok, fun q => by simp⟩
  | cons p ps ih =>
    intro result hok
    obtain ⟨r1, hr1, ok1, m1⟩ := move_spec H hwf p c result (hcur p (List.mem_cons_self _ _)) hok
    obtain ⟨nx, hnx, ok2, m2⟩ := ih (fun q hq => hcur q (List.mem_cons_of_mem _ hq)) r1 ok1
    refine ⟨nx, by rw [List.foldlM_cons, hr1, ok_bind, hnx], ok2, fun q => ?_⟩
    rw [m2, m1]
    simp only [List.mem_cons, exists_eq_or_imp]
    tauto

/-- A set is closed when it holds the epsilon successors of its members. -/
theorem closure_fold_closed (H : Heap) (hwf : H.wf) (ps : List Nat)
    (hps : ∀ p ∈ ps, p < H.states.length) :
    ∃ r, ps.foldlM (fun current_states state =>
        NFA.epsilon_closure (H.states.length + 1) H state current_states) [] = .ok r ∧
      set_ok H.states.length r ∧ ∀ q, q ∈ r ↔ ∃ p ∈ ps, eps_reach H p q := by
  obtain ⟨r, hr, ok, _, _, mem, closed, reach⟩ :=
    closure_fold_spec H (H.states.length + 1) (closure_spec H hwf _) ps hps []
      (set_ok_nil _) (by simp)
  refine ⟨r, hr, ok, fun q => ⟨fun hq => ?_, ?_⟩⟩
  · rcases reach q hq with h | h
    · exact absurd h (List.not_mem_nil _)
    · exact h
  · rintro ⟨p, hp, hpq⟩
    have hp2 : p ∈ r := mem p hp
    clear hp
    induction hpq with
    | refl => exact hp2
    | tail _ hbc ih => exact closed _ ih (List.not_mem_nil _) _ hbc

theorem step_spec (H : Heap) (hwf : H.wf) (cur : List Nat) (c : Char)
    (hcur : ∀ p ∈ cur, p < H.states.length) :
    ∃ r, NFA.step H cur c = .ok r ∧ set_ok H.states.length r ∧
      ∀ q, q ∈ r ↔ ∃ p ∈ cur, ∃ d, labeled_edge H p c d ∧ eps_reach H d q := by
  obtain ⟨nx, hnx, oknx, mnx⟩ := move_fold_spec H hwf c cur hcur [] (set_ok_nil _)
  obtain ⟨r, hr, okr, mr⟩ := closure_fold_closed H hwf nx oknx.2
  refine ⟨r, step_eq H cur c nx r hnx hr, okr, fun q => ?_⟩
  rw [mr]
  constructor
  · rintro ⟨d, hd, hdq⟩
    rcases (mnx d).mp hd with h | ⟨p, hp, hpd⟩
    · exact absurd h (List.not_mem_nil _)
    · exact ⟨p, hp, d, hpd, hdq⟩
  · rintro ⟨p, hp, d, hpd, hdq⟩
    exact ⟨d, (mnx d).mpr (Or.inr ⟨p, hp, hpd⟩), hdq⟩

theorem any_end_spec (H : Heap) (cur : List Nat) (hcur : ∀ p ∈ cur, p < H.states.length) :
    ∃ b, NFA.any_end H cur = .ok b ∧
      (b = true ↔ ∃ q ∈ cur, ∃ st : State, H.states[q]? = some st ∧ st.is_end = true) := by
  induction cur with
  | nil => exact ⟨false, rfl, by simp⟩
  | cons p ps ih =>
    have hp := hcur p (List.mem_cons_self _ _)
    have hst : H.states[p]? = some H.states[p] := List.getElem?_eq_getElem hp
    obtain ⟨b, hb, hiff⟩ := ih (fun q hq => hcur q (List.mem_cons_of_mem _ hq))
    simp only [NFA.any_end, Heap.deref, hst, ok_bind]
    by_cases he : H.states[p].is_end = true
    · refine ⟨true, by simp [he], ?_⟩
      simp only [true_iff]
      exact ⟨p, List.mem_cons_self _ _, _, hst, he⟩
    · refine ⟨b, by simp [he, hb], ?_⟩
      rw [hiff]
      constructor
      · rintro ⟨q, hq, st, h1, h2⟩
        exact ⟨q, List.mem_cons_of_mem _ hq, st, h1, h2⟩
      · rintro ⟨q, hq, st, h1, h2⟩
        rcases List.mem_cons.mp hq with rfl | hq
        · rw [hst] at h1
          cases h1
          exact absurd h2 he
        · exact ⟨q, hq, st, h1, h2⟩

theorem closure_start_spec (H : Heap) (hwf : H.wf) (p : Nat) (hp : p < H.states.length)
    (f : Nat) (hf : H.states.length + 1 ≤ f) :
    ∃ r, NFA.epsilon_closure f H p [] = .ok r ∧ set_ok H.states.length r ∧
      ∀ q, q ∈ r ↔ eps_reach H p q := by
  obtain ⟨r, hr, ok, _, _, mem, closed, reach⟩ :=
    closure_spec H hwf f p [] hp (set_ok_nil _) (by simpa using hf)
  refine ⟨r, hr, ok, fun q => ⟨fun hq => ?_, fun hpq => ?_⟩⟩
  · rcases reach q hq with h | h
    · exact absurd h (List.not_mem_nil _)
    · exact h
  · induction hpq with
    | refl => exact mem
    | tail _ hbc ih => exact closed _ ih (List.not_mem_nil _) _ hbc

theorem foldlM_step_spec (H : Heap) (hwf : H.wf) (s : List Char) :
    ∀ (cur : List Nat) (S : Set Nat), set_ok H.states.length cur → (∀ q, q ∈ cur ↔ q ∈ S) →
      ∃ r, s.foldlM (NFA.step H) cur = .ok r ∧ set_ok H.states.length r ∧
        ∀ q, q ∈ r ↔ q ∈ s.foldl (ref_step H) S := by
  induction s with
  | nil => exact fun cur S hok hS => ⟨cur, rfl, hok, hS⟩
  | cons c t ih =>
    intro cur S hok hS
    obtain ⟨r1, hr1, ok1, m1⟩ := step_spec H hwf cur c hok.2
    obtain ⟨r, hr, ok2, m2⟩ := ih r1 (ref_step H S c) ok1 (fun q => by
      rw [m1]
      simp only [ref_step, Set.mem_setOf_eq, hS])
    exact ⟨r, by rw [List.foldlM_cons, hr1, ok_bind, hr], ok2, m2⟩

theorem current_after_spec (H : Heap) (hwf : H.wf) (nfa : NFA) (hs : nfa.start < H.states.length)
    (s : List Char) :
    ∃ r, NFA.current_after H nfa s = .ok r ∧ set_ok H.states.length r ∧
      ∀ q, q ∈ r ↔ q ∈ ref_current H nfa.start s := by
  obtain ⟨r0, hr0, ok0, m0⟩ := closure_start_spec H hwf nfa.start hs _ (le_refl _)
  obtain ⟨r, hr, ok, m⟩ := foldlM_step_spec H hwf s r0 (ref_start H nfa.start) ok0 m0
  exact ⟨r, by simp only [NFA.current_after, hr0, ok_bind, hr], ok, m⟩

/-- On a finite automaton `matches` returns a boolean, and the boolean is the
verdict of the reference subset simulation. -/
theorem matches_spec (H : Heap) (hwf : H.wf) (nfa : NFA) (hs : nfa.start < H.states.length)
    (s : List Char) :
    ∃ b, NFA.matches_ H nfa s = .ok b ∧ (b = true ↔ ref_matches H nfa s) := by
  obtain ⟨r, hr, ok, m⟩ := current_after_spec H hwf nfa hs s
  obtain ⟨b, hb, hiff⟩ := any_end_spec H r ok.2
  refine ⟨b, by rw [matches_eq_current_after, hr, ok_bind, hb], ?_⟩
  rw [hiff]
  constructor
  · rintro ⟨q, hq, h⟩
    exact ⟨q, (m q).mp hq, h⟩
  · rintro ⟨q, hq, h⟩
    exact ⟨q, (m q).mpr hq, h⟩

theorem wf_of_check (H : Heap) (h : H.wf_check = true) : H.wf := by
  intro p st hst
  have hmem : st ∈ H.states := List.getElem?_mem hst
  simp only [Heap.wf_check, List.all_eq_true, Bool.and_eq_true, decide_eq_true_eq] at h
  exact ⟨fun q hq => (h st hmem).1 q hq, fun kv hkv q hq => (h st hmem).2 kv hkv q hq⟩

/-! ## Compiled automata are finite automata -/

theorem wf_iff (H : Heap) :
    H.wf ↔ ∀ (p : Nat) (st : State), H.states[p]? = some st → st.ptrs_lt H.states.length :=
  Iff.rfl

theorem wf_init : Heap.init.wf := by
  intro p st h
  simp [Heap.init] at h

theorem ptrs_lt_mono (N M : Nat) (st : State) (h : st.ptrs_lt N) (hNM : N ≤ M) :
    st.ptrs_lt M :=
  ⟨fun q hq => lt_of_lt_of_le (h.1 q hq) hNM, fun kv hkv q hq => lt_of_lt_of_le (h.2 kv hkv q hq) hNM⟩

theorem new_State_wf (H : Heap) (hwf : H.wf) : (H.new_State).2.wf := by
  intro p st hst
  simp only [Heap.new_State, List.length_append, List.length_singleton] at hst ⊢
  rw [List.getElem?_append] at hst
  split_ifs at hst with hlt
  · exact ptrs_lt_mono _ _ st (hwf p st hst) (Nat.le_succ _)
  · have hmem : st ∈ [(⟨H.state_id, false, [], []⟩ : State)] := List.getElem?_mem hst
    simp only [List.mem_singleton] at hmem
    subst hmem
    exact ⟨fun q hq => absurd hq (List.not_mem_nil _), fun kv hkv => absurd hkv (List.not_mem_nil _)⟩

theorem store_wf (H : Heap) (p : Nat) (f : State → State) (hp : p < H.states.length)
    (hwf : H.wf) (hf : ∀ st, st.ptrs_lt H.states.length → (f st).ptrs_lt H.states.length) :
    ∃ H2, H.store p f = .ok H2 ∧ H2.states.length = H.states.length ∧ H2.wf := by
  obtain ⟨H2, h1, h2, h3⟩ := store_spec H p f hp
  refine ⟨H2, h1, h2, fun q st hst => ?_⟩
  rw [h3] at hst
  rw [h2]
  split_ifs at hst with hq
  · rw [List.getElem?_eq_getElem hp] at hst
    simp only [Option.map_some', Option.some.injEq] at hst
    subst hst
    exact hf _ (hwf p _ (List.getElem?_eq_getElem hp))
  · exact hwf q st hst

theorem set_is_end_wf (H : Heap) (p : Nat) (b : Bool) (hp : p < H.states.length)
    (hwf : H.wf) :
    ∃ H2, H.set_is_end p b = .ok H2 ∧ H2.states.length = H.states.length ∧ H2.wf :=
  store_wf H p _ hp hwf (fun _ h => h)

theorem push_epsilon_wf (H : Heap) (p x : Nat) (hp : p < H.states.length)
    (hx : x < H.states.length) (hwf : H.wf) :
    ∃ H2, H.push_epsilon p x = .ok H2 ∧ H2.states.length = H.states.length ∧ H2.wf :=
  store_wf H p _ hp hwf (fun _ h => ⟨fun q hq => by
    rcases List.mem_append.mp hq with hq | hq
    · exact h.1 q hq
    · rw [List.mem_singleton.mp hq]; exact hx, h.2⟩)

theorem map_push_ptrs (N : Nat) (c : Char) (x : Nat) (hx : x < N) (m : List (Char × List Nat))
    (h : ∀ kv ∈ m, ∀ q ∈ kv.2, q < N) : ∀ kv ∈ map_push c x m, ∀ q ∈ kv.2, q < N := by
  induction m with
  | nil =>
    intro kv hkv q hq
    simp only [map_push, List.mem_singleton] at hkv
    subst hkv
    rw [List.mem_singleton.mp hq]; exact hx
  | cons kv0 m ih =>
    obtain ⟨k, v⟩ := kv0
    intro kv hkv q hq
    simp only [map_push] at hkv
    split_ifs at hkv
    · rcases List.mem_cons.mp hkv with rfl | hkv
      · rcases List.mem_append.mp hq with hq | hq
        · exact h (k, v) (List.mem_cons_self _ _) q hq
        · rw [List.mem_singleton.mp hq]; exact hx
      · exact h kv (List.mem_cons_of_mem _ hkv) q hq
    · rcases List.mem_cons.mp hkv with rfl | hkv
      · exact h (k, v) (List.mem_cons_self _ _) q hq
      · exact ih (fun kv hkv => h kv (List.mem_cons_of_mem _ hkv)) kv hkv q hq

theorem push_transition_wf (H : Heap) (p : Nat) (c : Char) (x : Nat) (hp : p < H.states.length)
    (hx : x < H.states.length) (hwf : H.wf) :
    ∃ H2, H.push_transition p c x = .ok H2 ∧ H2.states.length = H.states.length ∧ H2.wf :=
  store_wf H p _ hp hwf (fun _ h => ⟨h.1, map_push_ptrs _ c x hx _ h.2⟩)

theorem two_new_States_wf (H : Heap) (hwf : H.wf) :
    ∃ Hb, (H.new_State).2.new_State = (H.states.length + 1, Hb) ∧
      Hb.states.length = H.states.length + 2 ∧ Hb.wf := by
  obtain ⟨Hb, h1, h2, _⟩ := two_new_States H
  refine ⟨Hb, h1, h2, ?_⟩
  have := new_State_wf _ (new_State_wf H hwf)
  rw [h1] at this
  exact this

theorem concat_wf (H : Heap) (f1 f2 : NFA) (hwf : H.wf) (h1 : f1.end_ < H.states.length)
    (h2 : f2.start < H.states.length) :
    ∃ H2, NFA.concat H f1 f2 = .ok (⟨f1.start, f2.end_⟩, H2) ∧
      H2.states.length = H.states.length ∧ H2.wf := by
  obtain ⟨Ha, ha1, ha2, ha3⟩ := set_is_end_wf H f1.end_ false h1 hwf
  obtain ⟨Hb, hb1, hb2, hb3⟩ := push_epsilon_wf Ha f1.end_ f2.start (by omega) (by omega) ha3
  exact ⟨Hb, by simp only [NFA.concat, ha1, hb1, ok_bind, pure_eq_ok], by omega, hb3⟩

theorem alternation_wf (H : Heap) (f1 f2 : NFA) (hwf : H.wf)
    (v1 : f1.start < H.states.length ∧ f1.end_ < H.states.length)
    (v2 : f2.start < H.states.length ∧ f2.end_ < H.states.length) :
    ∃ H2, NFA.alternation H f1 f2 = .ok (⟨H.states.length, H.states.length + 1⟩, H2) ∧
      H2.states.length = H.states.length + 2 ∧ H2.wf := by
  obtain ⟨H0, hn, hl0, hw0⟩ := two_new_States_wf H hwf
  obtain ⟨Ha, ha1, ha2, ha3⟩ := push_epsilon_wf H0 H.states.length f1.start (by omega)
    (by omega) hw0
  obtain ⟨Hb, hb1, hb2, hb3⟩ := push_epsilon_wf Ha H.states.length f2.start (by omega)
    (by omega) ha3
  obtain ⟨Hc, hc1, hc2, hc3⟩ := set_is_end_wf Hb f1.end_ false (by omega) hb3
  obtain ⟨Hd, hd1, hd2, hd3⟩ := set_is_end_wf Hc f2.end_ false (by omega) hc3
  obtain ⟨He, he1, he2, he3⟩ := push_epsilon_wf Hd f1.end_ (H.states.length + 1) (by omega)
    (by omega) hd3
  obtain ⟨Hf, hf1, hf2, hf3⟩ := push_epsilon_wf He f2.end_ (H.states.length + 1) (by omega)
    (by omega) he3
  obtain ⟨Hg, hg1, hg2, hg3⟩ := set_is_end_wf Hf (H.states.length + 1) true (by omega) hf3
  refine ⟨Hg, ?_, by omega, hg3⟩
  have hn1 : H.new_State = (H.states.length, (H.new_State).2) := rfl
  simp only [NFA.alternation]
  rw [hn1]
  simp only [hn, ha1, hb1, hc1, hd1, he1, hf1, hg1, ok_bind, pure_eq_ok]

theorem kleene_star_wf (H : Heap) (f : NFA) (hwf : H.wf)
    (v : f.start < H.states.length ∧ f.end_ < H.states.length) :
    ∃ H2, NFA.kleene_star H f = .ok (⟨H.states.length, H.states.length + 1⟩, H2) ∧
      H2.states.length = H.states.length + 2 ∧ H2.wf := by
  obtain ⟨H0, hn, hl0, hw0⟩ := two_new_States_wf H hwf
  obtain ⟨Ha, ha1, ha2, ha3⟩ := push_epsilon_wf H0 H.states.length f.start (by omega)
    (by omega) hw0
  obtain ⟨Hb, hb1, hb2, hb3⟩ := push_epsilon_wf Ha H.states.length (H.states.length + 1)
    (by omega) (by omega) ha3
  obtain ⟨Hc, hc1, hc2, hc3⟩ := set_is_end_wf Hb f.end_ false (by omega) hb3
  obtain ⟨Hd, hd1, hd2, hd3⟩ := push_epsilon_wf Hc f.end_ f.start (by omega) (by omega) hc3
  obtain ⟨He, he1, he2, he3⟩ := push_epsilon_wf Hd f.end_ (H.states.length + 1) (by omega)
    (by omega) hd3
  obtain ⟨Hg, hg1, hg2, hg3⟩ := set_is_end_wf He (H.states.length + 1) true (by omega) he3
  refine ⟨Hg, ?_, by omega, hg3⟩
  have hn1 : H.new_State = (H.states.length, (H.new_State).2) := rfl
  simp only [NFA.kleene_star]
  rw [hn1]
  simp only [hn, ha1, hb1, hc1, hd1, he1, hg1, ok_bind, pure_eq_ok]

theorem plus_wf (H : Heap) (f : NFA) (hwf : H.wf)
    (v : f.start < H.states.length ∧ f.end_ < H.states.length) :
    ∃ H2, NFA.plus H f = .ok (⟨H.states.length, H.states.length + 1⟩, H2) ∧
      H2.states.length = H.states.length + 2 ∧ H2.wf := by
  obtain ⟨H0, hn, hl0, hw0⟩ := two_new_States_wf H hwf
  obtain ⟨Ha, ha1, ha2, ha3⟩ := push_epsilon_wf H0 H.states.length f.start (by omega)
    (by omega) hw0
  obtain ⟨Hc, hc1, hc2, hc3⟩ := set_is_end_wf Ha f.end_ false (by omega) ha3
  obtain ⟨Hd, hd1, hd2, hd3⟩ := push_epsilon_wf Hc f.end_ f.start (by omega) (by omega) hc3
  obtain ⟨He, he1, he2, he3⟩ := push_epsilon_wf Hd f.end_ (H.states.length + 1) (by omega)
    (by omega) hd3
  obtain ⟨Hg, hg1, hg2, hg3⟩ := set_is_end_wf He (H.states.length + 1) true (by omega) he3
  refine ⟨Hg, ?_, by omega, hg3⟩
  have hn1 : H.new_State = (H.states.length, (H.new_State).2) := rfl
  simp only [NFA.plus]
  rw [hn1]
  simp only [hn, ha1, hc1, hd1, he1, hg1, ok_bind, pure_eq_ok]

theorem optional_wf (H : Heap) (f : NFA) (hwf : H.wf)
    (v : f.start < H.states.length ∧ f.end_ < H.states.length) :
    ∃ H2, NFA.optional H f = .ok (⟨H.states.length, H.states.length + 1⟩, H2) ∧
      H2.states.length = H.states.length + 2 ∧ H2.wf := by
  obtain ⟨H0, hn, hl0, hw0⟩ := two_new_States_wf H hwf
  obtain ⟨Ha, ha1, ha2, ha3⟩ := push_epsilon_wf H0 H.states.length f.start (by omega)
    (by omega) hw0
  obtain ⟨Hb, hb1, hb2, hb3⟩ := push_epsilon_wf Ha H.states.length (H.states.length + 1)
    (by omega) (by omega) ha3
  obtain ⟨Hc, hc1, hc2, hc3⟩ := set_is_end_wf Hb f.end_ false (by omega) hb3
  obtain ⟨He, he1, he2, he3⟩ := push_epsilon_wf Hc f.end_ (H.states.length + 1) (by omega)
    (by omega) hc3
  obtain ⟨Hg, hg1, hg2, hg3⟩ := set_is_end_wf He (H.states.length + 1) true (by omega) he3
  refine ⟨Hg, ?_, by omega, hg3⟩
  have hn1 : H.new_State = (H.states.length, (H.new_State).2) := rfl
  simp only [NFA.optional]
  rw [hn1]
  simp only [hn, ha1, hb1, hc1, he1, hg1, ok_bind, pure_eq_ok]

theorem with_char_wf (H : Heap) (c : Char) (hwf : H.wf) :
    (H.with_char c).wf ∧ (H.with_char c).states.length = H.states.length + 2 := by
  obtain ⟨H0, hn, hl0, hw0⟩ := two_new_States_wf H hwf
  obtain ⟨Ha, ha1, ha2, ha3⟩ := push_transition_wf H0 H.states.length c
    (H.states.length + 1) (by omega) (by omega) hw0
  obtain ⟨Hg, hg1, hg2, hg3⟩ := set_is_end_wf Ha (H.states.length + 1) true (by omega) ha3
  have hfc : NFA.from_char H c = .ok (⟨H.states.length, H.states.length + 1⟩, Hg) := by
    have hn1 : H.new_State = (H.states.length, (H.new_State).2) := rfl
    simp only [NFA.from_char]
    rw [hn1]
    simp only [hn, ha1, hg1, ok_bind, pure_eq_ok]
  rw [from_char_eq] at hfc
  cases hfc
  exact ⟨hg3, by omega⟩

theorem stack_valid_mono (H H2 : Heap) (l : List NFA) (h : stack_valid H l)
    (hle : H.states.length ≤ H2.states.length) : stack_valid H2 l :=
  fun f hf => ⟨lt_of_lt_of_le (h f hf).1 hle, lt_of_lt_of_le (h f hf).2 hle⟩

theorem stack_valid_cons (H : Heap) (f : NFA) (l : List NFA)
    (hf : f.start < H.states.length ∧ f.end_ < H.states.length) (h : stack_valid H l) :
    stack_valid H (f :: l) := by
  intro g hg
  rcases List.mem_cons.mp hg with rfl | hg
  · exact hf
  · exact h g hg

theorem apply_operator_wf (H : Heap) (nfa_stack : List NFA) (op_stack : List Char)
    (r : Heap × List NFA × List Char) (hwf : H.wf) (hv : stack_valid H nfa_stack)
    (h : apply_operator H nfa_stack op_stack = .ok r) :
    r.1.wf ∧ stack_valid r.1 r.2.1 ∧ H.states.length ≤ r.1.states.length := by
  unfold apply_operator at h
  cases op_stack with
  | nil => cases h
  | cons op ops =>
    have unary : ∀ (a : NFA) (rest : List NFA) (x : Res (NFA × Heap)),
        stack_valid H (a :: rest) →
        (∃ H2, x = .ok (⟨H.states.length, H.states.length + 1⟩, H2) ∧
          H2.states.length = H.states.length + 2 ∧ H2.wf) →
        (x >>= fun q => (pure (q.2, q.1 :: rest, ops) : Res _)) = .ok r →
        r.1.wf ∧ stack_valid r.1 r.2.1 ∧ H.states.length ≤ r.1.states.length := by
      rintro a rest x hv2 ⟨H2, hx, hl, hw⟩ hr
      rw [hx] at hr
      cases hr
      refine ⟨hw, stack_valid_cons _ _ _ ⟨by simp only; omega, by simp only; omega⟩
        (stack_valid_mono H _ _ (fun g hg => hv2 g (List.mem_cons_of_mem _ hg))
          (by simp only; omega)), by simp only; omega⟩
    rcases nfa_stack with _ | ⟨a, _ | ⟨a2, rest⟩⟩ <;> simp only [] at h <;> split_ifs at h
    · cases h; exact ⟨hwf, hv, le_refl _⟩
    · exact unary a [] _ hv (kleene_star_wf H a hwf (hv a (List.mem_cons_self _ _))) h
    · exact unary a [] _ hv (plus_wf H a hwf (hv a (List.mem_cons_self _ _))) h
    · exact unary a [] _ hv (optional_wf H a hwf (hv a (List.mem_cons_self _ _))) h
    · cases h; exact ⟨hwf, hv, le_refl _⟩
    · have va := hv a (List.mem_cons_self _ _)
      have va2 := hv a2 (List.mem_cons_of_mem _ (List.mem_cons_self _ _))
      obtain ⟨H2, hx, hl, hw⟩ := concat_wf H a2 a hwf va2.2 va.1
      rw [hx] at h
      cases h
      refine ⟨hw, stack_valid_cons _ _ _ ⟨by simp only; omega, by simp only; omega⟩
        (stack_valid_mono H _ _ (fun g hg => hv g (List.mem_cons_of_mem _
          (List.mem_cons_of_mem _ hg))) (by simp only; omega)), by simp only; omega⟩
    · have va := hv a (List.mem_cons_self _ _)
      have va2 := hv a2 (List.mem_cons_of_mem _ (List.mem_cons_self _ _))
      exact unary a2 rest _ (fun g hg => hv g (List.mem_cons_of_mem _ hg))
        (alternation_wf H a2 a hwf va2 va) h
    · exact unary a (a2 :: rest) _ hv (kleene_star_wf H a hwf (hv a (List.mem_cons_self _ _))) h
    · exact unary a (a2 :: rest) _ hv (plus_wf H a hwf (hv a (List.mem_cons_self _ _))) h
    · exact unary a (a2 :: rest) _ hv (optional_wf H a hwf (hv a (List.mem_cons_self _ _))) h
    · cases h; exact ⟨hwf, hv, le_refl _⟩

theorem reduce_wf (fuel prec : Nat) (H : Heap) (nfa_stack : List NFA) (op_stack : List Char)
    (r : Heap × List NFA × List Char) (hwf : H.wf) (hv : stack_valid H nfa_stack)
    (h : reduce fuel prec H nfa_stack op_stack = .ok r) :
    r.1.wf ∧ stack_valid r.1 r.2.1 ∧ H.states.length ≤ r.1.states.length := by
  induction fuel generalizing H nfa_stack op_stack with
  | zero =>
    cases op_stack with
    | nil => cases h; exact ⟨hwf, hv, le_refl _⟩
    | cons op ops =>
      simp only [reduce] at h
      split_ifs at h
      cases h; exact ⟨hwf, hv, le_refl _⟩
  | succ fuel ih =>
    cases op_stack with
    | nil => cases h; exact ⟨hwf, hv, le_refl _⟩
    | cons op ops =>
      simp only [reduce] at h
      split_ifs at h
      · cases ha : apply_operator H nfa_stack (op :: ops) with
        | error e => rw [ha] at h; cases h
        | ok q =>
          rw [ha] at h
          obtain ⟨w1, v1, l1⟩ := apply_operator_wf _ _ _ q hwf hv ha
          obtain ⟨w2, v2, l2⟩ := ih q.1 q.2.1 q.2.2 w1 v1 h
          exact ⟨w2, v2, le_trans l1 l2⟩
      · cases h; exact ⟨hwf, hv, le_refl _⟩

theorem drain_wf (fuel : Nat) (H : Heap) (nfa_stack : List NFA) (op_stack : List Char)
    (r : Heap × List NFA × List Char) (hwf : H.wf) (hv : stack_valid H nfa_stack)
    (h : drain fuel H nfa_stack op_stack = .ok r) :
    r.1.wf ∧ stack_valid r.1 r.2.1 ∧ H.states.length ≤ r.1.states.length := by
  induction fuel generalizing H nfa_stack op_stack with
  | zero =>
    cases op_stack with
    | nil => cases h; exact ⟨hwf, hv, le_refl _⟩
    | cons op ops => cases h
  | succ fuel ih =>
    cases op_stack with
    | nil => cases h; exact ⟨hwf, hv, le_refl _⟩
    | cons op ops =>
      simp only [drain] at h
      cases ha : apply_operator H nfa_stack (op :: ops) with
      | error e => rw [ha] at h; cases h
      | ok q =>
        rw [ha] at h
        obtain ⟨w1, v1, l1⟩ := apply_operator_wf _ _ _ q hwf hv ha
        obtain ⟨w2, v2, l2⟩ := ih q.1 q.2.1 q.2.2 w1 v1 h
        exact ⟨w2, v2, le_trans l1 l2⟩

theorem push_op_wf (op : Char) (H : Heap) (nfa_stack : List NFA) (op_stack : List Char)
    (r : Heap × List NFA × List Char) (hwf : H.wf) (hv : stack_valid H nfa_stack)
    (h : push_op op H nfa_stack op_stack = .ok r) :
    r.1.wf ∧ stack_valid r.1 r.2.1 ∧ H.states.length ≤ r.1.states.length := by
  unfold push_op at h
  cases hr : reduce op_stack.length (precedence op) H nfa_stack op_stack with
  | error e => rw [hr] at h; cases h
  | ok q =>
    rw [hr] at h
    have := reduce_wf _ _ _ _ _ q hwf hv hr
    cases h
    exact this

/-- The parser keeps the store a finite automaton and the operand stack valid. -/
theorem parse_wf (regex : List Char) (fuel : Nat) :
    (∀ pos H nfa_stack op_stack r, H.wf → stack_valid H nfa_stack →
      parse_loop fuel regex pos H nfa_stack op_stack = .ok r →
        r.1.wf ∧ stack_valid r.1 r.2.1 ∧ H.states.length ≤ r.1.states.length) ∧
    (∀ pos H r, H.wf → regex_to_nfa_helper fuel regex pos H = .ok r →
      r.2.2.wf ∧ (r.1.start < r.2.2.states.length ∧ r.1.end_ < r.2.2.states.length) ∧
        H.states.length ≤ r.2.2.states.length) := by
  induction fuel with
  | zero =>
    constructor
    · intro pos H nfa_stack op_stack r _ _ h; cases h
    · intro pos H r _ h; cases h
  | succ fuel ih =>
    obtain ⟨ihl, ihh⟩ := ih
    have hpush : ∀ (op : Char) (pos : Nat) (H : Heap) (nfa_stack : List NFA)
        (op_stack : List Char) (r : Heap × List NFA × List Char × Nat), H.wf →
        stack_valid H nfa_stack →
        (push_op op H nfa_stack op_stack >>= fun q =>
          parse_loop fuel regex pos q.1 q.2.1 q.2.2) = .ok r →
        r.1.wf ∧ stack_valid r.1 r.2.1 ∧ H.states.length ≤ r.1.states.length := by
      intro op pos H nfa_stack op_stack r hwf hv h
      cases hp : push_op op H nfa_stack op_stack with
      | error e => rw [hp] at h; cases h
      | ok q =>
        rw [hp] at h
        obtain ⟨w1, v1, l1⟩ := push_op_wf _ _ _ _ q hwf hv hp
        obtain ⟨w2, v2, l2⟩ := ihl pos q.1 q.2.1 q.2.2 r w1 v1 h
        exact ⟨w2, v2, le_trans l1 l2⟩
    have hgo : ∀ (pos : Nat) (H H1 : Heap) (a : NFA) (nfa_stack : List NFA)
        (op_stack : List Char) (r : Heap × List NFA × List Char × Nat), H1.wf →
        H.states.length ≤ H1.states.length →
        (a.start < H1.states.length ∧ a.end_ < H1.states.length) → stack_valid H nfa_stack →
        (if implicit_concat regex pos then
            push_op '.' H1 (a :: nfa_stack) op_stack >>= fun q =>
              parse_loop fuel regex pos q.1 q.2.1 q.2.2
          else parse_loop fuel regex pos H1 (a :: nfa_stack) op_stack) = .ok r →
        r.1.wf ∧ stack_valid r.1 r.2.1 ∧ H.states.length ≤ r.1.states.length := by
      intro pos H H1 a nfa_stack op_stack r hw1 hle va hv h
      have hv1 : stack_valid H1 (a :: nfa_stack) :=
        stack_valid_cons _ _ _ va (stack_valid_mono H H1 _ hv hle)
      split_ifs at h
      · obtain ⟨w2, v2, l2⟩ := hpush '.' pos H1 _ _ r hw1 hv1 h
        exact ⟨w2, v2, le_trans hle l2⟩
      · obtain ⟨w2, v2, l2⟩ := ihl pos H1 _ _ r hw1 hv1 h
        exact ⟨w2, v2, le_trans hle l2⟩
    constructor
    · intro pos H nfa_stack op_stack r hwf hv h
      rw [parse_loop] at h
      cases hc : regex[pos]? with
      | none => rw [hc] at h; cases h; exact ⟨hwf, hv, le_refl _⟩
      | some c =>
        rw [hc] at h
        simp only [] at h
        by_cases hx : isalnum c = true
        · simp only [hx, if_true, from_char_eq, ok_bind] at h
          obtain ⟨hw1, hl1⟩ := with_char_wf H c hwf
          exact hgo (pos + 1) H _ _ _ _ r hw1 (by omega) ⟨by simp only; omega, by simp only; omega⟩
            hv h
        · have hx2 : isalnum c = false := by simpa using hx
          simp only [hx2, Bool.false_eq_true, if_false] at h
          split_ifs at h
          · cases hh : regex_to_nfa_helper fuel regex (pos + 1) H with
            | error e => rw [hh] at h; cases h
            | ok q =>
              rw [hh] at h
              obtain ⟨w1, v1, l1⟩ := ihh (pos + 1) H q hwf hh
              obtain ⟨a, p1, H1⟩ := q
              exact hgo p1 H H1 a _ _ r w1 l1 v1 hv h
          · cases h; exact ⟨hwf, hv, le_refl _⟩
          · exact hpush _ _ _ _ _ r hwf hv h
          · exact hpush _ _ _ _ _ r hwf hv h
          · exact hpush _ _ _ _ _ r hwf hv h
          · exact hpush _ _ _ _ _ r hwf hv h
          · exact ihl _ _ _ _ r hwf hv h
    · intro pos H r hwf h
      rw [helper_eq_finish] at h
      cases hl : parse_loop fuel regex pos H [] [] with
      | error e => rw [hl] at h; cases h
      | ok q =>
        rw [hl] at h
        obtain ⟨w1, v1, l1⟩ := ihl pos H [] [] q hwf
          (fun f hf => absurd hf (List.not_mem_nil _)) hl
        simp only [ok_bind, helper_finish] at h
        cases hd : drain q.2.2.1.length q.1 q.2.1 q.2.2.1 with
        | error e => rw [hd] at h; cases h
        | ok q2 =>
          rw [hd] at h
          obtain ⟨w2, v2, l2⟩ := drain_wf _ _ _ _ q2 w1 v1 hd
          obtain ⟨H2, n2, o2⟩ := q2
          cases n2 with
          | nil => cases h
          | cons top rest =>
            cases h
            exact ⟨w2, v2 top (List.mem_cons_self _ _), le_trans l1 l2⟩

theorem regex_to_nfa_wf (H : Heap) (regex : List Char) (nfa : NFA) (H2 : Heap) (hwf : H.wf)
    (h : NFA.regex_to_nfa H regex = .ok (nfa, H2)) :
    H2.wf ∧ nfa.start < H2.states.length := by
  unfold NFA.regex_to_nfa at h
  cases hh : regex_to_nfa_helper (2 * regex.length + 2) regex 0 H with
  | error e => rw [hh] at h; cases h
  | ok q =>
    rw [hh] at h
    obtain ⟨w, v, _⟩ := (parse_wf regex _).2 0 H q hwf hh
    cases h
    exact ⟨w, v.1⟩

/-! ## Objects allocated later do not change a match -/

theorem deref_ext (H H3 : Heap) (extra : List State) (he : H3.states = H.states ++ extra)
    (p : Nat) (st : State) (h : H.deref p = .ok st) : H3.deref p = .ok st := by
  unfold Heap.deref at h ⊢
  cases hp : H.states[p]? with
  | none => rw [hp] at h; cases h
  | some st2 =>
    rw [hp] at h
    have hlt : p < H.states.length := (List.getElem?_eq_some.mp hp).1
    rw [he, List.getElem?_append_left hlt, hp]
    exact h

theorem closure_ext (H H3 : Heap) (extra : List State) (he : H3.states = H.states ++ extra)
    (f : Nat) : ∀ p cl r, NFA.epsilon_closure f H p cl = .ok r →
      NFA.epsilon_closure f H3 p cl = .ok r := by
  induction f with
  | zero => intro p cl r h; cases h
  | succ f ih =>
    intro p cl r h
    rw [NFA.epsilon_closure] at h ⊢
    split_ifs at h ⊢
    · exact h
    · cases hd : H.deref p with
      | error e => rw [hd] at h; cases h
      | ok st =>
        rw [hd] at h
        rw [deref_ext H H3 extra he p st hd]
        simp only [ok_bind] at h ⊢
        generalize set_insert p cl = cl1 at h
        generalize st.epsilon_transitions = eps at h
        induction eps generalizing cl1 with
        | nil => exact h
        | cons q eps ihe =>
          simp only [List.foldlM_cons] at h ⊢
          cases hq : NFA.epsilon_closure f H q cl1 with
          | error e => rw [hq] at h; cases h
          | ok r1 =>
            rw [hq] at h
            rw [ih q cl1 r1 hq]
            exact ihe r1 h

theorem move_ext (H H3 : Heap) (extra : List State) (he : H3.states = H.states ++ extra)
    (p : Nat) (c : Char) (result r : List Nat) (h : NFA.move H p c result = .ok r) :
    NFA.move H3 p c result = .ok r := by
  unfold NFA.move at h ⊢
  cases hd : H.deref p with
  | error e => rw [hd] at h; cases h
  | ok st =>
    rw [hd] at h
    rw [deref_ext H H3 extra he p st hd]
    exact h

theorem step_ext (H H3 : Heap) (extra : List State) (he : H3.states = H.states ++ extra)
    (cur : List Nat) (c : Char) (r : List Nat) (h : NFA.step H cur c = .ok r) :
    NFA.step H3 cur c = .ok r := by
  unfold NFA.step at h ⊢
  have hmove : ∀ (cur result nx : List Nat),
      cur.foldlM (fun next_states state => NFA.move H state c next_states) result = .ok nx →
      cur.foldlM (fun next_states state => NFA.move H3 state c next_states) result = .ok nx := by
    intro cur
    induction cur with
    | nil => exact fun _ _ h => h
    | cons p ps ih =>
      intro result nx h
      simp only [List.foldlM_cons] at h ⊢
      cases hm : NFA.move H p c result with
      | error e => rw [hm] at h; cases h
      | ok r1 =>
        rw [hm] at h
        rw [move_ext H H3 extra he p c result r1 hm]
        exact ih r1 nx h
  have hclo : ∀ (nx cl r : List Nat),
      nx.foldlM (fun current_states state =>
        NFA.epsilon_closure (H.states.length + 1) H state current_states) cl = .ok r →
      nx.foldlM (fun current_states state =>
        NFA.epsilon_closure (H3.states.length + 1) H3 state current_states) cl = .ok r := by
    intro nx
    induction nx with
    | nil => exact fun _ _ h => h
    | cons p ps ih =>
      intro cl r h
      simp only [List.foldlM_cons] at h ⊢
      cases hm : NFA.epsilon_closure (H.states.length + 1) H p cl with
      | error e => rw [hm] at h; cases h
      | ok r1 =>
        rw [hm] at h
        have h1 := closure_ext H H3 extra he _ p cl r1 hm
        have h2 := epsilon_closure_mono H3 _ extra.length p cl r1 h1
        rw [show H3.states.length + 1 = H.states.length + 1 + extra.length by
          rw [he, List.length_append]; omega, h2]
        have := ih r1 r h
        rw [show H3.states.length + 1 = H.states.length + 1 + extra.length by
          rw [he, List.length_append]; omega] at this
        exact this
  cases hm : cur.foldlM (fun next_states state => NFA.move H state c next_states) [] with
  | error e => rw [hm] at h; cases h
  | ok nx =>
    rw [hm] at h
    rw [hmove cur [] nx hm]
    exact hclo nx [] r h

theorem any_end_ext (H H3 : Heap) (extra : List State) (he : H3.states = H.states ++ extra)
    (cur : List Nat) (b : Bool) (h : NFA.any_end H cur = .ok b) : NFA.any_end H3 cur = .ok b := by
  induction cur with
  | nil => exact h
  | cons p ps ih =>
    simp only [NFA.any_end] at h ⊢
    cases hd : H.deref p with
    | error e => rw [hd] at h; cases h
    | ok st =>
      rw [hd] at h
      rw [deref_ext H H3 extra he p st hd]
      simp only [ok_bind] at h ⊢
      split_ifs at h ⊢
      · exact h
      · exact ih h

/-- A match that returns a boolean returns the same boolean after more objects
have been allocated. -/
theorem matches_ext (H H3 : Heap) (extra : List State) (he : H3.states = H.states ++ extra)
    (nfa : NFA) (s : List Char) (b : Bool) (h : NFA.matches_ H nfa s = .ok b) :
    NFA.matches_ H3 nfa s = .ok b := by
  unfold NFA.matches_ at h ⊢
  cases h0 : NFA.epsilon_closure (H.states.length + 1) H nfa.start [] with
  | error e => rw [h0] at h; cases h
  | ok c0 =>
    rw [h0] at h
    have h1 := closure_ext H H3 extra he _ nfa.start [] c0 h0
    have h2 := epsilon_closure_mono H3 _ extra.length nfa.start [] c0 h1
    rw [show H3.states.length + 1 = H.states.length + 1 + extra.length by
      rw [he, List.length_append]; omega, h2]
    simp only [ok_bind] at h ⊢
    have hfold : ∀ (s : List Char) (cur r : List Nat),
        s.foldlM (NFA.step H) cur = .ok r → s.foldlM (NFA.step H3) cur = .ok r := by
      intro s
      induction s with
      | nil => exact fun _ _ h => h
      | cons c t ih =>
        intro cur r h
        simp only [List.foldlM_cons] at h ⊢
        cases hs : NFA.step H cur c with
        | error e => rw [hs] at h; cases h
        | ok r1 =>
          rw [hs] at h
          rw [step_ext H H3 extra he cur c r1 hs]
          exact ih r1 r h
    cases hf : s.foldlM (NFA.step H) c0 with
    | error e => rw [hf] at h; cases h
    | ok c1 =>
      rw [hf] at h
      rw [hfold s c0 c1 hf]
      exact any_end_ext H H3 extra he c1 b h

/-! ## Paths and fragments -/

theorem path_append (H : Heap) (p q r : Nat) (u v : List Char) (h1 : Path H p u q)
    (h2 : Path H q v r) : Path H p (u ++ v) r := by
  induction h1 with
  | nil p => exact h2
  | eps p q r0 w he _ ih => exact Path.eps p q r (w ++ v) he (ih h2)
  | sym p q r0 c w he _ ih => exact Path.sym p q r c (w ++ v) he (ih h2)

theorem path_of_reach (H : Heap) (p q : Nat) (h : eps_reach H p q) : Path H p [] q := by
  induction h using Relation.ReflTransGen.head_induction_on with
  | refl => exact Path.nil q
  | head hab _ ih => exact Path.eps _ _ _ _ hab ih

theorem path_nil_iff (H : Heap) (p q : Nat) : Path H p [] q ↔ eps_reach H p q := by
  constructor
  · intro h
    generalize hw : ([] : List Char) = w at h
    induction h with
    | nil p => exact Relation.ReflTransGen.refl
    | eps p q r w he _ ih => exact Relation.ReflTransGen.head he (ih hw)
    | sym p q r c w he _ ih => cases hw
  · exact path_of_reach H p q

theorem path_snoc_iff (H : Heap) (p q : Nat) (s : List Char) (c : Char) :
    Path H p (s ++ [c]) q ↔
      ∃ m d, Path H p s m ∧ labeled_edge H m c d ∧ eps_reach H d q := by
  constructor
  · intro h
    generalize hw : s ++ [c] = w at h
    induction h generalizing s with
    | nil p => simp at hw
    | eps p q r w he _ ih =>
      obtain ⟨m, d, h1, h2, h3⟩ := ih s hw
      exact ⟨m, d, Path.eps p q m s he h1, h2, h3⟩
    | sym p q r c0 w he hp ih =>
      cases s with
      | nil =>
        simp only [List.nil_append, List.cons.injEq] at hw
        obtain ⟨rfl, rfl⟩ := hw
        exact ⟨p, q, Path.nil p, he, (path_nil_iff H q r).mp hp⟩
      | cons c1 s1 =>
        simp only [List.cons_append, List.cons.injEq] at hw
        obtain ⟨rfl, hw⟩ := hw
        obtain ⟨m, d, h1, h2, h3⟩ := ih s1 hw
        exact ⟨m, d, Path.sym p q m c1 s1 he h1, h2, h3⟩
  · rintro ⟨m, d, h1, h2, h3⟩
    exact path_append H p m q s [c] h1 (Path.sym m d q c [] h2 (path_of_reach H d q h3))

theorem ref_current_snoc (H : Heap) (start : Nat) (s : List Char) (c : Char) :
    ref_current H start (s ++ [c]) = ref_step H (ref_current H start s) c := by
  simp [ref_current, List.foldl_append]

/-- The reference simulation follows the paths of the automaton. -/
theorem mem_ref_current_iff (H : Heap) (start : Nat) (s : List Char) (q : Nat) :
    q ∈ ref_current H start s ↔ Path H start s q := by
  induction s using List.reverseRecOn generalizing q with
  | nil =>
    rw [path_nil_iff]
    rfl
  | append_singleton s c ih =>
    rw [ref_current_snoc, path_snoc_iff]
    simp only [ref_step, Set.mem_setOf_eq, ih]
    constructor
    · rintro ⟨m, h1, d, h2, h3⟩
      exact ⟨m, d, h1, h2, h3⟩
    · rintro ⟨m, d, h1, h2, h3⟩
      exact ⟨m, h1, d, h2, h3⟩

/-- A path that starts among nodes that no edge leaves ends among them. -/
theorem path_stays (H : Heap) (lo hi : Nat)
    (he : ∀ p q, lo ≤ p → p < hi → eps_edge H p q → lo ≤ q ∧ q < hi)
    (hl : ∀ p c q, lo ≤ p → p < hi → labeled_edge H p c q → lo ≤ q ∧ q < hi)
    (p q : Nat) (w : List Char) (h : Path H p w q) (hp : lo ≤ p ∧ p < hi) :
    lo ≤ q ∧ q < hi := by
  induction h with
  | nil p => exact hp
  | eps p q r w h1 _ ih => exact ih (he p q hp.1 hp.2 h1)
  | sym p q r c w h1 _ ih => exact ih (hl p c q hp.1 hp.2 h1)

/-- A path among nodes that have the same edges in two stores is a path in
both. -/
theorem path_congr (H H2 : Heap) (lo hi : Nat)
    (he : ∀ p q, lo ≤ p → p < hi → eps_edge H p q → lo ≤ q ∧ q < hi)
    (hl : ∀ p c q, lo ≤ p → p < hi → labeled_edge H p c q → lo ≤ q ∧ q < hi)
    (se : ∀ p q, lo ≤ p → p < hi → eps_edge H p q → eps_edge H2 p q)
    (sl : ∀ p c q, lo ≤ p → p < hi → labeled_edge H p c q → labeled_edge H2 p c q)
    (p q : Nat) (w : List Char) (h : Path H p w q) (hp : lo ≤ p ∧ p < hi) : Path H2 p w q := by
  induction h with
  | nil p => exact Path.nil p
  | eps p q r w h1 _ ih =>
    exact Path.eps p q r w (se p q hp.1 hp.2 h1) (ih (he p q hp.1 hp.2 h1))
  | sym p q r c w h1 _ ih =>
    exact Path.sym p q r c w (sl p c q hp.1 hp.2 h1) (ih (hl p c q hp.1 hp.2 h1))

/-- A store with more edges has more paths. -/
theorem path_mono (H H2 : Heap)
    (se : ∀ p q, eps_edge H p q → eps_edge H2 p q)
    (sl : ∀ p c q, labeled_edge H p c q → labeled_edge H2 p c q)
    (p q : Nat) (w : List Char) (h : Path H p w q) : Path H2 p w q := by
  induction h with
  | nil p => exact Path.nil p
  | eps p q r w h1 _ ih => exact Path.eps p q r w (se p q h1) ih
  | sym p q r c w h1 _ ih => exact Path.sym p q r c w (sl p c q h1) ih

/-- A node without outgoing edges is only the origin of the empty path. -/
theorem path_from_sink (H : Heap) (p q : Nat) (w : List Char)
    (he : ∀ q, ¬ eps_edge H p q) (hl : ∀ c q, ¬ labeled_edge H p c q) (h : Path H p w q) :
    w = [] ∧ q = p := by
  cases h with
  | nil => exact ⟨rfl, rfl⟩
  | eps _ q0 _ _ h1 _ => exact absurd h1 (he q0)
  | sym _ q0 _ c _ h1 _ => exact absurd h1 (hl c q0)

/-- The first step of a path. -/
theorem path_cases (H : Heap) (p q : Nat) (w : List Char) (h : Path H p w q) :
    (w = [] ∧ q = p) ∨ (∃ p2, eps_edge H p p2 ∧ Path H p2 w q) ∨
      ∃ c p2 w2, w = c :: w2 ∧ labeled_edge H p c p2 ∧ Path H p2 w2 q := by
  cases h with
  | nil => exact Or.inl ⟨rfl, rfl⟩
  | eps _ p2 _ _ h1 h2 => exact Or.inr (Or.inl ⟨p2, h1, h2⟩)
  | sym _ p2 _ c w2 h1 h2 => exact Or.inr (Or.inr ⟨c, p2, w2, rfl, h1, h2⟩)

theorem agree_refl (n : Nat) (H : Heap) : Heap.agree n H H :=
  fun _ _ => ⟨rfl, fun _ => Iff.rfl, fun _ _ => Iff.rfl⟩

theorem agree_trans (n m : Nat) (H1 H2 H3 : Heap) (h12 : Heap.agree n H1 H2)
    (h23 : Heap.agree m H2 H3) (hnm : n ≤ m) : Heap.agree n H1 H3 := by
  intro p hp
  obtain ⟨a1, a2, a3⟩ := h12 p hp
  obtain ⟨b1, b2, b3⟩ := h23 p (by omega)
  exact ⟨b1.trans a1, fun q => (b2 q).trans (a2 q), fun c q => (b3 c q).trans (a3 c q)⟩

/-- A fragment is not affected by changes to nodes outside its interval. -/
theorem FragOK.frame {H : Heap} {f : NFA} {lo hi : Nat} {L : Language Char}
    (h : FragOK H f lo hi L) (H2 : Heap) (ha : Heap.agree hi H H2) : FragOK H2 f lo hi L := by
  have hlen : hi ≤ H2.states.length := by
    have h1 := h.ends (hi - 1) (by have := h.start_lo; have := h.start_hi; omega)
      (by have := h.start_hi; omega)
    have h2 := (ha (hi - 1) (by have := h.start_hi; omega)).1
    rw [h1] at h2
    have := is_end_at_lt H2 _ _ h2
    omega
  have he2 : ∀ p q, lo ≤ p → p < hi → eps_edge H2 p q → lo ≤ q ∧ q < hi :=
    fun p q h1 h2 e => h.eps_in p q h1 h2 (((ha p h2).2.1 q).mp e)
  have hl2 : ∀ p c q, lo ≤ p → p < hi → labeled_edge H2 p c q → lo ≤ q ∧ q < hi :=
    fun p c q h1 h2 e => h.lab_in p c q h1 h2 (((ha p h2).2.2 c q).mp e)
  refine ⟨h.start_lo, h.start_hi, h.end_lo, h.end_hi, hlen, ?_, he2, hl2, ?_, ?_, ?_⟩
  · intro p h1 h2
    rw [(ha p h2).1]
    exact h.ends p h1 h2
  · intro q e
    exact h.end_eps q (((ha _ h.end_hi).2.1 q).mp e)
  · intro c q e
    exact h.end_lab c q (((ha _ h.end_hi).2.2 c q).mp e)
  · intro w
    rw [← h.lang w]
    constructor
    · intro hp
      exact path_congr H2 H lo hi he2 hl2
        (fun p q _ h2 e => ((ha p h2).2.1 q).mp e)
        (fun p c q _ h2 e => ((ha p h2).2.2 c q).mp e) _ _ w hp ⟨h.start_lo, h.start_hi⟩
    · intro hp
      exact path_congr H H2 lo hi h.eps_in h.lab_in
        (fun p q _ h2 e => ((ha p h2).2.1 q).mpr e)
        (fun p c q _ h2 e => ((ha p h2).2.2 c q).mpr e) _ _ w hp ⟨h.start_lo, h.start_hi⟩

theorem FragOK.lang_congr {H : Heap} {f : NFA} {lo hi : Nat} {L L2 : Language Char}
    (h : FragOK H f lo hi L) (hL : L = L2) : FragOK H f lo hi L2 := hL ▸ h

/-- The reference simulation accepts exactly the language of a fragment. -/
theorem FragOK.ref_matches_iff {H : Heap} {f : NFA} {lo hi : Nat} {L : Language Char}
    (h : FragOK H f lo hi L) (s : List Char) : ref_matches H f s ↔ s ∈ L := by
  rw [← h.lang s]
  unfold ref_matches
  constructor
  · rintro ⟨q, hq, st, hst, hend⟩
    rw [mem_ref_current_iff] at hq
    have hin := path_stays H lo hi h.eps_in h.lab_in _ _ s hq ⟨h.start_lo, h.start_hi⟩
    have he := h.ends q hin.1 hin.2
    simp only [is_end_at, hst, Option.map_some', hend, Option.some.injEq] at he
    have hq2 : q = f.end_ := by simpa using he.symm
    rw [← hq2]
    exact hq
  · intro hp
    have he := h.ends f.end_ h.end_lo h.end_hi
    unfold is_end_at at he
    cases hst : H.states[f.end_]? with
    | none => rw [hst] at he; cases he
    | some st =>
      rw [hst] at he
      simp only [Option.map_some', decide_True, Option.some.injEq] at he
      exact ⟨f.end_, (mem_ref_current_iff H f.start s f.end_).mpr hp, st, hst, he⟩

/-! ## What each store operation and each combinator does to the graph -/

theorem new_State_get (H : Heap) (a : Nat) (st : State) :
    (H.new_State).2.states[a]? = some st ↔
      H.states[a]? = some st ∨ (a = H.states.length ∧ st = ⟨H.state_id, false, [], []⟩) := by
  simp only [Heap.new_State, List.getElem?_append]
  by_cases h1 : a < H.states.length
  · have h2 : a ≠ H.states.length := by omega
    simp [h1, h2]
  · by_cases h2 : a = H.states.length
    · subst h2
      simp [eq_comm]
    · have h3 : H.states.length ≤ a := by omega
      have h4 : a - H.states.length ≠ 0 := by omega
      obtain ⟨m, hm⟩ := Nat.exists_eq_succ_of_ne_zero h4
      simp [h1, h2, List.getElem?_eq_none h3, hm]

theorem new_State_graph (H : Heap) :
    (∀ a q, eps_edge (H.new_State).2 a q ↔ eps_edge H a q) ∧
      (∀ a c q, labeled_edge (H.new_State).2 a c q ↔ labeled_edge H a c q) := by
  constructor
  · intro a q
    constructor
    · rintro ⟨st, hst, hq⟩
      rcases (new_State_get H a st).mp hst with h | ⟨_, rfl⟩
      · exact ⟨st, h, hq⟩
      · cases hq
    · rintro ⟨st, hst, hq⟩
      exact ⟨st, (new_State_get H a st).mpr (Or.inl hst), hq⟩
  · intro a c q
    constructor
    · rintro ⟨st, dests, hst, hl, hq⟩
      rcases (new_State_get H a st).mp hst with h | ⟨_, rfl⟩
      · exact ⟨st, dests, h, hl, hq⟩
      · cases hl
    · rintro ⟨st, dests, hst, hl, hq⟩
      exact ⟨st, dests, (new_State_get H a st).mpr (Or.inl hst), hl, hq⟩

/-- The graph after two allocations: two nodes without edges are added. -/
theorem two_new_States_graph (H : Heap) :
    ∃ Hb, (H.new_State).2.new_State = (H.states.length + 1, Hb) ∧
      Hb.states.length = H.states.length + 2 ∧
      (∀ q, is_end_at Hb q =
        if q = H.states.length + 1 then some false
        else if q = H.states.length then some false else is_end_at H q) ∧
      (∀ a q, eps_edge Hb a q ↔ eps_edge H a q) ∧
      (∀ a c q, labeled_edge Hb a c q ↔ labeled_edge H a c q) := by
  obtain ⟨Hb, h1, h2, h3⟩ := two_new_States H
  have hb : Hb = ((H.new_State).2.new_State).2 := by rw [h1]
  refine ⟨Hb, h1, h2, h3, ?_, ?_⟩
  · intro a q
    rw [hb, (new_State_graph _).1, (new_State_graph _).1]
  · intro a c q
    rw [hb, (new_State_graph _).2, (new_State_graph _).2]

theorem store_get (H H2 : Heap) (p : Nat) (f : State → State)
    (h : ∀ q, H2.states[q]? = if q = p then (H.states[p]?).map f else H.states[q]?)
    (a : Nat) (st : State) :
    H2.states[a]? = some st ↔
      (a ≠ p ∧ H.states[a]? = some st) ∨ (a = p ∧ ∃ s0, H.states[p]? = some s0 ∧ st = f s0) := by
  rw [h a]
  by_cases c : a = p
  · subst c
    cases hs : H.states[a]? with
    | none => simp
    | some s0 => simp [eq_comm]
  · simp [c]

theorem set_is_end_graph (H : Heap) (p : Nat) (b : Bool) (hp : p < H.states.length) :
    ∃ H2, H.set_is_end p b = .ok H2 ∧ H2.states.length = H.states.length ∧
      (∀ q, is_end_at H2 q = if q = p then some b else is_end_at H q) ∧
      (∀ a q, eps_edge H2 a q ↔ eps_edge H a q) ∧
      (∀ a c q, labeled_edge H2 a c q ↔ labeled_edge H a c q) := by
  obtain ⟨H2, h1, h2, h3⟩ := set_is_end_spec H p b hp
  obtain ⟨H3, g1, _, g3⟩ := store_spec H p (fun st => { st with is_end := b }) hp
  have e : H3 = H2 := by
    unfold Heap.set_is_end at h1
    rw [g1] at h1
    cases h1
    rfl
  subst e
  refine ⟨H3, h1, h2, h3, ?_, ?_⟩
  · intro a q
    constructor
    · rintro ⟨st, hst, hq⟩
      rcases (store_get H H3 p _ g3 a st).mp hst with ⟨_, h⟩ | ⟨rfl, s0, h, rfl⟩
      · exact ⟨st, h, hq⟩
      · exact ⟨s0, h, hq⟩
    · rintro ⟨st, hst, hq⟩
      by_cases c : a = p
      · subst c
        exact ⟨_, (store_get H H3 a _ g3 a _).mpr (Or.inr ⟨rfl, st, hst, rfl⟩), hq⟩
      · exact ⟨st, (store_get H H3 p _ g3 a st).mpr (Or.inl ⟨c, hst⟩), hq⟩
  · intro a d q
    constructor
    · rintro ⟨st, dests, hst, hl, hq⟩
      rcases (store_get H H3 p _ g3 a st).mp hst with ⟨_, h⟩ | ⟨rfl, s0, h, rfl⟩
      · exact ⟨st, dests, h, hl, hq⟩
      · exact ⟨s0, dests, h, hl, hq⟩
    · rintro ⟨st, dests, hst, hl, hq⟩
      by_cases c : a = p
      · subst c
        exact ⟨_, dests, (store_get H H3 a _ g3 a _).mpr (Or.inr ⟨rfl, st, hst, rfl⟩), hl, hq⟩
      · exact ⟨st, dests, (store_get H H3 p _ g3 a st).mpr (Or.inl ⟨c, hst⟩), hl, hq⟩

theorem push_epsilon_graph (H : Heap) (p x : Nat) (hp : p < H.states.length) :
    ∃ H2, H.push_epsilon p x = .ok H2 ∧ H2.states.length = H.states.length ∧
      (∀ q, is_end_at H2 q = is_end_at H q) ∧
      (∀ a q, eps_edge H2 a q ↔ eps_edge H a q ∨ (a = p ∧ q = x)) ∧
      (∀ a c q, labeled_edge H2 a c q ↔ labeled_edge H a c q) := by
  obtain ⟨H2, h1, h2, h3⟩ := push_epsilon_spec H p x hp
  obtain ⟨H3, g1, _, g3⟩ := store_spec H p
    (fun st => { st with epsilon_transitions := st.epsilon_transitions ++ [x] }) hp
  have e : H3 = H2 := by
    unfold Heap.push_epsilon at h1
    rw [g1] at h1
    cases h1
    rfl
  subst e
  obtain ⟨sp, hsp⟩ : ∃ sp, H.states[p]? = some sp := ⟨_, List.getElem?_eq_getElem hp⟩
  refine ⟨H3, h1, h2, h3, ?_, ?_⟩
  · intro a q
    constructor
    · rintro ⟨st, hst, hq⟩
      rcases (store_get H H3 p _ g3 a st).mp hst with ⟨_, h⟩ | ⟨rfl, s0, h, rfl⟩
      · exact Or.inl ⟨st, h, hq⟩
      · simp only [List.mem_append, List.mem_singleton] at hq
        rcases hq with hq | hq
        · exact Or.inl ⟨s0, h, hq⟩
        · exact Or.inr ⟨rfl, hq⟩
    · rintro (⟨st, hst, hq⟩ | ⟨rfl, rfl⟩)
      · by_cases c : a = p
        · subst c
          exact ⟨_, (store_get H H3 a _ g3 a _).mpr (Or.inr ⟨rfl, st, hst, rfl⟩),
            List.mem_append_left _ hq⟩
        · exact ⟨st, (store_get H H3 p _ g3 a st).mpr (Or.inl ⟨c, hst⟩), hq⟩
      · exact ⟨_, (store_get H H3 a _ g3 a _).mpr (Or.inr ⟨rfl, sp, hsp, rfl⟩),
          List.mem_append_right _ (List.mem_singleton_self _)⟩
  · intro a d q
    constructor
    · rintro ⟨st, dests, hst, hl, hq⟩
      rcases (store_get H H3 p _ g3 a st).mp hst with ⟨_, h⟩ | ⟨rfl, s0, h, rfl⟩
      · exact ⟨st, dests, h, hl, hq⟩
      · exact ⟨s0, dests, h, hl, hq⟩
    · rintro ⟨st, dests, hst, hl, hq⟩
      by_cases c : a = p
      · subst c
        exact ⟨_, dests, (store_get H H3 a _ g3 a _).mpr (Or.inr ⟨rfl, st, hst, rfl⟩), hl, hq⟩
      · exact ⟨st, dests, (store_get H H3 p _ g3 a st).mpr (Or.inl ⟨c, hst⟩), hl, hq⟩

theorem lookup_map_push (c d : Char) (x q : Nat) (m : List (Char × List Nat)) :
    (∃ dests, (map_push c x m).lookup d = some dests ∧ q ∈ dests) ↔
      (∃ dests, m.lookup d = some dests ∧ q ∈ dests) ∨ (d = c ∧ q = x) := by
  induction m with
  | nil =>
    simp only [map_push, List.lookup_cons, List.lookup_nil]
    by_cases h : d = c
    · subst h
      simp
    · have h2 : (d == c) = false := by simpa using h
      simp [h2, h]
  | cons kv m ih =>
    obtain ⟨k, v⟩ := kv
    simp only [map_push]
    by_cases hk : k = c
    · subst hk
      simp only [if_true, List.lookup_cons]
      by_cases h : d = k
      · subst h
        simp only [beq_self_eq_true, Option.some.injEq, exists_eq_left', true_and,
          List.mem_append, List.mem_singleton]
      · have h2 : (d == k) = false := by simpa using h
        simp only [h2, h, false_and, or_false]
    · simp only [hk, if_false, List.lookup_cons]
      by_cases h : d = k
      · subst h
        have h3 : ¬ d = c := hk
        simp only [beq_self_eq_true, h3, false_and, or_false]
      · have h2 : (d == k) = false := by simpa using h
        simp only [h2]
        exact ih

theorem push_transition_graph (H : Heap) (p : Nat) (c : Char) (x : Nat)
    (hp : p < H.states.length) :
    ∃ H2, H.push_transition p c x = .ok H2 ∧ H2.states.length = H.states.length ∧
      (∀ q, is_end_at H2 q = is_end_at H q) ∧
      (∀ a q, eps_edge H2 a q ↔ eps_edge H a q) ∧
      (∀ a d q, labeled_edge H2 a d q ↔ labeled_edge H a d q ∨ (a = p ∧ d = c ∧ q = x)) := by
  obtain ⟨H2, h1, h2, h3⟩ := push_transition_spec H p c x hp
  obtain ⟨H3, g1, _, g3⟩ := store_spec H p
    (fun st => { st with transitions := map_push c x st.transitions }) hp
  have e : H3 = H2 := by
    unfold Heap.push_transition at h1
    rw [g1] at h1
    cases h1
    rfl
  subst e
  obtain ⟨sp, hsp⟩ : ∃ sp, H.states[p]? = some sp := ⟨_, List.getElem?_eq_getElem hp⟩
  refine ⟨H3, h1, h2, h3, ?_, ?_⟩
  · intro a q
    constructor
    · rintro ⟨st, hst, hq⟩
      rcases (store_get H H3 p _ g3 a st).mp hst with ⟨_, h⟩ | ⟨rfl, s0, h, rfl⟩
      · exact ⟨st, h, hq⟩
      · exact ⟨s0, h, hq⟩
    · rintro ⟨st, hst, hq⟩
      by_cases c : a = p
      · subst c
        exact ⟨_, (store_get H H3 a _ g3 a _).mpr (Or.inr ⟨rfl, st, hst, rfl⟩), hq⟩
      · exact ⟨st, (store_get H H3 p _ g3 a st).mpr (Or.inl ⟨c, hst⟩), hq⟩
  · intro a d q
    by_cases ha : a = p
    · subst ha
      have e1 : labeled_edge H3 a d q ↔
          ∃ dests, (map_push c x sp.transitions).lookup d = some dests ∧ q ∈ dests :=
        labeled_edge_iff H3 a _ ((store_get H H3 a _ g3 a _).mpr (Or.inr ⟨rfl, sp, hsp, rfl⟩)) d q
      rw [e1, lookup_map_push, labeled_edge_iff H a sp hsp]
      simp
    · constructor
      · rintro ⟨st, dests, hst, hl, hq⟩
        rcases (store_get H H3 p _ g3 a st).mp hst with ⟨_, h⟩ | ⟨e, _⟩
        · exact Or.inl ⟨st, dests, h, hl, hq⟩
        · exact absurd e ha
      · rintro (⟨st, dests, hst, hl, hq⟩ | ⟨e, _⟩)
        · exact ⟨st, dests, (store_get H H3 p _ g3 a st).mpr (Or.inl ⟨ha, hst⟩), hl, hq⟩
        · exact absurd e ha

/-! ## The graph built by each combinator -/

theorem eps_edge_lt (H : Heap) (p q : Nat) (h : eps_edge H p q) : p < H.states.length := by
  obtain ⟨st, hst, _⟩ := h
  exact (List.getElem?_eq_some.mp hst).1

theorem labeled_edge_lt (H : Heap) (p q : Nat) (c : Char) (h : labeled_edge H p c q) :
    p < H.states.length := by
  obtain ⟨st, _, hst, _⟩ := h
  exact (List.getElem?_eq_some.mp hst).1

theorem from_char_graph (H : Heap) (c : Char) :
    ∃ H2, NFA.from_char H c = .ok (⟨H.states.length, H.states.length + 1⟩, H2) ∧
      H2.states.length = H.states.length + 2 ∧
      (∀ q, is_end_at H2 q =
        if q = H.states.length + 1 then some true
        else if q = H.states.length then some false else is_end_at H q) ∧
      (∀ a q, eps_edge H2 a q ↔ eps_edge H a q) ∧
      (∀ a d q, labeled_edge H2 a d q ↔
        labeled_edge H a d q ∨ (a = H.states.length ∧ d = c ∧ q = H.states.length + 1)) := by
  obtain ⟨H0, hn, hl0, he0, hp0, ht0⟩ := two_new_States_graph H
  obtain ⟨Ha, ha1, ha2, ha3, ha4, ha5⟩ :=
    push_transition_graph H0 H.states.length c (H.states.length + 1) (by omega)
  obtain ⟨Hg, hg1, hg2, hg3, hg4, hg5⟩ := set_is_end_graph Ha (H.states.length + 1) true (by omega)
  refine ⟨Hg, ?_, by omega, fun q => ?_, fun a q => ?_, fun a d q => ?_⟩
  · have hn1 : H.new_State = (H.states.length, (H.new_State).2) := rfl
    simp only [NFA.from_char]
    rw [hn1]
    simp only [hn, ha1, hg1, ok_bind, pure_eq_ok]
  · rw [hg3, ha3, he0]
    by_cases c1 : q = H.states.length + 1 <;> simp [c1]
  · rw [hg4, ha4, hp0]
  · rw [hg5, ha5, ht0]

theorem concat_graph (H : Heap) (f1 f2 : NFA) (h1 : f1.end_ < H.states.length) :
    ∃ H2, NFA.concat H f1 f2 = .ok (⟨f1.start, f2.end_⟩, H2) ∧
      H2.states.length = H.states.length ∧
      (∀ q, is_end_at H2 q = if q = f1.end_ then some false else is_end_at H q) ∧
      (∀ a q, eps_edge H2 a q ↔ eps_edge H a q ∨ (a = f1.end_ ∧ q = f2.start)) ∧
      (∀ a d q, labeled_edge H2 a d q ↔ labeled_edge H a d q) := by
  obtain ⟨Ha, ha1, ha2, ha3, ha4, ha5⟩ := set_is_end_graph H f1.end_ false h1
  obtain ⟨Hb, hb1, hb2, hb3, hb4, hb5⟩ := push_epsilon_graph Ha f1.end_ f2.start (by omega)
  refine ⟨Hb, by simp only [NFA.concat, ha1, hb1, ok_bind, pure_eq_ok], by omega, fun q => ?_,
    fun a q => ?_, fun a d q => ?_⟩
  · rw [hb3, ha3]
  · rw [hb4, ha4]
  · rw [hb5, ha5]

theorem alternation_graph (H : Heap) (f1 f2 : NFA) (h1 : f1.end_ < H.states.length)
    (h2 : f2.end_ < H.states.length) :
    ∃ H2, NFA.alternation H f1 f2 = .ok (⟨H.states.length, H.states.length + 1⟩, H2) ∧
      H2.states.length = H.states.length + 2 ∧
      (∀ q, is_end_at H2 q =
        if q = H.states.length + 1 then some true
        else if q = f2.end_ then some false
        else if q = f1.end_ then some false
        else if q = H.states.length then some false else is_end_at H q) ∧
      (∀ a q, eps_edge H2 a q ↔ eps_edge H a q ∨
        (a = H.states.length ∧ q = f1.start) ∨ (a = H.states.length ∧ q = f2.start) ∨
        (a = f1.end_ ∧ q = H.states.length + 1) ∨ (a = f2.end_ ∧ q = H.states.length + 1)) ∧
      (∀ a d q, labeled_edge H2 a d q ↔ labeled_edge H a d q) := by
  obtain ⟨H0, hn, hl0, he0, hp0, ht0⟩ := two_new_States_graph H
  obtain ⟨Ha, ha1, ha2, ha3, ha4, ha5⟩ := push_epsilon_graph H0 H.states.length f1.start (by omega)
  obtain ⟨Hb, hb1, hb2, hb3, hb4, hb5⟩ := push_epsilon_graph Ha H.states.length f2.start (by omega)
  obtain ⟨Hc, hc1, hc2, hc3, hc4, hc5⟩ := set_is_end_graph Hb f1.end_ false (by omega)
  obtain ⟨Hd, hd1, hd2, hd3, hd4, hd5⟩ := set_is_end_graph Hc f2.end_ false (by omega)
  obtain ⟨He, he1, he2, he3, he4, he5⟩ :=
    push_epsilon_graph Hd f1.end_ (H.states.length + 1) (by omega)
  obtain ⟨Hf, hf1, hf2, hf3, hf4, hf5⟩ :=
    push_epsilon_graph He f2.end_ (H.states.length + 1) (by omega)
  obtain ⟨Hg, hg1, hg2, hg3, hg4, hg5⟩ := set_is_end_graph Hf (H.states.length + 1) true (by omega)
  refine ⟨Hg, ?_, by omega, fun q => ?_, fun a q => ?_, fun a d q => ?_⟩
  · have hn1 : H.new_State = (H.states.length, (H.new_State).2) := rfl
    simp only [NFA.alternation]
    rw [hn1]
    simp only [hn, ha1, hb1, hc1, hd1, he1, hf1, hg1, ok_bind, pure_eq_ok]
  · rw [hg3, hf3, he3, hd3, hc3, hb3, ha3, he0]
    by_cases c1 : q = H.states.length + 1 <;> simp [c1]
  · rw [hg4, hf4, he4, hd4, hc4, hb4, ha4, hp0]
    simp only [or_assoc]
  · rw [hg5, hf5, he5, hd5, hc5, hb5, ha5, ht0]

theorem kleene_star_wrapped (H : Heap) (f : NFA) (h1 : f.end_ < H.states.length) :
    ∃ H2, NFA.kleene_star H f = .ok (⟨H.states.length, H.states.length + 1⟩, H2) ∧
      Wrapped H H2 f true true := by
  obtain ⟨H0, hn, hl0, he0, hp0, ht0⟩ := two_new_States_graph H
  obtain ⟨Ha, ha1, ha2, ha3, ha4, ha5⟩ := push_epsilon_graph H0 H.states.length f.start (by omega)
  obtain ⟨Hb, hb1, hb2, hb3, hb4, hb5⟩ :=
    push_epsilon_graph Ha H.states.length (H.states.length + 1) (by omega)
  obtain ⟨Hc, hc1, hc2, hc3, hc4, hc5⟩ := set_is_end_graph Hb f.end_ false (by omega)
  obtain ⟨Hd, hd1, hd2, hd3, hd4, hd5⟩ := push_epsilon_graph Hc f.end_ f.start (by omega)
  obtain ⟨He, he1, he2, he3, he4, he5⟩ :=
    push_epsilon_graph Hd f.end_ (H.states.length + 1) (by omega)
  obtain ⟨Hg, hg1, hg2, hg3, hg4, hg5⟩ := set_is_end_graph He (H.states.length + 1) true (by omega)
  refine ⟨Hg, ?_, by omega, fun q => ?_, fun a q => ?_, fun a d q => ?_⟩
  · have hn1 : H.new_State = (H.states.length, (H.new_State).2) := rfl
    simp only [NFA.kleene_star]
    rw [hn1]
    simp only [hn, ha1, hb1, hc1, hd1, he1, hg1, ok_bind, pure_eq_ok]
  · rw [hg3, he3, hd3, hc3, hb3, ha3, he0]
    by_cases c1 : q = H.states.length + 1 <;> simp [c1]
  · rw [hg4, he4, hd4, hc4, hb4, ha4, hp0]
    simp only [wrap_eps, or_assoc, true_and]
  · rw [hg5, he5, hd5, hc5, hb5, ha5, ht0]

theorem plus_wrapped (H : Heap) (f : NFA) (h1 : f.end_ < H.states.length) :
    ∃ H2, NFA.plus H f = .ok (⟨H.states.length, H.states.length + 1⟩, H2) ∧
      Wrapped H H2 f false true := by
  obtain ⟨H0, hn, hl0, he0, hp0, ht0⟩ := two_new_States_graph H
  obtain ⟨Ha, ha1, ha2, ha3, ha4, ha5⟩ := push_epsilon_graph H0 H.states.length f.start (by omega)
  obtain ⟨Hc, hc1, hc2, hc3, hc4, hc5⟩ := set_is_end_graph Ha f.end_ false (by omega)
  obtain ⟨Hd, hd1, hd2, hd3, hd4, hd5⟩ := push_epsilon_graph Hc f.end_ f.start (by omega)
  obtain ⟨He, he1, he2, he3, he4, he5⟩ :=
    push_epsilon_graph Hd f.end_ (H.states.length + 1) (by omega)
  obtain ⟨Hg, hg1, hg2, hg3, hg4, hg5⟩ := set_is_end_graph He (H.states.length + 1) true (by omega)
  refine ⟨Hg, ?_, by omega, fun q => ?_, fun a q => ?_, fun a d q => ?_⟩
  · have hn1 : H.new_State = (H.states.length, (H.new_State).2) := rfl
    simp only [NFA.plus]
    rw [hn1]
    simp only [hn, ha1, hc1, hd1, he1, hg1, ok_bind, pure_eq_ok]
  · rw [hg3, he3, hd3, hc3, ha3, he0]
    by_cases c1 : q = H.states.length + 1 <;> simp [c1]
  · rw [hg4, he4, hd4, hc4, ha4, hp0]
    simp only [wrap_eps, or_assoc, true_and, Bool.false_eq_true, false_and, false_or]
  · rw [hg5, he5, hd5, hc5, ha5, ht0]

theorem optional_wrapped (H : Heap) (f : NFA) (h1 : f.end_ < H.states.length) :
    ∃ H2, NFA.optional H f = .ok (⟨H.states.length, H.states.length + 1⟩, H2) ∧
      Wrapped H H2 f true false := by
  obtain ⟨H0, hn, hl0, he0, hp0, ht0⟩ := two_new_States_graph H
  obtain ⟨Ha, ha1, ha2, ha3, ha4, ha5⟩ := push_epsilon_graph H0 H.states.length f.start (by omega)
  obtain ⟨Hb, hb1, hb2, hb3, hb4, hb5⟩ :=
    push_epsilon_graph Ha H.states.length (H.states.length + 1) (by omega)
  obtain ⟨Hc, hc1, hc2, hc3, hc4, hc5⟩ := set_is_end_graph Hb f.end_ false (by omega)
  obtain ⟨He, he1, he2, he3, he4, he5⟩ :=
    push_epsilon_graph Hc f.end_ (H.states.length + 1) (by omega)
  obtain ⟨Hg, hg1, hg2, hg3, hg4, hg5⟩ := set_is_end_graph He (H.states.length + 1) true (by omega)
  refine ⟨Hg, ?_, by omega, fun q => ?_, fun a q => ?_, fun a d q => ?_⟩
  · have hn1 : H.new_State = (H.states.length, (H.new_State).2) := rfl
    simp only [NFA.optional]
    rw [hn1]
    simp only [hn, ha1, hb1, hc1, he1, hg1, ok_bind, pure_eq_ok]
  · rw [hg3, he3, hc3, hb3, ha3, he0]
    by_cases c1 : q = H.states.length + 1 <;> simp [c1]
  · rw [hg4, he4, hc4, hb4, ha4, hp0]
    simp only [wrap_eps, or_assoc, true_and, Bool.false_eq_true, false_and, false_or]
  · rw [hg5, he5, hc5, hb5, ha5, ht0]

/-! ## The language of the fragment built by each combinator -/

theorem from_char_sem (H : Heap) (c : Char) :
    ∃ H2, NFA.from_char H c = .ok (⟨H.states.length, H.states.length + 1⟩, H2) ∧
      Heap.agree H.states.length H H2 ∧
      FragOK H2 ⟨H.states.length, H.states.length + 1⟩ H.states.length H2.states.length
        ({[c]} : Language Char) := by
  obtain ⟨H2, hok, hlen, hends, heps, hlab⟩ := from_char_graph H c
  have sink_e : ∀ q, ¬ eps_edge H2 (H.states.length + 1) q := by
    intro q e
    have := eps_edge_lt H _ _ ((heps _ _).mp e)
    omega
  have sink_l : ∀ d q, ¬ labeled_edge H2 (H.states.length + 1) d q := by
    intro d q e
    rcases (hlab _ _ _).mp e with e | ⟨e, _⟩
    · have := labeled_edge_lt H _ _ _ e
      omega
    · omega
  refine ⟨H2, hok, ?_, ?_⟩
  · intro p hp
    refine ⟨?_, fun q => heps p q, fun d q => ?_⟩
    · rw [hends]
      have c1 : p ≠ H.states.length + 1 := by omega
      have c2 : p ≠ H.states.length := by omega
      simp [c1, c2]
    · rw [hlab]
      constructor
      · rintro (e | ⟨e, _⟩)
        · exact e
        · omega
      · exact Or.inl
  · refine ⟨le_refl _, by simp only; omega, by simp only; omega, by simp only; omega,
      le_refl _, ?_, ?_, ?_, sink_e, sink_l, ?_⟩
    · intro p h1 h2
      rw [hends]
      by_cases c1 : p = H.states.length + 1
      · simp [c1]
      · have c2 : p = H.states.length := by omega
        simp [c2]
    · intro p q h1 _ e
      have := eps_edge_lt H _ _ ((heps _ _).mp e)
      omega
    · intro p d q h1 _ e
      rcases (hlab _ _ _).mp e with e | ⟨_, _, e⟩
      · have := labeled_edge_lt H _ _ _ e
        omega
      · omega
    · intro w
      simp only
      constructor
      · intro hp
        rcases path_cases H2 _ _ w hp with ⟨_, h⟩ | ⟨q, e, _⟩ | ⟨d, q, w2, rfl, e, hr⟩
        · omega
        · have := eps_edge_lt H _ _ ((heps _ _).mp e)
          omega
        · rcases (hlab _ _ _).mp e with e | ⟨_, e1, e2⟩
          · have := labeled_edge_lt H _ _ _ e
            omega
          · subst e1 e2
            obtain ⟨hw, _⟩ := path_from_sink H2 _ _ _ sink_e sink_l hr
            subst hw
            rfl
      · intro hw
        have hw2 : w = [c] := hw
        subst hw2
        exact Path.sym _ _ _ c [] ((hlab _ _ _).mpr (Or.inr ⟨rfl, rfl, rfl⟩)) (Path.nil _)

theorem concat_path_left (H H2 : Heap) (f1 f2 : NFA) (lo mid : Nat) (L1 : Language Char)
    (h1 : FragOK H f1 lo mid L1)
    (he : ∀ a q, eps_edge H2 a q ↔ eps_edge H a q ∨ (a = f1.end_ ∧ q = f2.start))
    (hl : ∀ a d q, labeled_edge H2 a d q ↔ labeled_edge H a d q)
    (p q : Nat) (w : List Char) (hp : Path H2 p w q) (hin : lo ≤ p ∧ p < mid) :
    (lo ≤ q ∧ q < mid ∧ Path H p w q) ∨
      ∃ u v, w = u ++ v ∧ Path H p u f1.end_ ∧ Path H2 f2.start v q := by
  induction hp with
  | nil p => exact Or.inl ⟨hin.1, hin.2, Path.nil p⟩
  | eps p p2 r w e hr ih =>
    rcases (he p p2).mp e with e0 | ⟨rfl, rfl⟩
    · rcases ih (h1.eps_in p p2 hin.1 hin.2 e0) with ⟨a, b, c⟩ | ⟨u, v, rfl, hu, hv⟩
      · exact Or.inl ⟨a, b, Path.eps _ _ _ _ e0 c⟩
      · exact Or.inr ⟨u, v, rfl, Path.eps _ _ _ _ e0 hu, hv⟩
    · exact Or.inr ⟨[], w, rfl, Path.nil _, hr⟩
  | sym p p2 r d w e hr ih =>
    have e0 := (hl p d p2).mp e
    rcases ih (h1.lab_in p d p2 hin.1 hin.2 e0) with ⟨a, b, c⟩ | ⟨u, v, rfl, hu, hv⟩
    · exact Or.inl ⟨a, b, Path.sym _ _ _ _ _ e0 c⟩
    · exact Or.inr ⟨d :: u, v, rfl, Path.sym _ _ _ _ _ e0 hu, hv⟩

theorem concat_path_right (H H2 : Heap) (f1 f2 : NFA) (mid hi : Nat) (L2 : Language Char)
    (h2 : FragOK H f2 mid hi L2) (hlt : f1.end_ < mid)
    (he : ∀ a q, eps_edge H2 a q ↔ eps_edge H a q ∨ (a = f1.end_ ∧ q = f2.start))
    (hl : ∀ a d q, labeled_edge H2 a d q ↔ labeled_edge H a d q)
    (p q : Nat) (w : List Char) (hp : Path H2 p w q) (hin : mid ≤ p ∧ p < hi) :
    Path H p w q := by
  induction hp with
  | nil p => exact Path.nil p
  | eps p p2 r w e _ ih =>
    rcases (he p p2).mp e with e0 | ⟨e1, _⟩
    · exact Path.eps _ _ _ _ e0 (ih (h2.eps_in p p2 hin.1 hin.2 e0))
    · omega
  | sym p p2 r d w e _ ih =>
    have e0 := (hl p d p2).mp e
    exact Path.sym _ _ _ _ _ e0 (ih (h2.lab_in p d p2 hin.1 hin.2 e0))

/-- `NFA::concat` on two adjacent sound fragments builds a sound fragment for
the product of the two languages. -/
theorem concat_sem (H : Heap) (f1 f2 : NFA) (lo mid hi : Nat) (L1 L2 : Language Char)
    (h1 : FragOK H f1 lo mid L1) (h2 : FragOK H f2 mid hi L2) :
    ∃ r H2, NFA.concat H f1 f2 = .ok (r, H2) ∧ H2.states.length = H.states.length ∧
      Heap.agree lo H H2 ∧ FragOK H2 r lo hi (L1 * L2) := by
  have b1 := h1.start_lo
  have b2 := h1.start_hi
  have b3 := h1.end_lo
  have b4 := h1.end_hi
  have b5 := h2.start_lo
  have b6 := h2.start_hi
  have b7 := h2.end_lo
  have b8 := h2.end_hi
  have b9 := h2.hi_le
  obtain ⟨H2, hok, hlen, hends, heps, hlab⟩ := concat_graph H f1 f2 (by omega)
  have mono : ∀ p q w, Path H p w q → Path H2 p w q := fun p q w =>
    path_mono H H2 (fun a b e => (heps a b).mpr (Or.inl e)) (fun a d b e => (hlab a d b).mpr e) p q w
  refine ⟨_, H2, hok, hlen, ?_, ?_⟩
  · intro p hp
    refine ⟨?_, fun q => ?_, fun d q => hlab p d q⟩
    · rw [hends]
      have c1 : p ≠ f1.end_ := by omega
      simp [c1]
    · rw [heps]
      constructor
      · rintro (e | ⟨e, _⟩)
        · exact e
        · omega
      · exact Or.inl
  · refine ⟨by simp only; omega, by simp only; omega, by simp only; omega, by simp only; omega,
      by omega, ?_, ?_, ?_, ?_, ?_, ?_⟩
    · intro p c1 c2
      rw [hends]
      simp only
      by_cases c3 : p = f1.end_
      · have c4 : ¬ f1.end_ = f2.end_ := by omega
        simp [c3, c4]
      · simp only [c3, if_false]
        by_cases c5 : p < mid
        · rw [h1.ends p c1 c5]
          have c6 : ¬ p = f2.end_ := by omega
          simp [c3, c6]
        · rw [h2.ends p (by omega) c2]
    · intro p q c1 c2 e
      rcases (heps p q).mp e with e0 | ⟨_, rfl⟩
      · by_cases c5 : p < mid
        · have := h1.eps_in p q c1 c5 e0
          omega
        · have := h2.eps_in p q (by omega) c2 e0
          omega
      · omega
    · intro p d q c1 c2 e
      have e0 := (hlab p d q).mp e
      by_cases c5 : p < mid
      · have := h1.lab_in p d q c1 c5 e0
        omega
      · have := h2.lab_in p d q (by omega) c2 e0
        omega
    · intro q e
      rcases (heps _ q).mp e with e0 | ⟨e1, _⟩
      · exact h2.end_eps q e0
      · simp only at e1
        omega
    · intro d q e
      exact h2.end_lab d q ((hlab _ d q).mp e)
    · intro w
      simp only
      rw [Language.mem_mul]
      constructor
      · intro hp
        rcases concat_path_left H H2 f1 f2 lo mid L1 h1 heps hlab _ _ w hp ⟨b1, b2⟩ with
          ⟨_, c, _⟩ | ⟨u, v, rfl, hu, hv⟩
        · omega
        · exact ⟨u, (h1.lang u).mp hu, v, (h2.lang v).mp
            (concat_path_right H H2 f1 f2 mid hi L2 h2 b4 heps hlab _ _ v hv ⟨b5, b6⟩), rfl⟩
      · rintro ⟨u, hu, v, hv, rfl⟩
        exact path_append H2 _ _ _ u v (mono _ _ _ ((h1.lang u).mpr hu))
          (Path.eps _ _ _ _ ((heps _ _).mpr (Or.inr ⟨rfl, rfl⟩)) (mono _ _ _ ((h2.lang v).mpr hv)))

/-- Paths that leave a fragment whose end node got an edge to the outside node
`e`, and possibly an edge back to its own start node. -/
theorem exit_path (H H2 : Heap) (f : NFA) (a b : Nat) (L : Language Char) (hf : FragOK H f a b L)
    (e : Nat) ( loop : Bool) (he_out : b ≤ e)
    (hsink : ∀ w q, Path H2 e w q → w = [])
    (heps : ∀ p q, a ≤ p → p < b → eps_edge H2 p q →
      eps_edge H p q ∨ (p = f.end_ ∧ (q = e ∨ (q = f.start ∧ loop = true))))
    (hlab : ∀ p c q, a ≤ p → p < b → labeled_edge H2 p c q → labeled_edge H p c q)
    (p q : Nat) (w : List Char) (hp : Path H2 p w q) (hq : q = e) (hin : a ≤ p ∧ p < b) :
    ∃ u v, w = u ++ v ∧ Path H p u f.end_ ∧
      v ∈ (if loop = true then KStar.kstar L else (1 : Language Char)) := by
  induction hp with
  | nil p => omega
  | eps p p2 r w e1 hr ih =>
    rcases heps p p2 hin.1 hin.2 e1 with e0 | ⟨rfl, rfl | ⟨rfl, hloop⟩⟩
    · obtain ⟨u, v, rfl, hu, hv⟩ := ih hq (hf.eps_in p p2 hin.1 hin.2 e0)
      exact ⟨u, v, rfl, Path.eps _ _ _ _ e0 hu, hv⟩
    · have hw := hsink w r hr
      subst hw
      refine ⟨[], [], rfl, Path.nil _, ?_⟩
      split_ifs
      · exact Language.nil_mem_kstar L
      · exact Language.nil_mem_one
    · obtain ⟨u, v, rfl, hu, hv⟩ := ih hq ⟨hf.start_lo, hf.start_hi⟩
      refine ⟨[], u ++ v, rfl, Path.nil _, ?_⟩
      simp only [hloop, if_true] at hv ⊢
      rw [← Language.one_add_self_mul_kstar_eq_kstar, Language.mem_add]
      exact Or.inr (Language.append_mem_mul ((hf.lang u).mp hu) hv)
  | sym p p2 r d w e1 hr ih =>
    have e0 := hlab p d p2 hin.1 hin.2 e1
    obtain ⟨u, v, rfl, hu, hv⟩ := ih hq (hf.lab_in p d p2 hin.1 hin.2 e0)
    exact ⟨d :: u, v, rfl, Path.sym _ _ _ _ _ e0 hu, hv⟩

/-- `NFA::alternation` on two adjacent sound fragments, the second one ending
at the top of the store, builds a sound fragment for the sum of the two
languages. -/
theorem alternation_sem (H : Heap) (f1 f2 : NFA) (lo mid : Nat) (L1 L2 : Language Char)
    (h1 : FragOK H f1 lo mid L1) (h2 : FragOK H f2 mid H.states.length L2) :
    ∃ r H2, NFA.alternation H f1 f2 = .ok (r, H2) ∧
      Heap.agree lo H H2 ∧ FragOK H2 r lo H2.states.length (L1 + L2) := by
  have b1 := h1.start_lo
  have b2 := h1.start_hi
  have b3 := h1.end_lo
  have b4 := h1.end_hi
  have b5 := h2.start_lo
  have b6 := h2.start_hi
  have b7 := h2.end_lo
  have b8 := h2.end_hi
  obtain ⟨H2, hok, hlen, hends, heps, hlab⟩ := alternation_graph H f1 f2 (by omega) (by omega)
  have mono : ∀ p q w, Path H p w q → Path H2 p w q := fun p q w =>
    path_mono H H2 (fun a b e => (heps a b).mpr (Or.inl e)) (fun a d b e => (hlab a d b).mpr e) p q w
  have sink_e : ∀ q, ¬ eps_edge H2 (H.states.length + 1) q := by
    intro q e
    rcases (heps _ q).mp e with e0 | ⟨e1, _⟩ | ⟨e1, _⟩ | ⟨e1, _⟩ | ⟨e1, _⟩
    · have := eps_edge_lt H _ _ e0
      omega
    all_goals omega
  have sink_l : ∀ d q, ¬ labeled_edge H2 (H.states.length + 1) d q := by
    intro d q e
    have := labeled_edge_lt H _ _ _ ((hlab _ d q).mp e)
    omega
  have hsink : ∀ w q, Path H2 (H.states.length + 1) w q → w = [] :=
    fun w q hp => (path_from_sink H2 _ _ _ sink_e sink_l hp).1
  refine ⟨_, H2, hok, ?_, ?_⟩
  · intro p hp
    refine ⟨?_, fun q => ?_, fun d q => hlab p d q⟩
    · rw [hends]
      have c1 : p ≠ H.states.length + 1 := by omega
      have c2 : p ≠ f2.end_ := by omega
      have c3 : p ≠ f1.end_ := by omega
      have c4 : p ≠ H.states.length := by omega
      simp [c1, c2, c3, c4]
    · rw [heps]
      constructor
      · rintro (e | ⟨e, _⟩ | ⟨e, _⟩ | ⟨e, _⟩ | ⟨e, _⟩)
        · exact e
        all_goals omega
      · exact Or.inl
  · refine ⟨by simp only; omega, by simp only; omega, by simp only; omega, by simp only; omega,
      le_refl _, ?_, ?_, ?_, sink_e, sink_l, ?_⟩
    · intro p c1 c2
      rw [hends]
      simp only
      by_cases d1 : p = H.states.length + 1
      · simp [d1]
      · by_cases d2 : p = f2.end_
        · rw [if_neg d1, if_pos d2]
          simp [d1]
        · by_cases d3 : p = f1.end_
          · rw [if_neg d1, if_neg d2, if_pos d3]
            simp [d1]
          · by_cases d4 : p = H.states.length
            · simp [d1, d2, d3, d4]
            · simp only [d1, d2, d3, d4, if_false]
              by_cases c5 : p < mid
              · rw [h1.ends p c1 c5]
                simp [d3, d1]
              · rw [h2.ends p (by omega) (by omega)]
                simp [d2, d1]
    · intro p q c1 c2 e
      rcases (heps p q).mp e with e0 | ⟨_, rfl⟩ | ⟨_, rfl⟩ | ⟨_, rfl⟩ | ⟨_, rfl⟩
      · have := eps_edge_lt H _ _ e0
        by_cases c5 : p < mid
        · have := h1.eps_in p q c1 c5 e0
          omega
        · have := h2.eps_in p q (by omega) (by omega) e0
          omega
      all_goals omega
    · intro p d q c1 c2 e
      have e0 := (hlab p d q).mp e
      have := labeled_edge_lt H _ _ _ e0
      by_cases c5 : p < mid
      · have := h1.lab_in p d q c1 c5 e0
        omega
      · have := h2.lab_in p d q (by omega) (by omega) e0
        omega
    · intro w
      simp only
      rw [Language.mem_add]
      have ex1 := exit_path H H2 f1 lo mid L1 h1 (H.states.length + 1) false (by omega) hsink
        (fun p q c1 c2 e => by
          rcases (heps p q).mp e with e0 | ⟨_, _⟩ | ⟨_, _⟩ | ⟨e1, e2⟩ | ⟨_, _⟩
          · exact Or.inl e0
          · omega
          · omega
          · exact Or.inr ⟨e1, Or.inl e2⟩
          · omega)
        (fun p d q _ _ e => (hlab p d q).mp e)
      have ex2 := exit_path H H2 f2 mid H.states.length L2 h2 (H.states.length + 1) false
        (by omega) hsink
        (fun p q c1 c2 e => by
          rcases (heps p q).mp e with e0 | ⟨_, _⟩ | ⟨_, _⟩ | ⟨_, _⟩ | ⟨e1, e2⟩
          · exact Or.inl e0
          · omega
          · omega
          · omega
          · exact Or.inr ⟨e1, Or.inl e2⟩)
        (fun p d q _ _ e => (hlab p d q).mp e)
      constructor
      · intro hp
        rcases path_cases H2 _ _ w hp with ⟨_, h⟩ | ⟨q, e, hr⟩ | ⟨d, q, w2, rfl, e, hr⟩
        · omega
        · rcases (heps _ q).mp e with e0 | ⟨_, rfl⟩ | ⟨_, rfl⟩ | ⟨e1, _⟩ | ⟨e1, _⟩
          · have := eps_edge_lt H _ _ e0
            omega
          · obtain ⟨u, v, rfl, hu, hv⟩ := ex1 _ _ w hr rfl ⟨b1, b2⟩
            simp only [Bool.false_eq_true, if_false, Language.mem_one] at hv
            subst hv
            rw [List.append_nil]
            exact Or.inl ((h1.lang u).mp hu)
          · obtain ⟨u, v, rfl, hu, hv⟩ := ex2 _ _ w hr rfl ⟨b5, b6⟩
            simp only [Bool.false_eq_true, if_false, Language.mem_one] at hv
            subst hv
            rw [List.append_nil]
            exact Or.inr ((h2.lang u).mp hu)
          · omega
          · omega
        · have := labeled_edge_lt H _ _ _ ((hlab _ d q).mp e)
          omega
      · rintro (hw | hw)
        · have p1 := mono _ _ _ ((h1.lang w).mpr hw)
          have p2 : Path H2 f1.end_ [] (H.states.length + 1) :=
            Path.eps _ _ _ _ ((heps _ _).mpr (Or.inr (Or.inr (Or.inr (Or.inl ⟨rfl, rfl⟩)))))
              (Path.nil _)
          have p3 := path_append H2 _ _ _ _ _ p1 p2
          rw [List.append_nil] at p3
          exact Path.eps _ _ _ _ ((heps _ _).mpr (Or.inr (Or.inl ⟨rfl, rfl⟩))) p3
        · have p1 := mono _ _ _ ((h2.lang w).mpr hw)
          have p2 : Path H2 f2.end_ [] (H.states.length + 1) :=
            Path.eps _ _ _ _ ((heps _ _).mpr (Or.inr (Or.inr (Or.inr (Or.inr ⟨rfl, rfl⟩)))))
              (Path.nil _)
          have p3 := path_append H2 _ _ _ _ _ p1 p2
          rw [List.append_nil] at p3
          exact Path.eps _ _ _ _ ((heps _ _).mpr (Or.inr (Or.inr (Or.inl ⟨rfl, rfl⟩)))) p3

/-- Words of the iteration part of a wrapped fragment are read from the old end
node to the new end node. -/
theorem wrapped_tail (H H2 : Heap) (f : NFA) (lo : Nat) (L : Language Char) (skip loop : Bool)
    (hf : FragOK H f lo H.states.length L) (hw : Wrapped H H2 f skip loop)
    (v : List Char) (hv : v ∈ (if loop = true then KStar.kstar L else (1 : Language Char))) :
    Path H2 f.end_ v (H.states.length + 1) := by
  have mono : ∀ p q w, Path H p w q → Path H2 p w q := fun p q w =>
    path_mono H H2 (fun a b e => (hw.eps a b).mpr (Or.inl e))
      (fun a d b e => (hw.lab a d b).mpr e) p q w
  have hexit : Path H2 f.end_ [] (H.states.length + 1) :=
    Path.eps _ _ _ _ ((hw.eps _ _).mpr (Or.inr (Or.inr (Or.inr (Or.inr ⟨rfl, rfl⟩)))))
      (Path.nil _)
  cases loop with
  | false =>
    simp only [Bool.false_eq_true, if_false, Language.mem_one] at hv
    subst hv
    exact hexit
  | true =>
    simp only [if_true] at hv
    obtain ⟨S, rfl, hS⟩ := Language.mem_kstar.mp hv
    induction S with
    | nil => exact hexit
    | cons y S ih =>
      rw [List.flatten_cons]
      have hy := mono _ _ _ ((hf.lang y).mpr (hS y (List.mem_cons_self _ _)))
      have ht := ih (fun z hz => hS z (List.mem_cons_of_mem _ hz))
        (Language.join_mem_kstar (fun z hz => hS z (List.mem_cons_of_mem _ hz)))
      exact Path.eps _ _ _ _
        ((hw.eps _ _).mpr (Or.inr (Or.inr (Or.inr (Or.inl ⟨rfl, rfl, rfl⟩)))))
        (path_append H2 _ _ _ _ _ hy ht)

/-- A sound fragment that ends at the top of the store, wrapped by
`kleene_star`, `plus` or `optional`, is a sound fragment for the wrapped
language. -/
theorem wrapped_sem (H H2 : Heap) (f : NFA) (lo : Nat) (L : Language Char) (skip loop : Bool)
    (hf : FragOK H f lo H.states.length L) (hw : Wrapped H H2 f skip loop) :
    Heap.agree lo H H2 ∧
      FragOK H2 ⟨H.states.length, H.states.length + 1⟩ lo H2.states.length
        (wrap_lang skip loop L) := by
  have b1 := hf.start_lo
  have b2 := hf.start_hi
  have b3 := hf.end_lo
  have b4 := hf.end_hi
  have hlen := hw.len
  have mono : ∀ p q w, Path H p w q → Path H2 p w q := fun p q w =>
    path_mono H H2 (fun a b e => (hw.eps a b).mpr (Or.inl e))
      (fun a d b e => (hw.lab a d b).mpr e) p q w
  have sink_e : ∀ q, ¬ eps_edge H2 (H.states.length + 1) q := by
    intro q e
    rcases (hw.eps _ q).mp e with e0 | ⟨e1, _⟩ | ⟨_, e1, _⟩ | ⟨_, e1, _⟩ | ⟨e1, _⟩
    · have := eps_edge_lt H _ _ e0
      omega
    all_goals omega
  have sink_l : ∀ d q, ¬ labeled_edge H2 (H.states.length + 1) d q := by
    intro d q e
    have := labeled_edge_lt H _ _ _ ((hw.lab _ d q).mp e)
    omega
  have hsink : ∀ w q, Path H2 (H.states.length + 1) w q → w = [] :=
    fun w q hp => (path_from_sink H2 _ _ _ sink_e sink_l hp).1
  constructor
  · intro p hp
    refine ⟨?_, fun q => ?_, fun d q => hw.lab p d q⟩
    · rw [hw.ends]
      have c1 : p ≠ H.states.length + 1 := by omega
      have c2 : p ≠ f.end_ := by omega
      have c4 : p ≠ H.states.length := by omega
      simp [c1, c2, c4]
    · rw [hw.eps]
      constructor
      · rintro (e | ⟨e, _⟩ | ⟨_, e, _⟩ | ⟨_, e, _⟩ | ⟨e, _⟩)
        · exact e
        all_goals omega
      · exact Or.inl
  · refine ⟨by simp only; omega, by simp only; omega, by simp only; omega, by simp only; omega,
      le_refl _, ?_, ?_, ?_, sink_e, sink_l, ?_⟩
    · intro p c1 c2
      rw [hw.ends]
      simp only
      by_cases d1 : p = H.states.length + 1
      · simp [d1]
      · by_cases d2 : p = f.end_
        · rw [if_neg d1, if_pos d2]
          simp [d1]
        · by_cases d4 : p = H.states.length
          · simp [d1, d2, d4]
          · simp only [d1, d2, d4, if_false]
            rw [hf.ends p c1 (by omega)]
            simp [d2, d1]
    · intro p q c1 c2 e
      rcases (hw.eps p q).mp e with e0 | ⟨_, rfl⟩ | ⟨_, _, rfl⟩ | ⟨_, _, rfl⟩ | ⟨_, rfl⟩
      · have := eps_edge_lt H _ _ e0
        have := hf.eps_in p q c1 (by omega) e0
        omega
      all_goals omega
    · intro p d q c1 c2 e
      have e0 := (hw.lab p d q).mp e
      have := labeled_edge_lt H _ _ _ e0
      have := hf.lab_in p d q c1 (by omega) e0
      omega
    · intro w
      simp only
      unfold wrap_lang
      rw [Language.mem_add]
      have ex := exit_path H H2 f lo H.states.length L hf (H.states.length + 1) loop (by omega)
        hsink
        (fun p q c1 c2 e => by
          rcases (hw.eps p q).mp e with e0 | ⟨_, _⟩ | ⟨_, _, _⟩ | ⟨e1, e2, e3⟩ | ⟨e1, e2⟩
          · exact Or.inl e0
          · omega
          · omega
          · exact Or.inr ⟨e2, Or.inr ⟨e3, e1⟩⟩
          · exact Or.inr ⟨e1, Or.inl e2⟩)
        (fun p d q _ _ e => (hw.lab p d q).mp e)
      constructor
      · intro hp
        rcases path_cases H2 _ _ w hp with ⟨_, h⟩ | ⟨q, e, hr⟩ | ⟨d, q, w2, rfl, e, hr⟩
        · omega
        · rcases (hw.eps _ q).mp e with e0 | ⟨_, rfl⟩ | ⟨hs, _, rfl⟩ | ⟨_, e1, _⟩ | ⟨e1, _⟩
          · have := eps_edge_lt H _ _ e0
            omega
          · obtain ⟨u, v, rfl, hu, hv⟩ := ex _ _ w hr rfl ⟨b1, b2⟩
            exact Or.inr (Language.append_mem_mul ((hf.lang u).mp hu) hv)
          · have hw0 := hsink w _ hr
            subst hw0
            simp only [hs, if_true]
            exact Or.inl Language.nil_mem_one
          · omega
          · omega
        · have := labeled_edge_lt H _ _ _ ((hw.lab _ d q).mp e)
          omega
      · rintro (hw0 | hw0)
        · cases skip with
          | false =>
            simp only [Bool.false_eq_true, if_false] at hw0
            exact absurd hw0 (Language.not_mem_zero w)
          | true =>
            simp only [if_true, Language.mem_one] at hw0
            subst hw0
            exact Path.eps _ _ _ _ ((hw.eps _ _).mpr (Or.inr (Or.inr (Or.inl ⟨rfl, rfl, rfl⟩))))
              (Path.nil _)
        · obtain ⟨u, hu, v, hv, rfl⟩ := Language.mem_mul.mp hw0
          exact Path.eps _ _ _ _ ((hw.eps _ _).mpr (Or.inr (Or.inl ⟨rfl, rfl⟩)))
            (path_append H2 _ _ _ _ _ (mono _ _ _ ((hf.lang u).mpr hu))
              (wrapped_tail H H2 f lo L skip loop hf hw v hv))

theorem wrap_lang_star (L : Language Char) : wrap_lang true true L = KStar.kstar L := by
  simp only [wrap_lang, if_true]
  exact Language.one_add_self_mul_kstar_eq_kstar L

theorem wrap_lang_plus (L : Language Char) : wrap_lang false true L = L * KStar.kstar L := by
  simp only [wrap_lang, if_true, Bool.false_eq_true, if_false, zero_add]

theorem wrap_lang_optional (L : Language Char) : wrap_lang true false L = 1 + L := by
  simp only [wrap_lang, if_true, Bool.false_eq_true, if_false, mul_one]

/-! ## C1: patterns made of alphanumeric characters only -/

theorem implicit_concat_alnum (regex : List Char) (pos : Nat) (d : Char)
    (h : regex[pos]? = some d) (hd : isalnum d = true) : implicit_concat regex pos = true := by
  simp [implicit_concat, h, hd]

theorem implicit_concat_end (regex : List Char) (pos : Nat) (h : regex[pos]? = none) :
    implicit_concat regex pos = false := by
  simp [implicit_concat, h]

theorem chain_inv_first (p : List Char) (c : Char) (hc : p[0]? = some c) :
    chain_inv p 1 (Heap.init.with_char c) := by
  refine ⟨rfl, ?_, ?_⟩
  · intro i c2 hi hc2
    have : i = 0 := by omega
    subst this
    rw [hc] at hc2
    injection hc2 with hc2
    subst hc2
    exact ⟨_, rfl⟩
  · intro i hi
    have : i = 0 := by omega
    subst this
    exact ⟨_, rfl⟩

/-- Concatenating the fragment of one more character to a chain gives a chain. -/
theorem chain_inv_extend (p : List Char) (k : Nat) (H : Heap) (c : Char)
    (hinv : chain_inv p (k + 1) H) (hc : p[k + 1]? = some c) :
    ∃ H2, NFA.concat (H.with_char c) ⟨0, 2 * k + 1⟩ ⟨H.states.length, H.states.length + 1⟩ =
        .ok (⟨0, 2 * (k + 1) + 1⟩, H2) ∧ chain_inv p (k + 1 + 1) H2 := by
  obtain ⟨hlen, heven, hodd⟩ := hinv
  obtain ⟨idk, hk⟩ := hodd k (by omega)
  simp only [if_true, decide_True] at hk
  have hlt : 2 * k + 1 < H.states.length := by omega
  have h1 : (H.with_char c).states[2 * k + 1]? = some ⟨idk, true, [], []⟩ := by
    simp only [Heap.with_char]
    rw [List.getElem?_append_left hlt, hk]
  refine ⟨⟨((H.with_char c).states.set (2 * k + 1) ⟨idk, false, [], []⟩).set (2 * k + 1)
    ⟨idk, false, [], [H.states.length]⟩, (H.with_char c).state_id⟩, ?_, ?_⟩
  · have hlt2 : 2 * k + 1 < (H.with_char c).states.length := by
      simp only [Heap.with_char, List.length_append]; omega
    simp only [NFA.concat, Heap.set_is_end, Heap.push_epsilon, Heap.store, h1, ok_bind,
      List.getElem?_set_self hlt2, pure_eq_ok, List.nil_append]
    rw [hlen]
  · refine ⟨?_, ?_, ?_⟩
    · simp only [List.length_set, Heap.with_char, List.length_append, hlen,
        List.length_cons, List.length_nil]
      omega
    · intro i c2 hi hc2
      simp only [Heap.with_char]
      rw [List.getElem?_set_ne (by omega), List.getElem?_set_ne (by omega)]
      by_cases hik : i < k + 1
      · rw [List.getElem?_append_left (by omega)]
        exact heven i c2 hik hc2
      · have hik2 : i = k + 1 := by omega
        subst hik2
        rw [hc] at hc2
        injection hc2 with hc2
        subst hc2
        rw [show 2 * (k + 1) = H.states.length by omega, getElem?_append_two_fst]
        exact ⟨_, rfl⟩
    · intro i hi
      simp only [Heap.with_char]
      by_cases hik : i < k
      · rw [List.getElem?_set_ne (by omega), List.getElem?_set_ne (by omega),
          List.getElem?_append_left (by omega)]
        obtain ⟨id, h⟩ := hodd i (by omega)
        refine ⟨id, ?_⟩
        rw [h]
        have e1 : ¬(i + 1 = k + 1) := by omega
        have e2 : ¬(i + 1 = k + 1 + 1) := by omega
        simp only [e1, e2, if_false, decide_False]
      · by_cases hik2 : i = k
        · subst hik2
          rw [List.getElem?_set_self (by
            simp only [List.length_set, List.length_append, List.length_cons, List.length_nil]
            omega)]
          have e2 : ¬(i + 1 = i + 1 + 1) := by omega
          simp only [e2, if_false, decide_False]
          exact ⟨idk, by rw [hlen, Nat.mul_add]⟩
        · have hik3 : i = k + 1 := by omega
          subst hik3
          rw [List.getElem?_set_ne (by omega), List.getElem?_set_ne (by omega),
            show 2 * (k + 1) + 1 = H.states.length + 1 by omega, getElem?_append_two_snd]
          exact ⟨int_wrap (H.state_id + 1), by simp⟩

theorem drain_one_concat (H H2 : Heap) (nfa1 nfa2 r : NFA) (rest : List NFA)
    (h : NFA.concat H nfa1 nfa2 = .ok (r, H2)) :
    drain 1 H (nfa2 :: nfa1 :: rest) ['.'] = .ok (H2, r :: rest, []) := by
  simp only [drain, apply_operator, if_true, h, ok_bind, pure_eq_ok]

theorem push_concat_on_concat (H H2 : Heap) (nfa1 nfa2 r : NFA) (rest : List NFA)
    (h : NFA.concat H nfa1 nfa2 = .ok (r, H2)) :
    push_op '.' H (nfa2 :: nfa1 :: rest) ['.'] = .ok (H2, r :: rest, ['.']) := by
  have hp : precedence '.' ≥ precedence '.' := le_refl _
  simp only [push_op, List.length_cons, List.length_nil, reduce, hp, if_true, apply_operator,
    h, ok_bind, pure_eq_ok]

/-- The main loop on the rest of a literal pattern, from the state reached
after `k + 1` characters, followed by the end of `regex_to_nfa_helper`. -/
theorem literal_parse_rest (p : List Char) (hp : ∀ c ∈ p, isalnum c = true) :
    ∀ (m k f : Nat) (H : Heap), k + 1 + m + 1 = p.length → chain_inv p (k + 1) H →
      ∃ H2, (parse_loop (f + m + 2) p (k + 1) H [⟨0, 2 * k + 1⟩] ['.'] >>= helper_finish) =
          .ok (⟨0, 2 * (k + 1 + m) + 1⟩, p.length, H2) ∧ chain_inv p p.length H2 := by
  intro m
  induction m with
  | zero =>
    intro k f H hlen hinv
    have hc : p[k + 1]? = some p[k + 1] := List.getElem?_eq_getElem (by omega)
    have hcx : isalnum p[k + 1] = true := hp _ (List.getElem?_mem hc)
    have hnone : p[k + 1 + 1]? = none := List.getElem?_eq_none (by omega)
    obtain ⟨H2, hcat, hinv2⟩ := chain_inv_extend p k H _ hinv hc
    refine ⟨H2, ?_, by rw [← hlen]; exact hinv2⟩
    rw [show f + 0 + 2 = f + 1 + 1 by omega, parse_loop_alnum (f + 1) p (k + 1) H _ _ _ hc hcx,
      implicit_concat_end _ _ hnone]
    simp only [Bool.false_eq_true, if_false]
    rw [parse_loop_end f _ _ _ _ _ hnone]
    simp only [ok_bind, helper_finish, List.length_cons, List.length_nil, zero_add,
      drain_one_concat _ _ _ _ _ _ hcat, pure_eq_ok]
    rw [← hlen]
  | succ m ih =>
    intro k f H hlen hinv
    have hc : p[k + 1]? = some p[k + 1] := List.getElem?_eq_getElem (by omega)
    have hcx : isalnum p[k + 1] = true := hp _ (List.getElem?_mem hc)
    have hd : p[k + 1 + 1]? = some p[k + 1 + 1] := List.getElem?_eq_getElem (by omega)
    have hdx : isalnum p[k + 1 + 1] = true := hp _ (List.getElem?_mem hd)
    obtain ⟨H2, hcat, hinv2⟩ := chain_inv_extend p k H _ hinv hc
    obtain ⟨H3, hrest, hinv3⟩ := ih (k + 1) f H2 (by omega) hinv2
    refine ⟨H3, ?_, hinv3⟩
    rw [show f + (m + 1) + 2 = f + m + 2 + 1 by omega,
      parse_loop_alnum (f + m + 2) p (k + 1) H _ _ _ hc hcx,
      implicit_concat_alnum _ _ _ hd hdx]
    simp only [if_true, push_concat_on_concat _ _ _ _ _ _ hcat, ok_bind]
    rw [hrest, show k + 1 + 1 + m = k + 1 + (m + 1) by omega]

/-- Compiling a literal pattern in a fresh process gives a chain whose start is
object `0` and whose end is the last object. -/
theorem literal_parse (p : List Char) (hp : ∀ c ∈ p, isalnum c = true) (hne : p ≠ []) :
    ∃ H, NFA.regex_to_nfa Heap.init p = .ok (⟨0, 2 * (p.length - 1) + 1⟩, H) ∧
      chain_inv p p.length H := by
  have hpos : 0 < p.length := List.length_pos.mpr hne
  have hc : p[0]? = some p[0] := List.getElem?_eq_getElem hpos
  have hcx : isalnum p[0] = true := hp _ (List.getElem?_mem hc)
  have hinv := chain_inv_first p _ hc
  simp only [NFA.regex_to_nfa]
  rw [show 2 * p.length + 2 = 2 * p.length + 1 + 1 by omega, helper_eq_finish,
    show 2 * p.length + 1 = 2 * p.length + 1 by rfl,
    parse_loop_alnum (2 * p.length) p 0 Heap.init _ _ _ hc hcx]
  by_cases h1 : p.length = 1
  · have hnone : p[0 + 1]? = none := List.getElem?_eq_none (by omega)
    refine ⟨Heap.init.with_char p[0], ?_, by rw [h1]; exact hinv⟩
    rw [implicit_concat_end _ _ hnone, show 2 * p.length = 2 * p.length - 1 + 1 by omega]
    simp only [Bool.false_eq_true, if_false]
    rw [parse_loop_end _ _ _ _ _ _ hnone]
    simp only [ok_bind, helper_finish, List.length_nil, drain, pure_eq_ok, h1]
    rfl
  · have hd : p[0 + 1]? = some p[0 + 1] := List.getElem?_eq_getElem (by omega)
    have hdx : isalnum p[0 + 1] = true := hp _ (List.getElem?_mem hd)
    obtain ⟨H2, hrest, hinv2⟩ := literal_parse_rest p hp (p.length - 2) 0 p.length
      (Heap.init.with_char p[0]) (by omega) hinv
    refine ⟨H2, ?_, hinv2⟩
    rw [implicit_concat_alnum _ _ _ hd hdx]
    have hpush : push_op '.' (Heap.init.with_char p[0])
        [⟨Heap.init.states.length, Heap.init.states.length + 1⟩] [] =
        .ok (Heap.init.with_char p[0], [⟨0, 1⟩], ['.']) := rfl
    simp only [if_true, hpush, ok_bind]
    rw [show 2 * p.length = p.length + (p.length - 2) + 2 by omega, hrest]
    simp only [ok_bind, pure_eq_ok]
    rw [show 2 * (0 + 1 + (p.length - 2)) + 1 = 2 * (p.length - 1) + 1 by omega]

theorem chain_even (p : List Char) (H : Heap) (hinv : chain_inv p p.length H) (i : Nat)
    (hi : i < p.length) :
    ∃ id, H.states[2 * i]? = some ⟨id, false, [(p[i], [2 * i + 1])], []⟩ :=
  hinv.2.1 i _ hi (List.getElem?_eq_getElem hi)

theorem chain_closure_start (p : List Char) (H : Heap) (hinv : chain_inv p p.length H)
    (hpos : 0 < p.length) :
    NFA.epsilon_closure (H.states.length + 1) H 0 [] = .ok [0] := by
  obtain ⟨id, h0⟩ := chain_even p H hinv 0 hpos
  simp only [Nat.mul_zero] at h0
  simp [NFA.epsilon_closure, Heap.deref, h0, set_insert]

theorem chain_closure_odd (p : List Char) (H : Heap) (hinv : chain_inv p p.length H) (i : Nat)
    (hi : i < p.length) :
    [2 * i + 1].foldlM (fun current_states state =>
      NFA.epsilon_closure (H.states.length + 1) H state current_states) [] =
        .ok (chain_cur p.length i) := by
  obtain ⟨id, h1⟩ := hinv.2.2 i hi
  by_cases hlast : i + 1 = p.length
  · simp only [hlast, if_true] at h1
    simp [NFA.epsilon_closure, Heap.deref, h1, set_insert, chain_cur, hlast]
  · simp only [hlast, if_false] at h1
    obtain ⟨id2, h2⟩ := chain_even p H hinv (i + 1) (by omega)
    have hlen : H.states.length = 2 * p.length - 1 + 1 := by have := hinv.1; omega
    rw [show 2 * (i + 1) = 2 * i + 2 by omega] at h2
    simp only [List.foldlM_cons, List.foldlM_nil, NFA.epsilon_closure, List.contains_nil,
      Bool.false_eq_true, if_false, Heap.deref, h1, ok_bind, set_insert, pure_eq_ok]
    rw [hlen]
    simp [NFA.epsilon_closure, Heap.deref, h2, set_insert, chain_cur, hlast]

theorem chain_move_start (p : List Char) (H : Heap) (hinv : chain_inv p p.length H)
    (hpos : 0 < p.length) (c : Char) :
    [0].foldlM (fun next_states state => NFA.move H state c next_states) [] =
      .ok (if p[0]? = some c then [1] else []) := by
  obtain ⟨id, h0⟩ := chain_even p H hinv 0 hpos
  simp only [Nat.mul_zero] at h0
  rw [List.getElem?_eq_getElem hpos]
  by_cases hc : c = p[0]
  · subst hc
    simp [NFA.move, Heap.deref, h0, lookup_single_self, set_insert]
  · have hc2 : ¬(p[0] = c) := fun h => hc h.symm
    simp [NFA.move, Heap.deref, h0, lookup_single_ne _ _ _ hc, hc2]

theorem chain_move_cur (p : List Char) (H : Heap) (hinv : chain_inv p p.length H) (i : Nat)
    (hi : i < p.length) (c : Char) :
    (chain_cur p.length i).foldlM (fun next_states state => NFA.move H state c next_states) [] =
      .ok (if p[i + 1]? = some c then [2 * (i + 1) + 1] else []) := by
  obtain ⟨id, h1⟩ := hinv.2.2 i hi
  by_cases hlast : i + 1 = p.length
  · have hnone : p[i + 1]? = none := List.getElem?_eq_none (by omega)
    simp [chain_cur, hlast, NFA.move, Heap.deref, h1, hnone]
  · have hlt : i + 1 < p.length := by omega
    obtain ⟨id2, h2⟩ := chain_even p H hinv (i + 1) hlt
    rw [show 2 * (i + 1) = 2 * i + 2 by omega] at h2
    rw [List.getElem?_eq_getElem hlt]
    by_cases hc : c = p[i + 1]
    · subst hc
      simp [chain_cur, hlast, NFA.move, Heap.deref, h1, h2, lookup_single_self, set_insert]
      omega
    · have hc2 : ¬(p[i + 1] = c) := fun h => hc h.symm
      simp [chain_cur, hlast, NFA.move, Heap.deref, h1, h2, lookup_single_ne _ _ _ hc, hc2]

theorem chain_any_end_start (p : List Char) (H : Heap) (hinv : chain_inv p p.length H)
    (hpos : 0 < p.length) : NFA.any_end H [0] = .ok false := by
  obtain ⟨id, h0⟩ := chain_even p H hinv 0 hpos
  simp only [Nat.mul_zero] at h0
  simp [NFA.any_end, Heap.deref, h0]

theorem chain_any_end_cur (p : List Char) (H : Heap) (hinv : chain_inv p p.length H) (i : Nat)
    (hi : i < p.length) : NFA.any_end H (chain_cur p.length i) = .ok (decide (i + 1 = p.length)) := by
  obtain ⟨id, h1⟩ := hinv.2.2 i hi
  by_cases hlast : i + 1 = p.length
  · simp [chain_cur, hlast, NFA.any_end, Heap.deref, h1]
  · obtain ⟨id2, h2⟩ := chain_even p H hinv (i + 1) (by omega)
    rw [show 2 * (i + 1) = 2 * i + 2 by omega] at h2
    simp [chain_cur, hlast, NFA.any_end, Heap.deref, h1, h2]

theorem chain_step_cur (p : List Char) (H : Heap) (hinv : chain_inv p p.length H) (i : Nat)
    (hi : i < p.length) (c : Char) :
    NFA.step H (chain_cur p.length i) c =
      .ok (if p[i + 1]? = some c then chain_cur p.length (i + 1) else []) := by
  by_cases hc : p[i + 1]? = some c
  · have hlt : i + 1 < p.length := (List.getElem?_eq_some.mp hc).1
    rw [if_pos hc]
    refine step_eq _ _ _ [2 * (i + 1) + 1] _ ?_ (chain_closure_odd p H hinv (i + 1) hlt)
    rw [chain_move_cur p H hinv i hi c, if_pos hc]
  · rw [if_neg hc]
    refine step_eq _ _ _ [] _ ?_ rfl
    rw [chain_move_cur p H hinv i hi c, if_neg hc]

theorem chain_step_start (p : List Char) (H : Heap) (hinv : chain_inv p p.length H)
    (hpos : 0 < p.length) (c : Char) :
    NFA.step H [0] c = .ok (if p[0]? = some c then chain_cur p.length 0 else []) := by
  by_cases hc : p[0]? = some c
  · rw [if_pos hc]
    refine step_eq _ _ _ [1] _ ?_ (chain_closure_odd p H hinv 0 hpos)
    rw [chain_move_start p H hinv hpos c, if_pos hc]
  · rw [if_neg hc]
    refine step_eq _ _ _ [] _ ?_ rfl
    rw [chain_move_start p H hinv hpos c, if_neg hc]

theorem cons_eq_drop (p : List Char) (j : Nat) (c : Char) (t : List Char) :
    c :: t = p.drop j ↔ p[j]? = some c ∧ t = p.drop (j + 1) := by
  by_cases hj : j < p.length
  · rw [List.drop_eq_getElem_cons hj, List.getElem?_eq_getElem hj]
    constructor
    · intro h
      injection h with h1 h2
      exact ⟨by rw [h1], h2⟩
    · rintro ⟨h1, h2⟩
      injection h1 with h1
      rw [h1, h2]
  · rw [List.drop_eq_nil_of_le (by omega), List.getElem?_eq_none (by omega)]
    simp

theorem chain_run (p : List Char) (H : Heap) (hinv : chain_inv p p.length H) (s : List Char) :
    ∀ i, i < p.length →
      NFA.run_from H (chain_cur p.length i) s = .ok (decide (s = p.drop (i + 1))) := by
  induction s with
  | nil =>
    intro i hi
    rw [run_from_nil, chain_any_end_cur p H hinv i hi]
    congr 1
    rw [decide_eq_decide]
    constructor
    · intro h
      rw [List.drop_eq_nil_of_le (by omega)]
    · intro h
      have := List.drop_eq_nil_iff.mp h.symm
      omega
  | cons c t ih =>
    intro i hi
    rw [run_from_cons _ _ _ _ _ (chain_step_cur p H hinv i hi c)]
    by_cases hc : p[i + 1]? = some c
    · have hlt : i + 1 < p.length := (List.getElem?_eq_some.mp hc).1
      rw [if_pos hc, ih (i + 1) hlt]
      congr 1
      rw [decide_eq_decide, cons_eq_drop]
      simp [hc]
    · rw [if_neg hc, run_from_dead]
      congr 1
      symm
      rw [decide_eq_false_iff_not, cons_eq_drop]
      exact fun h => hc h.1

/-- C1: for a non-empty pattern `p` of alphanumeric characters, the automaton
compiled from `p`, in any store, accepts the input `s` exactly when `s = p`;
on every input the match returns a boolean. -/
theorem literal_pattern_matches_itself_only (H0 : Heap) (p : List Char) (hne : p ≠ [])
    (hp : ∀ c ∈ p, isalnum c = true) (s : List Char) :
    regex_matches H0 p s = .ok (decide (s = p)) := by
  apply regex_matches_lift
  have hpos : 0 < p.length := List.length_pos.mpr hne
  obtain ⟨H, hparse, hinv⟩ := literal_parse p hp hne
  rw [regex_matches_eq p s _ H [0] hparse (chain_closure_start p H hinv hpos)]
  cases s with
  | nil =>
    rw [run_from_nil, chain_any_end_start p H hinv hpos]
    congr 1
    symm
    rw [decide_eq_false_iff_not]
    exact fun h => hne h.symm
  | cons c t =>
    rw [run_from_cons _ _ _ _ _ (chain_step_start p H hinv hpos c)]
    have hd : c :: t = p ↔ p[0]? = some c ∧ t = p.drop (0 + 1) := by
      have := cons_eq_drop p 0 c t
      rwa [List.drop_zero] at this
    by_cases hc : p[0]? = some c
    · rw [if_pos hc, chain_run p H hinv t 0 hpos]
      congr 1
      rw [decide_eq_decide, hd]
      simp [hc]
    · rw [if_neg hc, run_from_dead]
      congr 1
      symm
      rw [decide_eq_false_iff_not, hd]
      exact fun h => hc h.1

theorem literal_pattern_matches_itself_only_witness :
    "ab1".toList ≠ [] ∧ (∀ c ∈ "ab1".toList, isalnum c = true) ∧
      regex_matches Heap.init "ab1".toList "ab1".toList =
        .ok (decide ("ab1".toList = "ab1".toList)) :=
  ⟨by decide, by decide,
    literal_pattern_matches_itself_only Heap.init "ab1".toList (by decide) (by decide)
      "ab1".toList⟩

/-! ## C2: the pattern `a*b` -/

/-- C2: in any store, the automaton compiled from `a*b` rejects `ab` and `aaab`
and accepts the empty input (with `b` accepted, and `a` and `ba` rejected, as
stated): the atom `b` that follows `*` is not concatenated, the `*` is applied
to it, and the fragment of `a` is left behind on the operand stack. -/
theorem star_then_atom_is_star_of_atom (H0 : Heap) :
    regex_matches H0 "a*b".toList "ab".toList = .ok false ∧
    regex_matches H0 "a*b".toList "aaab".toList = .ok false ∧
    regex_matches H0 "a*b".toList "".toList = .ok true ∧
    regex_matches H0 "a*b".toList "b".toList = .ok true ∧
    regex_matches H0 "a*b".toList "a".toList = .ok false ∧
    regex_matches H0 "a*b".toList "ba".toList = .ok false :=
  ⟨regex_matches_lift H0 _ _ _ rfl, regex_matches_lift H0 _ _ _ rfl,
    regex_matches_lift H0 _ _ _ rfl, regex_matches_lift H0 _ _ _ rfl,
    regex_matches_lift H0 _ _ _ rfl, regex_matches_lift H0 _ _ _ rfl⟩

/-! ## C3: the pattern `a.c` of the demo -/

/-- C3: in any store, the automaton compiled from the demo pattern `a.c`
rejects the demo input `ac` and accepts the input `c`: the character `.` is
skipped, no concatenation is inserted, and the fragment of `c` alone is
returned. -/
theorem dot_is_skipped_in_demo_pattern (H0 : Heap) :
    regex_matches H0 "a.c".toList "ac".toList = .ok false ∧
    regex_matches H0 "a.c".toList "c".toList = .ok true :=
  ⟨regex_matches_lift H0 _ _ _ rfl, regex_matches_lift H0 _ _ _ rfl⟩

/-! ## C4: the pattern `ab|c` -/

theorem ab_or_c_parse :
    NFA.regex_to_nfa Heap.init "ab|c".toList = .ok (⟨6, 7⟩, ab_or_c_heap) := rfl

theorem ab_or_c_dead (cur : List Nat) (d : Char) (u : List Char)
    (h : keys_within ab_or_c_heap cur []) :
    NFA.run_from ab_or_c_heap cur (d :: u) = .ok false :=
  run_from_cons_dead _ cur [] d u h (by simp)

/-- C4: the automaton compiled from `ab|c`, in any store, accepts exactly the
inputs `ab` and `c`; on every input the match returns a boolean. -/
theorem concat_binds_tighter_than_alternation (H0 : Heap) (s : List Char) :
    ∃ b, regex_matches H0 "ab|c".toList s = .ok b ∧
      (b = true ↔ s = "ab".toList ∨ s = "c".toList) := by
  suffices h : ∃ b, regex_matches Heap.init "ab|c".toList s = .ok b ∧
      (b = true ↔ s = ['a', 'b'] ∨ s = ['c']) by
    obtain ⟨b, hb, hiff⟩ := h
    exact ⟨b, regex_matches_lift H0 _ _ _ hb, hiff⟩
  rw [regex_matches_eq _ s _ _ [0, 4, 6] ab_or_c_parse rfl]
  cases s with
  | nil => exact ⟨false, rfl, by simp⟩
  | cons c t =>
    by_cases h1 : c = 'a'
    · subst h1
      rw [run_from_cons ab_or_c_heap [0, 4, 6] [1, 2] 'a' t rfl]
      cases t with
      | nil => exact ⟨false, rfl, by simp⟩
      | cons d u =>
        by_cases h2 : d = 'b'
        · subst h2
          rw [run_from_cons ab_or_c_heap [1, 2] [3, 7] 'b' u rfl]
          cases u with
          | nil => exact ⟨true, rfl, by simp⟩
          | cons e v =>
            rw [ab_or_c_dead _ e v (by simp [keys_within, ab_or_c_heap])]
            exact ⟨false, rfl, by simp⟩
        · rw [run_from_cons_dead _ _ ['b'] d u (by simp [keys_within, ab_or_c_heap])
            (by simp [h2])]
          exact ⟨false, rfl, by simp [h2]⟩
    · by_cases h3 : c = 'c'
      · subst h3
        rw [run_from_cons ab_or_c_heap [0, 4, 6] [5, 7] 'c' t rfl]
        cases t with
        | nil => exact ⟨true, rfl, by simp⟩
        | cons d u =>
          rw [ab_or_c_dead _ d u (by simp [keys_within, ab_or_c_heap])]
          exact ⟨false, rfl, by simp⟩
      · rw [run_from_cons_dead _ _ ['a', 'c'] c t (by simp [keys_within, ab_or_c_heap])
          (by simp [h1, h3])]
        exact ⟨false, rfl, by simp [h1, h3]⟩

/-! ## C5: the pattern `(ab)*` -/

theorem group_star_parse :
    NFA.regex_to_nfa Heap.init "(ab)*".toList = .ok (⟨4, 5⟩, group_star_heap) := rfl

theorem copies_zero : (List.replicate 0 ['a', 'b']).flatten = [] := rfl

theorem copies_succ (n : Nat) :
    (List.replicate (n + 1) ['a', 'b']).flatten =
      'a' :: 'b' :: (List.replicate n ['a', 'b']).flatten := rfl

theorem cons_eq_copies (c : Char) (t : List Char) :
    (∃ n, c :: t = (List.replicate n ['a', 'b']).flatten) ↔
      c = 'a' ∧ ∃ n, t = 'b' :: (List.replicate n ['a', 'b']).flatten := by
  constructor
  · rintro ⟨n, hn⟩
    cases n with
    | zero => simp [copies_zero] at hn
    | succ n =>
      rw [copies_succ] at hn
      injection hn with h1 h2
      exact ⟨h1, n, h2⟩
  · rintro ⟨h1, n, hn⟩
    exact ⟨n + 1, by rw [copies_succ, h1, hn]⟩

/-- The two sets the simulator alternates between: after a whole number of
copies of `ab`, and after one more `a`. -/
theorem group_star_loop (s : List Char) :
    (∃ b, NFA.run_from group_star_heap [0, 3, 5] s = .ok b ∧
      (b = true ↔ ∃ n, s = (List.replicate n ['a', 'b']).flatten)) ∧
    (∃ b, NFA.run_from group_star_heap [1, 2] s = .ok b ∧
      (b = true ↔ ∃ n, s = 'b' :: (List.replicate n ['a', 'b']).flatten)) := by
  induction s with
  | nil => exact ⟨⟨true, rfl, by simp⟩, ⟨false, rfl, by simp⟩⟩
  | cons c t ih =>
    obtain ⟨⟨b1, hb1, hiff1⟩, ⟨b2, hb2, hiff2⟩⟩ := ih
    constructor
    · by_cases h : c = 'a'
      · subst h
        rw [run_from_cons group_star_heap [0, 3, 5] [1, 2] 'a' t rfl]
        exact ⟨b2, hb2, by rw [hiff2, cons_eq_copies]; simp⟩
      · rw [run_from_cons_dead _ _ ['a'] c t (by simp [keys_within, group_star_heap])
          (by simp [h])]
        exact ⟨false, rfl, by rw [cons_eq_copies]; simp [h]⟩
    · by_cases h : c = 'b'
      · subst h
        rw [run_from_cons group_star_heap [1, 2] [0, 3, 5] 'b' t rfl]
        exact ⟨b1, hb1, by simp [hiff1]⟩
      · rw [run_from_cons_dead _ _ ['b'] c t (by simp [keys_within, group_star_heap])
          (by simp [h])]
        exact ⟨false, rfl, by simp [h]⟩

/-- C5: the automaton compiled from `(ab)*`, in any store, accepts an input
exactly when the input is the concatenation of some number (possibly zero) of
copies of `ab`; on every input the match returns a boolean. -/
theorem group_is_operand_of_star (H0 : Heap) (s : List Char) :
    ∃ b, regex_matches H0 "(ab)*".toList s = .ok b ∧
      (b = true ↔ ∃ n, s = (List.replicate n "ab".toList).flatten) := by
  suffices h : ∃ b, regex_matches Heap.init "(ab)*".toList s = .ok b ∧
      (b = true ↔ ∃ n, s = (List.replicate n ['a', 'b']).flatten) by
    obtain ⟨b, hb, hiff⟩ := h
    exact ⟨b, regex_matches_lift H0 _ _ _ hb, hiff⟩
  rw [regex_matches_eq _ s _ _ [0, 4, 5] group_star_parse rfl]
  cases s with
  | nil => exact ⟨true, rfl, by simp⟩
  | cons c t =>
    by_cases h : c = 'a'
    · subst h
      rw [run_from_cons group_star_heap [0, 4, 5] [1, 2] 'a' t rfl]
      obtain ⟨b2, hb2, hiff2⟩ := (group_star_loop t).2
      exact ⟨b2, hb2, by rw [hiff2, cons_eq_copies]; simp⟩
    · rw [run_from_cons_dead _ _ ['a'] c t (by simp [keys_within, group_star_heap])
        (by simp [h])]
      exact ⟨false, rfl, by rw [cons_eq_copies]; simp [h]⟩

/-! ## C6: the pattern `(a|b)c` -/

theorem group_then_c_parse :
    NFA.regex_to_nfa Heap.init "(a|b)c".toList = .ok (⟨4, 7⟩, group_then_c_heap) := rfl

/-- After the group has been matched, only `c` leads on, to the end state. -/
theorem group_then_c_tail (cur : List Nat) (t : List Char)
    (hk : keys_within group_then_c_heap cur ['c'])
    (hs : NFA.step group_then_c_heap cur 'c' = .ok [7])
    (he : NFA.any_end group_then_c_heap cur = .ok false) :
    ∃ b, NFA.run_from group_then_c_heap cur t = .ok b ∧ (b = true ↔ t = ['c']) := by
  cases t with
  | nil => exact ⟨false, he, by simp⟩
  | cons d u =>
    by_cases h : d = 'c'
    · subst h
      rw [run_from_cons _ _ _ _ _ hs]
      cases u with
      | nil => exact ⟨true, rfl, by simp⟩
      | cons e v =>
        rw [run_from_cons_dead _ _ [] e v (by simp [keys_within, group_then_c_heap]) (by simp)]
        exact ⟨false, rfl, by simp⟩
    · rw [run_from_cons_dead _ _ ['c'] d u hk (by simp [h])]
      exact ⟨false, rfl, by simp [h]⟩

/-- C6: the automaton compiled from `(a|b)c`, in any store, accepts exactly the
inputs `ac` and `bc`; on every input the match returns a boolean. -/
theorem atom_after_group_is_concatenated (H0 : Heap) (s : List Char) :
    ∃ b, regex_matches H0 "(a|b)c".toList s = .ok b ∧
      (b = true ↔ s = "ac".toList ∨ s = "bc".toList) := by
  suffices h : ∃ b, regex_matches Heap.init "(a|b)c".toList s = .ok b ∧
      (b = true ↔ s = ['a', 'c'] ∨ s = ['b', 'c']) by
    obtain ⟨b, hb, hiff⟩ := h
    exact ⟨b, regex_matches_lift H0 _ _ _ hb, hiff⟩
  rw [regex_matches_eq _ s _ _ [0, 2, 4] group_then_c_parse rfl]
  cases s with
  | nil => exact ⟨false, rfl, by simp⟩
  | cons c t =>
    by_cases h1 : c = 'a'
    · subst h1
      rw [run_from_cons group_then_c_heap [0, 2, 4] [1, 5, 6] 'a' t rfl]
      obtain ⟨b, hb, hiff⟩ := group_then_c_tail [1, 5, 6] t
        (by simp [keys_within, group_then_c_heap]) rfl rfl
      exact ⟨b, hb, by simp [hiff]⟩
    · by_cases h2 : c = 'b'
      · subst h2
        rw [run_from_cons group_then_c_heap [0, 2, 4] [3, 5, 6] 'b' t rfl]
        obtain ⟨b, hb, hiff⟩ := group_then_c_tail [3, 5, 6] t
          (by simp [keys_within, group_then_c_heap]) rfl rfl
        exact ⟨b, hb, by simp [hiff]⟩
      · rw [run_from_cons_dead _ _ ['a', 'b'] c t (by simp [keys_within, group_then_c_heap])
          (by simp [h1, h2])]
        exact ⟨false, rfl, by simp [h1, h2]⟩

/-! ## C7: the pattern `x*` -/

theorem star_parse (x : Char) (hx : isalnum x = true) :
    NFA.regex_to_nfa Heap.init [x, '*'] = .ok (⟨2, 3⟩, star_heap x) := by
  show (regex_to_nfa_helper 6 [x, '*'] 0 Heap.init >>= _) = _
  rw [regex_to_nfa_helper, parse_loop_alnum 4 _ _ _ _ _ x rfl hx]
  rfl

theorem star_step_first (x : Char) : NFA.step (star_heap x) [0, 2, 3] x = .ok [0, 1, 3] :=
  step_eq _ _ _ [1] _
    (by simp [star_heap, NFA.move, Heap.deref, lookup_single_self, set_insert]) rfl

theorem star_step_again (x : Char) : NFA.step (star_heap x) [0, 1, 3] x = .ok [0, 1, 3] :=
  step_eq _ _ _ [1] _
    (by simp [star_heap, NFA.move, Heap.deref, lookup_single_self, set_insert]) rfl

theorem star_loop (x : Char) (s : List Char) :
    ∃ b, NFA.run_from (star_heap x) [0, 1, 3] s = .ok b ∧ (b = true ↔ ∀ c ∈ s, c = x) := by
  induction s with
  | nil => exact ⟨true, rfl, by simp⟩
  | cons c t ih =>
    by_cases h : c = x
    · subst h
      rw [run_from_cons _ _ _ _ _ (star_step_again c)]
      obtain ⟨b, hb, hiff⟩ := ih
      exact ⟨b, hb, by simp [hiff]⟩
    · rw [run_from_cons_dead _ _ [x] c t (by simp [keys_within, star_heap]) (by simp [h])]
      exact ⟨false, rfl, by simp [h]⟩

/-- C7: for an alphanumeric character `x`, the automaton compiled from the
pattern `x*`, in any store, accepts an input exactly when every character of
the input equals `x`; on every input the match returns a boolean. -/
theorem kleene_star_of_char (H0 : Heap) (x : Char) (hx : isalnum x = true) (s : List Char) :
    ∃ b, regex_matches H0 [x, '*'] s = .ok b ∧ (b = true ↔ ∀ c ∈ s, c = x) := by
  suffices h : ∃ b, regex_matches Heap.init [x, '*'] s = .ok b ∧ (b = true ↔ ∀ c ∈ s, c = x) by
    obtain ⟨b, hb, hiff⟩ := h
    exact ⟨b, regex_matches_lift H0 _ _ _ hb, hiff⟩
  rw [regex_matches_eq _ s _ _ [0, 2, 3] (star_parse x hx) rfl]
  cases s with
  | nil => exact ⟨true, rfl, by simp⟩
  | cons c t =>
    by_cases h : c = x
    · subst h
      rw [run_from_cons _ _ _ _ _ (star_step_first c)]
      obtain ⟨b, hb, hiff⟩ := star_loop c t
      exact ⟨b, hb, by simp [hiff]⟩
    · rw [run_from_cons_dead _ _ [x] c t (by simp [keys_within, star_heap]) (by simp [h])]
      exact ⟨false, rfl, by simp [h]⟩

theorem kleene_star_of_char_witness :
    isalnum 'a' = true ∧ ∃ b, regex_matches Heap.init ['a', '*'] ['a', 'a'] = .ok b ∧
      (b = true ↔ ∀ c ∈ ['a', 'a'], c = 'a') :=
  ⟨by decide, kleene_star_of_char Heap.init 'a' (by decide) ['a', 'a']⟩

/-! ## C8: the pattern `x+` -/

theorem plus_parse (x : Char) (hx : isalnum x = true) :
    NFA.regex_to_nfa Heap.init [x, '+'] = .ok (⟨2, 3⟩, plus_heap x) := by
  show (regex_to_nfa_helper 6 [x, '+'] 0 Heap.init >>= _) = _
  rw [regex_to_nfa_helper, parse_loop_alnum 4 _ _ _ _ _ x rfl hx]
  rfl

theorem plus_step_first (x : Char) : NFA.step (plus_heap x) [0, 2] x = .ok [0, 1, 3] :=
  step_eq _ _ _ [1] _
    (by simp [plus_heap, NFA.move, Heap.deref, lookup_single_self, set_insert]) rfl

theorem plus_step_again (x : Char) : NFA.step (plus_heap x) [0, 1, 3] x = .ok [0, 1, 3] :=
  step_eq _ _ _ [1] _
    (by simp [plus_heap, NFA.move, Heap.deref, lookup_single_self, set_insert]) rfl

theorem plus_loop (x : Char) (s : List Char) :
    ∃ b, NFA.run_from (plus_heap x) [0, 1, 3] s = .ok b ∧ (b = true ↔ ∀ c ∈ s, c = x) := by
  induction s with
  | nil => exact ⟨true, rfl, by simp⟩
  | cons c t ih =>
    by_cases h : c = x
    · subst h
      rw [run_from_cons _ _ _ _ _ (plus_step_again c)]
      obtain ⟨b, hb, hiff⟩ := ih
      exact ⟨b, hb, by simp [hiff]⟩
    · rw [run_from_cons_dead _ _ [x] c t (by simp [keys_within, plus_heap]) (by simp [h])]
      exact ⟨false, rfl, by simp [h]⟩

/-- C8: for an alphanumeric character `x`, the automaton compiled from the
pattern `x+`, in any store, accepts an input exactly when the input is not
empty and every character of it equals `x`; on every input the match returns a
boolean. -/
theorem plus_of_char (H0 : Heap) (x : Char) (hx : isalnum x = true) (s : List Char) :
    ∃ b, regex_matches H0 [x, '+'] s = .ok b ∧ (b = true ↔ s ≠ [] ∧ ∀ c ∈ s, c = x) := by
  suffices h : ∃ b, regex_matches Heap.init [x, '+'] s = .ok b ∧
      (b = true ↔ s ≠ [] ∧ ∀ c ∈ s, c = x) by
    obtain ⟨b, hb, hiff⟩ := h
    exact ⟨b, regex_matches_lift H0 _ _ _ hb, hiff⟩
  rw [regex_matches_eq _ s _ _ [0, 2] (plus_parse x hx) rfl]
  cases s with
  | nil => exact ⟨false, rfl, by simp⟩
  | cons c t =>
    by_cases h : c = x
    · subst h
      rw [run_from_cons _ _ _ _ _ (plus_step_first c)]
      obtain ⟨b, hb, hiff⟩ := plus_loop c t
      exact ⟨b, hb, by simp [hiff]⟩
    · rw [run_from_cons_dead _ _ [x] c t (by simp [keys_within, plus_heap]) (by simp [h])]
      exact ⟨false, rfl, by simp [h]⟩

theorem plus_of_char_witness :
    isalnum 'a' = true ∧ ∃ b, regex_matches Heap.init ['a', '+'] [] = .ok b ∧
      (b = true ↔ ([] : List Char) ≠ [] ∧ ∀ c ∈ ([] : List Char), c = 'a') :=
  ⟨by decide, plus_of_char Heap.init 'a' (by decide) []⟩

/-! ## C9: the pattern `x?` -/

theorem optional_parse (x : Char) (hx : isalnum x = true) :
    NFA.regex_to_nfa Heap.init [x, '?'] = .ok (⟨2, 3⟩, optional_heap x) := by
  show (regex_to_nfa_helper 6 [x, '?'] 0 Heap.init >>= _) = _
  rw [regex_to_nfa_helper, parse_loop_alnum 4 _ _ _ _ _ x rfl hx]
  rfl

theorem optional_step (x : Char) : NFA.step (optional_heap x) [0, 2, 3] x = .ok [1, 3] :=
  step_eq _ _ _ [1] _
    (by simp [optional_heap, NFA.move, Heap.deref, lookup_single_self, set_insert]) rfl

/-- C9: for an alphanumeric character `x`, the automaton compiled from the
pattern `x?`, in any store, accepts exactly the empty input and the
one-character input `x`; on every input the match returns a boolean. -/
theorem optional_of_char (H0 : Heap) (x : Char) (hx : isalnum x = true) (s : List Char) :
    ∃ b, regex_matches H0 [x, '?'] s = .ok b ∧ (b = true ↔ s = [] ∨ s = [x]) := by
  suffices h : ∃ b, regex_matches Heap.init [x, '?'] s = .ok b ∧
      (b = true ↔ s = [] ∨ s = [x]) by
    obtain ⟨b, hb, hiff⟩ := h
    exact ⟨b, regex_matches_lift H0 _ _ _ hb, hiff⟩
  rw [regex_matches_eq _ s _ _ [0, 2, 3] (optional_parse x hx) rfl]
  cases s with
  | nil => exact ⟨true, rfl, by simp⟩
  | cons c t =>
    by_cases h : c = x
    · subst h
      rw [run_from_cons _ _ _ _ _ (optional_step c)]
      cases t with
      | nil => exact ⟨true, rfl, by simp⟩
      | cons d u =>
        rw [run_from_cons_dead _ _ [] d u (by simp [keys_within, optional_heap]) (by simp)]
        exact ⟨false, rfl, by simp⟩
    · rw [run_from_cons_dead _ _ [x] c t (by simp [keys_within, optional_heap]) (by simp [h])]
      exact ⟨false, rfl, by simp [h]⟩

theorem optional_of_char_witness :
    isalnum 'a' = true ∧ ∃ b, regex_matches Heap.init ['a', '?'] ['a', 'a'] = .ok b ∧
      (b = true ↔ ['a', 'a'] = ([] : List Char) ∨ ['a', 'a'] = ['a']) :=
  ⟨by decide, optional_of_char Heap.init 'a' (by decide) ['a', 'a']⟩

/-! ## C10: the pattern `x|y` -/

theorem alt_parse (x y : Char) (hx : isalnum x = true) (hy : isalnum y = true) :
    NFA.regex_to_nfa Heap.init [x, '|', y] = .ok (⟨4, 5⟩, alt_heap x y) := by
  show (regex_to_nfa_helper 8 [x, '|', y] 0 Heap.init >>= _) = _
  rw [regex_to_nfa_helper, parse_loop_alnum 6 _ _ _ _ _ x rfl hx]
  have e : implicit_concat [x, '|', y] (0 + 1) = false := rfl
  simp only [e]
  have e2 : parse_loop 6 [x, '|', y] (0 + 1) (Heap.init.with_char x)
      [⟨Heap.init.states.length, Heap.init.states.length + 1⟩] [] =
      parse_loop 5 [x, '|', y] 2 (Heap.init.with_char x) [⟨0, 1⟩] ['|'] := rfl
  rw [e2, parse_loop_alnum 4 _ _ _ _ _ y rfl hy]
  rfl

theorem alt_dead (x y : Char) (cur : List Nat) (d : Char) (u : List Char)
    (h : keys_within (alt_heap x y) cur []) :
    NFA.run_from (alt_heap x y) cur (d :: u) = .ok false :=
  run_from_cons_dead _ cur [] d u h (by simp)

/-- C10: for alphanumeric characters `x` and `y`, the automaton compiled from
the pattern `x|y`, in any store, accepts exactly the one-character inputs `x`
and `y`; on every input the match returns a boolean. -/
theorem alternation_of_chars (H0 : Heap) (x y : Char) (hx : isalnum x = true)
    (hy : isalnum y = true) (s : List Char) :
    ∃ b, regex_matches H0 [x, '|', y] s = .ok b ∧ (b = true ↔ s = [x] ∨ s = [y]) := by
  suffices h : ∃ b, regex_matches Heap.init [x, '|', y] s = .ok b ∧
      (b = true ↔ s = [x] ∨ s = [y]) by
    obtain ⟨b, hb, hiff⟩ := h
    exact ⟨b, regex_matches_lift H0 _ _ _ hb, hiff⟩
  rw [regex_matches_eq _ s _ _ [0, 2, 4] (alt_parse x y hx hy) rfl]
  cases s with
  | nil => exact ⟨false, rfl, by simp⟩
  | cons c t =>
    by_cases h1 : c = x
    · by_cases h2 : c = y
      · have hs : NFA.step (alt_heap x y) [0, 2, 4] c = .ok [1, 3, 5] := by
          subst h1; subst h2
          exact step_eq _ _ _ [1, 3] _
            (by simp [alt_heap, NFA.move, Heap.deref, lookup_single_self, set_insert]) rfl
        rw [run_from_cons _ _ _ _ _ hs]
        cases t with
        | nil => exact ⟨true, rfl, by simp [h1]⟩
        | cons d u =>
          rw [alt_dead x y _ d u (by simp [keys_within, alt_heap])]
          exact ⟨false, rfl, by simp⟩
      · have hs : NFA.step (alt_heap x y) [0, 2, 4] c = .ok [1, 5] := by
          subst h1
          exact step_eq _ _ _ [1] _
            (by simp [alt_heap, NFA.move, Heap.deref, lookup_single_self, lookup_single_ne,
              set_insert, h2]) rfl
        rw [run_from_cons _ _ _ _ _ hs]
        cases t with
        | nil => exact ⟨true, rfl, by simp [h1]⟩
        | cons d u =>
          rw [alt_dead x y _ d u (by simp [keys_within, alt_heap])]
          exact ⟨false, rfl, by simp⟩
    · by_cases h2 : c = y
      · have hs : NFA.step (alt_heap x y) [0, 2, 4] c = .ok [3, 5] := by
          subst h2
          exact step_eq _ _ _ [3] _
            (by simp [alt_heap, NFA.move, Heap.deref, lookup_single_self, lookup_single_ne,
              set_insert, h1]) rfl
        rw [run_from_cons _ _ _ _ _ hs]
        cases t with
        | nil => exact ⟨true, rfl, by simp [h2]⟩
        | cons d u =>
          rw [alt_dead x y _ d u (by simp [keys_within, alt_heap])]
          exact ⟨false, rfl, by simp⟩
      · rw [run_from_cons_dead _ _ [x, y] c t (by simp [keys_within, alt_heap])
          (by simp [h1, h2])]
        exact ⟨false, rfl, by simp [h1, h2]⟩

theorem alternation_of_chars_witness :
    isalnum 'a' = true ∧ isalnum 'b' = true ∧
      ∃ b, regex_matches Heap.init ['a', '|', 'b'] ['a', 'b'] = .ok b ∧
        (b = true ↔ ['a', 'b'] = ['a'] ∨ ['a', 'b'] = ['b']) :=
  ⟨by decide, by decide, alternation_of_chars Heap.init 'a' 'b' (by decide) (by decide) ['a', 'b']⟩

/-! ## C11: patterns for which no automaton is returned -/

theorem apply_operator_no_operand (H : Heap) (op_stack : List Char)
    (r : Heap × List NFA × List Char) (h : apply_operator H [] op_stack = .ok r) :
    r.2.1 = [] := by
  unfold apply_operator at h
  cases op_stack with
  | nil => cases h
  | cons op ops =>
    simp only [] at h
    split_ifs at h; cases h; rfl

theorem reduce_no_operand (fuel prec : Nat) (H : Heap) (op_stack : List Char)
    (r : Heap × List NFA × List Char) (h : reduce fuel prec H [] op_stack = .ok r) :
    r.2.1 = [] := by
  induction fuel generalizing H op_stack with
  | zero =>
    cases op_stack with
    | nil => cases h; rfl
    | cons op ops =>
      simp only [reduce] at h
      split_ifs at h; cases h; rfl
  | succ fuel ih =>
    cases op_stack with
    | nil => cases h; rfl
    | cons op ops =>
      simp only [reduce] at h
      split_ifs at h
      · cases ha : apply_operator H [] (op :: ops) with
        | error e => rw [ha] at h; cases h
        | ok q =>
          rw [ha] at h
          have hq := apply_operator_no_operand _ _ q ha
          obtain ⟨H1, n1, o1⟩ := q
          simp only at hq
          subst hq
          exact ih _ _ h
      · cases h; rfl

theorem drain_no_operand (fuel : Nat) (H : Heap) (op_stack : List Char)
    (r : Heap × List NFA × List Char) (h : drain fuel H [] op_stack = .ok r) :
    r.2.1 = [] := by
  induction fuel generalizing H op_stack with
  | zero =>
    cases op_stack with
    | nil => cases h; rfl
    | cons op ops => cases h
  | succ fuel ih =>
    cases op_stack with
    | nil => cases h; rfl
    | cons op ops =>
      simp only [drain] at h
      cases ha : apply_operator H [] (op :: ops) with
      | error e => rw [ha] at h; cases h
      | ok q =>
        rw [ha] at h
        have hq := apply_operator_no_operand _ _ q ha
        obtain ⟨H1, n1, o1⟩ := q
        simp only at hq
        subst hq
        exact ih _ _ h

theorem push_op_no_operand (op : Char) (H : Heap) (op_stack : List Char)
    (r : Heap × List NFA × List Char) (h : push_op op H [] op_stack = .ok r) :
    r.2.1 = [] := by
  unfold push_op at h
  cases hr : reduce op_stack.length (precedence op) H [] op_stack with
  | error e => rw [hr] at h; cases h
  | ok q =>
    rw [hr] at h
    have hq := reduce_no_operand _ _ _ _ q hr
    obtain ⟨H1, n1, o1⟩ := q
    cases h
    exact hq

/-- Without an alphanumeric character in the pattern nothing is ever pushed on
the operand stack, and `regex_to_nfa_helper` cannot return a fragment. -/
theorem parse_no_operand (regex : List Char) (hno : ∀ c ∈ regex, isalnum c = false)
    (fuel : Nat) :
    (∀ pos H op_stack r, parse_loop fuel regex pos H [] op_stack = .ok r → r.2.1 = []) ∧
    (∀ pos H r, regex_to_nfa_helper fuel regex pos H ≠ .ok r) := by
  induction fuel with
  | zero =>
    constructor
    · intro pos H op_stack r h; cases h
    · intro pos H r h; cases h
  | succ fuel ih =>
    obtain ⟨ihl, ihh⟩ := ih
    have hstep : ∀ (op : Char) (pos : Nat) (H : Heap) (op_stack : List Char)
        (r : Heap × List NFA × List Char × Nat),
        (push_op op H [] op_stack >>= fun q => parse_loop fuel regex pos q.1 q.2.1 q.2.2) =
          .ok r → r.2.1 = [] := by
      intro op pos H op_stack r h
      cases hp : push_op op H [] op_stack with
      | error e => rw [hp] at h; cases h
      | ok q =>
        rw [hp] at h
        have hq := push_op_no_operand _ _ _ q hp
        obtain ⟨H1, n1, o1⟩ := q
        simp only at hq
        subst hq
        exact ihl _ _ _ _ h
    constructor
    · intro pos H op_stack r h
      rw [parse_loop] at h
      cases hc : regex[pos]? with
      | none => rw [hc] at h; cases h; rfl
      | some c =>
        rw [hc] at h
        have hx : isalnum c = false := hno c (List.getElem?_mem hc)
        simp only [hx, Bool.false_eq_true, if_false] at h
        split_ifs at h
        · cases hh : regex_to_nfa_helper fuel regex (pos + 1) H with
          | error e => rw [hh] at h; cases h
          | ok q => exact absurd hh (ihh _ _ _)
        · cases h; rfl
        · exact hstep _ _ _ _ _ h
        · exact hstep _ _ _ _ _ h
        · exact hstep _ _ _ _ _ h
        · exact hstep _ _ _ _ _ h
        · exact ihl _ _ _ _ h
    · intro pos H r h
      rw [helper_eq_finish] at h
      cases hl : parse_loop fuel regex pos H [] [] with
      | error e => rw [hl] at h; cases h
      | ok q =>
        rw [hl] at h
        have hq := ihl _ _ _ q hl
        obtain ⟨H1, n1, o1, p1⟩ := q
        simp only at hq
        subst hq
        simp only [ok_bind, helper_finish] at h
        cases hd : drain o1.length H1 [] o1 with
        | error e => rw [hd] at h; cases h
        | ok q2 =>
          rw [hd] at h
          have hq2 := drain_no_operand _ _ _ q2 hd
          obtain ⟨H2, n2, o2⟩ := q2
          simp only at hq2
          subst hq2
          cases h

/-- C11, as amended: for every pattern without an alphanumeric character (so
for every pattern that is empty once the skipped characters are left out, and
for every pattern made of operators only), in any store, `regex_to_nfa` returns
no automaton: the run ends in the undefined behaviour of `back()` on an empty
operand stack. -/
theorem no_automaton_without_atom (H : Heap) (regex : List Char)
    (hno : ∀ c ∈ regex, isalnum c = false) :
    NFA.regex_to_nfa H regex = .error .undefined_behaviour := by
  have hf := regex_to_nfa_fuel H regex
  cases hr : NFA.regex_to_nfa H regex with
  | error e =>
    cases e with
    | undefined_behaviour => rfl
    | out_of_fuel => exact absurd hr hf
  | ok r =>
    exfalso
    unfold NFA.regex_to_nfa at hr
    cases hh : regex_to_nfa_helper (2 * regex.length + 2) regex 0 H with
    | error e => rw [hh] at hr; cases hr
    | ok q => exact (parse_no_operand regex hno _).2 _ _ _ hh

theorem no_automaton_without_atom_witness :
    (∀ c ∈ ". |*".toList, isalnum c = false) ∧
      NFA.regex_to_nfa Heap.init ". |*".toList = .error .undefined_behaviour :=
  ⟨by decide, no_automaton_without_atom Heap.init ". |*".toList (by decide)⟩

/-- C11, refuted as stated: the pattern `*a` begins with a postfix operator and
`regex_to_nfa` returns the automaton of `a*` for it; the pattern `|a.c` begins
with the binary operator and `regex_to_nfa` returns an automaton for it, which
accepts `c`; on the pattern `a.c` the main loop leaves two fragments on the
operand stack and `regex_to_nfa` returns the top one. -/
theorem automaton_returned_for_malformed_patterns :
    NFA.regex_to_nfa Heap.init "*a".toList = .ok (⟨2, 3⟩, star_heap 'a') ∧
    (∃ r, NFA.regex_to_nfa Heap.init "|a.c".toList = .ok r) ∧
    regex_matches Heap.init "|a.c".toList "c".toList = .ok true ∧
    parse_loop 7 "a.c".toList 0 Heap.init [] [] =
      .ok (skip_heap 'a' 'c', [⟨2, 3⟩, ⟨0, 1⟩], [], 3) ∧
    NFA.regex_to_nfa Heap.init "a.c".toList = .ok (⟨2, 3⟩, skip_heap 'a' 'c') :=
  ⟨rfl, ⟨_, rfl⟩, rfl, rfl, rfl⟩

/-! ## C12: `matches` is total -/

/-- C12: on a finite automaton (every stored pointer points to an allocated
node) every call of `epsilon_closure` on an allocated node and a set of
allocated nodes returns: at once, with the set unchanged, when the node is in
the set already, and otherwise with the node added to the set; and `matches`
returns a boolean on every input. -/
theorem matches_is_total (H : Heap) (hwf : H.wf) (nfa : NFA)
    (hs : nfa.start < H.states.length) (s : List Char) :
    (∀ p cl, p < H.states.length → set_ok H.states.length cl →
      ∃ r, NFA.epsilon_closure (H.states.length + 1) H p cl = .ok r ∧
        (p ∈ cl → r = cl) ∧ p ∈ r ∧ cl.length ≤ r.length ∧ ∀ x ∈ cl, x ∈ r) ∧
    ∃ b, NFA.matches_ H nfa s = .ok b := by
  constructor
  · intro p cl hp hok
    obtain ⟨r, hr, _, len, sub, mem, _, _⟩ :=
      closure_spec H hwf (H.states.length + 1) p cl hp hok (by omega)
    refine ⟨r, hr, fun hc => ?_, mem, len, sub⟩
    rw [NFA.epsilon_closure, if_pos ((contains_iff_mem p cl).mpr hc)] at hr
    cases hr
    rfl
  · obtain ⟨b, hb, _⟩ := matches_spec H hwf nfa hs s
    exact ⟨b, hb⟩

theorem matches_is_total_witness :
    (star_heap 'a').wf ∧ (⟨2, 3⟩ : NFA).start < (star_heap 'a').states.length ∧
    (∀ p cl, p < (star_heap 'a').states.length → set_ok (star_heap 'a').states.length cl →
      ∃ r, NFA.epsilon_closure ((star_heap 'a').states.length + 1) (star_heap 'a') p cl = .ok r ∧
        (p ∈ cl → r = cl) ∧ p ∈ r ∧ cl.length ≤ r.length ∧ ∀ x ∈ cl, x ∈ r) ∧
    ∃ b, NFA.matches_ (star_heap 'a') ⟨2, 3⟩ ['a', 'a'] = .ok b :=
  ⟨wf_of_check _ rfl, by decide,
    matches_is_total (star_heap 'a') (wf_of_check _ rfl) ⟨2, 3⟩ (by decide) ['a', 'a']⟩

/-! ## C13: the empty set of current states is absorbing -/

/-- C13: if the set of current states is empty after the input `s`, then it is
empty after every longer input `s ++ t`, and the match of `s ++ t` fails. -/
theorem empty_set_is_absorbing (H : Heap) (nfa : NFA) (s t : List Char)
    (h : NFA.current_after H nfa s = .ok []) :
    NFA.current_after H nfa (s ++ t) = .ok [] ∧ NFA.matches_ H nfa (s ++ t) = .ok false := by
  have h1 : NFA.current_after H nfa (s ++ t) = .ok [] := by
    rw [current_after_append, h, ok_bind, foldlM_step_dead]
  exact ⟨h1, by rw [matches_eq_current_after, h1]; rfl⟩

theorem empty_set_is_absorbing_witness :
    NFA.current_after (star_heap 'a') ⟨2, 3⟩ ['b'] = .ok [] ∧
      NFA.current_after (star_heap 'a') ⟨2, 3⟩ (['b'] ++ ['a', 'a']) = .ok [] ∧
      NFA.matches_ (star_heap 'a') ⟨2, 3⟩ (['b'] ++ ['a', 'a']) = .ok false :=
  ⟨rfl, empty_set_is_absorbing (star_heap 'a') ⟨2, 3⟩ ['b'] ['a', 'a'] rfl⟩

/-! ## C14: compiling is repeatable -/

theorem regex_to_nfa_from_init (H0 : Heap) (p : List Char) :
    NFA.regex_to_nfa H0 p = reloc_frag H0 <$> NFA.regex_to_nfa Heap.init p := by
  have := regex_to_nfa_reloc H0 Heap.init p
  rwa [reloc_init] at this

/-- C14: if `regex_to_nfa` returns an automaton for `p` in a store `H1`, then it
returns one in every other store `H2`, whatever its objects and the value of
its counter `state_id` (`INT_MAX` included, where `state_id++` wraps around),
and the two automata return the same boolean on every input.  Moreover,
compiling `p` again in the store left by the first compilation, from any value
of `state_id`, succeeds, leaves the answers of the first automaton unchanged,
and gives an automaton with the same answers. -/
theorem compile_is_repeatable (H1 H2 : Heap) (p : List Char) (n1 : NFA) (G1 : Heap)
    (h : NFA.regex_to_nfa H1 p = .ok (n1, G1)) :
    (∃ n2 G2, NFA.regex_to_nfa H2 p = .ok (n2, G2) ∧
      ∀ s, ∃ b, NFA.matches_ G1 n1 s = .ok b ∧ NFA.matches_ G2 n2 s = .ok b) ∧
    (∀ j : Int, ∃ n3 G3, NFA.regex_to_nfa ⟨G1.states, j⟩ p = .ok (n3, G3) ∧
      ∀ s, ∃ b, NFA.matches_ G1 n1 s = .ok b ∧ NFA.matches_ G3 n1 s = .ok b ∧
        NFA.matches_ G3 n3 s = .ok b) := by
  rw [regex_to_nfa_from_init] at h
  cases hi : NFA.regex_to_nfa Heap.init p with
  | error e => rw [hi] at h; cases h
  | ok r =>
    obtain ⟨n, Hx⟩ := r
    rw [hi] at h
    simp only [map_ok, reloc_frag, Except.ok.injEq, Prod.mk.injEq] at h
    obtain ⟨rfl, rfl⟩ := h
    obtain ⟨hwf, hstart⟩ := regex_to_nfa_wf Heap.init p n Hx wf_init hi
    constructor
    · refine ⟨NFA.shift H2.states.length n, Heap.reloc H2 Hx, by
        rw [regex_to_nfa_from_init, hi]; rfl, fun s => ?_⟩
      obtain ⟨b, hb, _⟩ := matches_spec Hx hwf n hstart s
      exact ⟨b, matches_reloc_ok H1 Hx n s b hb, matches_reloc_ok H2 Hx n s b hb⟩
    · intro j
      refine ⟨NFA.shift (Heap.reloc H1 Hx).states.length n,
        Heap.reloc ⟨(Heap.reloc H1 Hx).states, j⟩ Hx, by
          rw [regex_to_nfa_from_init, hi]; rfl, fun s => ?_⟩
      obtain ⟨b, hb, _⟩ := matches_spec Hx hwf n hstart s
      have hb1 := matches_reloc_ok H1 Hx n s b hb
      exact ⟨b, hb1, matches_ext (Heap.reloc H1 Hx) _ _ rfl _ s b hb1,
        matches_reloc_ok ⟨(Heap.reloc H1 Hx).states, j⟩ Hx n s b hb⟩

theorem compile_is_repeatable_witness :
    NFA.regex_to_nfa ⟨[], 2147483645⟩ "(a|b)c".toList = .ok (⟨4, 7⟩, group_then_c_heap_wrapped) ∧
    (∃ n2 G2, NFA.regex_to_nfa ⟨[], 2147483647⟩ "(a|b)c".toList = .ok (n2, G2) ∧
      ∀ s, ∃ b, NFA.matches_ group_then_c_heap_wrapped ⟨4, 7⟩ s = .ok b ∧
        NFA.matches_ G2 n2 s = .ok b) ∧
    (∀ j : Int, ∃ n3 G3,
      NFA.regex_to_nfa ⟨group_then_c_heap_wrapped.states, j⟩ "(a|b)c".toList = .ok (n3, G3) ∧
      ∀ s, ∃ b, NFA.matches_ group_then_c_heap_wrapped ⟨4, 7⟩ s = .ok b ∧
        NFA.matches_ G3 ⟨4, 7⟩ s = .ok b ∧ NFA.matches_ G3 n3 s = .ok b) :=
  ⟨rfl, compile_is_repeatable ⟨[], 2147483645⟩ ⟨[], 2147483647⟩ "(a|b)c".toList ⟨4, 7⟩
    group_then_c_heap_wrapped rfl⟩

/-! ## C15: the single-accept invariant -/

theorem single_accept_end_lt (H : Heap) (nodes : List Nat) (f : NFA)
    (h : single_accept H nodes f) : f.end_ < H.states.length := by
  obtain ⟨st, hst, _⟩ := h.2 _ h.1
  exact (List.getElem?_eq_some.mp hst).1

theorem single_accept_fresh (H H2 : Heap)
    (he : ∀ q, is_end_at H2 q =
      if q = H.states.length + 1 then some true
      else if q = H.states.length then some false else is_end_at H q) :
    single_accept H2 [H.states.length, H.states.length + 1]
      ⟨H.states.length, H.states.length + 1⟩ := by
  rw [single_accept_iff]
  refine ⟨by simp, fun p hp => ?_⟩
  simp only [List.mem_cons, List.mem_singleton, List.not_mem_nil, or_false] at hp
  rcases hp with rfl | rfl
  · exact ⟨false, by rw [he]; simp, by simp⟩
  · exact ⟨true, by rw [he]; simp, by simp⟩

theorem single_accept_unary (H H2 : Heap) (nodes : List Nat) (f : NFA)
    (h : single_accept H nodes f)
    (he : ∀ q, is_end_at H2 q =
      if q = H.states.length + 1 then some true
      else if q = f.end_ then some false
      else if q = H.states.length then some false else is_end_at H q) :
    single_accept H2 (nodes ++ [H.states.length, H.states.length + 1])
      ⟨H.states.length, H.states.length + 1⟩ := by
  rw [single_accept_iff] at h ⊢
  refine ⟨by simp, fun p hp => ?_⟩
  simp only [List.mem_append, List.mem_cons, List.mem_singleton, List.not_mem_nil,
    or_false] at hp
  rcases hp with hp | rfl | rfl
  · obtain ⟨b, hb, hiff⟩ := h.2 p hp
    have hlt := is_end_at_lt H p b hb
    have n1 : p ≠ H.states.length + 1 := by omega
    have n2 : p ≠ H.states.length := by omega
    by_cases c : p = f.end_
    · exact ⟨false, by rw [he, if_neg n1, if_pos c], by simp [n1]⟩
    · refine ⟨b, by rw [he, if_neg n1, if_neg c, if_neg n2, hb], ?_⟩
      simp only [n1, iff_false]
      rw [hiff]; exact c
  · have hlt := single_accept_end_lt H nodes f ((single_accept_iff H nodes f).mpr h)
    have c : H.states.length ≠ f.end_ := by omega
    exact ⟨false, by rw [he]; simp [c], by simp⟩
  · exact ⟨true, by rw [he]; simp, by simp⟩

theorem single_accept_alternation (H H2 : Heap) (nodes1 nodes2 : List Nat) (f1 f2 : NFA)
    (h1 : single_accept H nodes1 f1) (h2 : single_accept H nodes2 f2)
    (he : ∀ q, is_end_at H2 q =
      if q = H.states.length + 1 then some true
      else if q = f2.end_ then some false
      else if q = f1.end_ then some false
      else if q = H.states.length then some false else is_end_at H q) :
    single_accept H2 (nodes1 ++ nodes2 ++ [H.states.length, H.states.length + 1])
      ⟨H.states.length, H.states.length + 1⟩ := by
  have hlt1 := single_accept_end_lt H nodes1 f1 h1
  have hlt2 := single_accept_end_lt H nodes2 f2 h2
  rw [single_accept_iff] at h1 h2 ⊢
  refine ⟨by simp, fun p hp => ?_⟩
  have old : ∀ b, is_end_at H p = some b → (b = true → p = f1.end_ ∨ p = f2.end_) →
      ∃ b2, is_end_at H2 p = some b2 ∧ (b2 = true ↔ p = H.states.length + 1) := by
    intro b hb hiff
    have hlt := is_end_at_lt H p b hb
    have n1 : p ≠ H.states.length + 1 := by omega
    have n2 : p ≠ H.states.length := by omega
    by_cases c2 : p = f2.end_
    · exact ⟨false, by rw [he, if_neg n1, if_pos c2], by simp [n1]⟩
    · by_cases c1 : p = f1.end_
      · exact ⟨false, by rw [he, if_neg n1, if_neg c2, if_pos c1], by simp [n1]⟩
      · refine ⟨b, by rw [he, if_neg n1, if_neg c2, if_neg c1, if_neg n2, hb], ?_⟩
        simp only [n1, iff_false]
        intro hbt
        rcases hiff hbt with h | h
        · exact c1 h
        · exact c2 h
  simp only [List.mem_append, List.mem_cons, List.mem_singleton, List.not_mem_nil,
    or_false] at hp
  rcases hp with (hp | hp) | rfl | rfl
  · obtain ⟨b, hb, hiff⟩ := h1.2 p hp
    exact old b hb (fun h => Or.inl (hiff.mp h))
  · obtain ⟨b, hb, hiff⟩ := h2.2 p hp
    exact old b hb (fun h => Or.inr (hiff.mp h))
  · have c1 : H.states.length ≠ f1.end_ := by omega
    have c2 : H.states.length ≠ f2.end_ := by omega
    exact ⟨false, by rw [he]; simp [c1, c2], by simp⟩
  · exact ⟨true, by rw [he]; simp, by simp⟩

theorem single_accept_concat (H H2 : Heap) (nodes1 nodes2 : List Nat) (f1 f2 : NFA)
    (h1 : single_accept H nodes1 f1) (h2 : single_accept H nodes2 f2)
    (hd : ∀ p ∈ nodes1, p ∉ nodes2)
    (he : ∀ q, is_end_at H2 q = if q = f1.end_ then some false else is_end_at H q) :
    single_accept H2 (nodes1 ++ nodes2) ⟨f1.start, f2.end_⟩ := by
  rw [single_accept_iff] at h1 h2 ⊢
  refine ⟨by simp [h2.1], fun p hp => ?_⟩
  simp only [List.mem_append] at hp
  have hne : f1.end_ ≠ f2.end_ := fun h => hd _ h1.1 (h ▸ h2.1)
  rcases hp with hp | hp
  · have hp2 : p ≠ f2.end_ := fun h => hd p hp (h ▸ h2.1)
    obtain ⟨b, hb, hiff⟩ := h1.2 p hp
    by_cases c : p = f1.end_
    · exact ⟨false, by rw [he, if_pos c], by simp [hp2]⟩
    · refine ⟨b, by rw [he, if_neg c, hb], ?_⟩
      simp only [hp2, iff_false]
      rw [hiff]; exact c
  · have hp1 : p ≠ f1.end_ := fun h => hd _ h1.1 (h ▸ hp)
    obtain ⟨b, hb, hiff⟩ := h2.2 p hp
    exact ⟨b, by rw [he, if_neg hp1, hb], hiff⟩

/-- C15: in every store, `from_char` returns a fragment whose end node is the
only one of its two nodes with `is_end = true`; `kleene_star`, `plus` and
`optional`, applied to a fragment that satisfies the invariant on its nodes,
and `concat` and `alternation`, applied to two fragments that satisfy the
invariant on node sets without a common node, return a fragment whose end node
is the only node with `is_end = true` among the operands' nodes and the new
nodes. -/
theorem single_accept_invariant (H : Heap) (c : Char) (nodes1 nodes2 : List Nat) (f1 f2 : NFA) :
    (∃ f H2, NFA.from_char H c = .ok (f, H2) ∧
      single_accept H2 [H.states.length, H.states.length + 1] f) ∧
    (single_accept H nodes1 f1 →
      (∃ f H2, NFA.kleene_star H f1 = .ok (f, H2) ∧
        single_accept H2 (nodes1 ++ [H.states.length, H.states.length + 1]) f) ∧
      (∃ f H2, NFA.plus H f1 = .ok (f, H2) ∧
        single_accept H2 (nodes1 ++ [H.states.length, H.states.length + 1]) f) ∧
      (∃ f H2, NFA.optional H f1 = .ok (f, H2) ∧
        single_accept H2 (nodes1 ++ [H.states.length, H.states.length + 1]) f)) ∧
    (single_accept H nodes1 f1 → single_accept H nodes2 f2 → (∀ p ∈ nodes1, p ∉ nodes2) →
      (∃ f H2, NFA.concat H f1 f2 = .ok (f, H2) ∧ single_accept H2 (nodes1 ++ nodes2) f) ∧
      (∃ f H2, NFA.alternation H f1 f2 = .ok (f, H2) ∧
        single_accept H2 (nodes1 ++ nodes2 ++ [H.states.length, H.states.length + 1]) f)) := by
  refine ⟨?_, fun h1 => ?_, fun h1 h2 hd => ?_⟩
  · obtain ⟨H2, hr, _, he⟩ := from_char_spec H c
    exact ⟨_, H2, hr, single_accept_fresh H H2 he⟩
  · have hlt1 := single_accept_end_lt H nodes1 f1 h1
    refine ⟨?_, ?_, ?_⟩
    · obtain ⟨H2, hr, _, he⟩ := kleene_star_spec H f1 hlt1
      exact ⟨_, H2, hr, single_accept_unary H H2 nodes1 f1 h1 he⟩
    · obtain ⟨H2, hr, _, he⟩ := plus_spec H f1 hlt1
      exact ⟨_, H2, hr, single_accept_unary H H2 nodes1 f1 h1 he⟩
    · obtain ⟨H2, hr, _, he⟩ := optional_spec H f1 hlt1
      exact ⟨_, H2, hr, single_accept_unary H H2 nodes1 f1 h1 he⟩
  · have hlt1 := single_accept_end_lt H nodes1 f1 h1
    have hlt2 := single_accept_end_lt H nodes2 f2 h2
    constructor
    · obtain ⟨H2, hr, _, he⟩ := concat_spec H f1 f2 hlt1
      exact ⟨_, H2, hr, single_accept_concat H H2 nodes1 nodes2 f1 f2 h1 h2 hd he⟩
    · obtain ⟨H2, hr, _, he⟩ := alternation_spec H f1 f2 hlt1 hlt2
      exact ⟨_, H2, hr, single_accept_alternation H H2 nodes1 nodes2 f1 f2 h1 h2 he⟩

theorem single_accept_invariant_witness :
    (∃ f H2, NFA.from_char Heap.init 'a' = .ok (f, H2) ∧ single_accept H2 [0, 1] f) ∧
    (single_accept (Heap.init.with_char 'a') [0, 1] ⟨0, 1⟩ ∧
      (∃ f H2, NFA.kleene_star (Heap.init.with_char 'a') ⟨0, 1⟩ = .ok (f, H2) ∧
        single_accept H2 [0, 1, 2, 3] f) ∧
      (∃ f H2, NFA.plus (Heap.init.with_char 'a') ⟨0, 1⟩ = .ok (f, H2) ∧
        single_accept H2 [0, 1, 2, 3] f) ∧
      (∃ f H2, NFA.optional (Heap.init.with_char 'a') ⟨0, 1⟩ = .ok (f, H2) ∧
        single_accept H2 [0, 1, 2, 3] f)) ∧
    (single_accept (skip_heap 'a' 'b') [0, 1] ⟨0, 1⟩ ∧
      single_accept (skip_heap 'a' 'b') [2, 3] ⟨2, 3⟩ ∧
      (∀ p ∈ [0, 1], p ∉ [2, 3]) ∧
      (∃ f H2, NFA.concat (skip_heap 'a' 'b') ⟨0, 1⟩ ⟨2, 3⟩ = .ok (f, H2) ∧
        single_accept H2 [0, 1, 2, 3] f) ∧
      (∃ f H2, NFA.alternation (skip_heap 'a' 'b') ⟨0, 1⟩ ⟨2, 3⟩ = .ok (f, H2) ∧
        single_accept H2 [0, 1, 2, 3, 4, 5] f)) :=
  have ha : single_accept (Heap.init.with_char 'a') [0, 1] ⟨0, 1⟩ := by
    simp [single_accept, Heap.with_char, Heap.init]
  have h1 : single_accept (skip_heap 'a' 'b') [0, 1] ⟨0, 1⟩ := by
    simp [single_accept, skip_heap]
  have h2 : single_accept (skip_heap 'a' 'b') [2, 3] ⟨2, 3⟩ := by
    simp [single_accept, skip_heap]
  have hd : ∀ p ∈ [0, 1], p ∉ [2, 3] := by decide
  ⟨(single_accept_invariant Heap.init 'a' [] [] ⟨0, 0⟩ ⟨0, 0⟩).1,
    ⟨ha, (single_accept_invariant (Heap.init.with_char 'a') 'a' [0, 1] [] ⟨0, 1⟩ ⟨0, 0⟩).2.1 ha⟩,
    ⟨h1, h2, hd,
      (single_accept_invariant (skip_heap 'a' 'b') 'c' [0, 1] [2, 3] ⟨0, 1⟩ ⟨2, 3⟩).2.2 h1 h2 hd⟩⟩

/-! ## C16: the result of `epsilon_closure` -/

/-- C16: on a finite automaton, `epsilon_closure(n, closure)` called with an
empty set returns, and the set then holds exactly the nodes reachable from `n`
by zero or more epsilon edges. -/
theorem epsilon_closure_is_reachable_set (H : Heap) (hwf : H.wf) (n : Nat)
    (hn : n < H.states.length) :
    ∃ r, NFA.epsilon_closure (H.states.length + 1) H n [] = .ok r ∧
      ∀ q, q ∈ r ↔ eps_reach H n q := by
  obtain ⟨r, hr, _, m⟩ := closure_start_spec H hwf n hn _ (le_refl _)
  exact ⟨r, hr, m⟩

theorem epsilon_closure_is_reachable_set_witness :
    (star_heap 'a').wf ∧ 1 < (star_heap 'a').states.length ∧
    ∃ r, NFA.epsilon_closure ((star_heap 'a').states.length + 1) (star_heap 'a') 1 [] = .ok r ∧
      ∀ q, q ∈ r ↔ eps_reach (star_heap 'a') 1 q :=
  ⟨wf_of_check _ rfl, by decide,
    epsilon_closure_is_reachable_set (star_heap 'a') (wf_of_check _ rfl) 1 (by decide)⟩

/-! ## C17: `matches` and the reference subset simulation -/

/-- C17: on a finite automaton `matches` returns a boolean that is true exactly
when the reference subset simulation ends in a set with an end node; and a loop
of `epsilon_closure` calls that share one visited set, started from the empty
set, yields exactly the union of the sets the separate calls yield. -/
theorem matches_refines_reference (H : Heap) (hwf : H.wf) (nfa : NFA)
    (hs : nfa.start < H.states.length) (s : List Char) :
    (∃ b, NFA.matches_ H nfa s = .ok b ∧ (b = true ↔ ref_matches H nfa s)) ∧
    ∀ ps : List Nat, (∀ p ∈ ps, p < H.states.length) →
      ∃ r, ps.foldlM (fun current_states state =>
          NFA.epsilon_closure (H.states.length + 1) H state current_states) [] = .ok r ∧
        ∀ q, q ∈ r ↔
          ∃ p ∈ ps, ∃ rp, NFA.epsilon_closure (H.states.length + 1) H p [] = .ok rp ∧ q ∈ rp := by
  refine ⟨matches_spec H hwf nfa hs s, fun ps hps => ?_⟩
  obtain ⟨r, hr, _, m⟩ := closure_fold_closed H hwf ps hps
  refine ⟨r, hr, fun q => ?_⟩
  rw [m]
  constructor
  · rintro ⟨p, hp, hpq⟩
    obtain ⟨rp, hrp, _, mp⟩ := closure_start_spec H hwf p (hps p hp) _ (le_refl _)
    exact ⟨p, hp, rp, hrp, (mp q).mpr hpq⟩
  · rintro ⟨p, hp, rp, hrp, hq⟩
    obtain ⟨rp2, hrp2, _, mp⟩ := closure_start_spec H hwf p (hps p hp) _ (le_refl _)
    rw [hrp] at hrp2
    cases hrp2
    exact ⟨p, hp, (mp q).mp hq⟩

theorem matches_refines_reference_witness :
    (star_heap 'a').wf ∧ (⟨2, 3⟩ : NFA).start < (star_heap 'a').states.length ∧
    (∃ b, NFA.matches_ (star_heap 'a') ⟨2, 3⟩ ['a'] = .ok b ∧
      (b = true ↔ ref_matches (star_heap 'a') ⟨2, 3⟩ ['a'])) ∧
    ∀ ps : List Nat, (∀ p ∈ ps, p < (star_heap 'a').states.length) →
      ∃ r, ps.foldlM (fun current_states state =>
          NFA.epsilon_closure ((star_heap 'a').states.length + 1) (star_heap 'a') state
            current_states) [] = .ok r ∧
        ∀ q, q ∈ r ↔
          ∃ p ∈ ps, ∃ rp, NFA.epsilon_closure ((star_heap 'a').states.length + 1)
            (star_heap 'a') p [] = .ok rp ∧ q ∈ rp :=
  ⟨wf_of_check _ rfl, by decide,
    matches_refines_reference (star_heap 'a') (wf_of_check _ rfl) ⟨2, 3⟩ (by decide) ['a']⟩

/-! ## C18: a skipped character between two atoms -/

theorem parse_loop_skip (fuel : Nat) (regex : List Char) (pos : Nat) (H : Heap)
    (nfa_stack : List NFA) (op_stack : List Char) (k : Char) (hc : regex[pos]? = some k)
    (hk : ignored k) :
    parse_loop (fuel + 1) regex pos H nfa_stack op_stack =
      parse_loop fuel regex (pos + 1) H nfa_stack op_stack := by
  obtain ⟨h0, h1, h2, h3, h4, h5, h6⟩ := hk
  rw [parse_loop]
  simp only [hc, h0, h1, h2, h3, h4, h5, h6, if_false, Bool.false_eq_true]

theorem implicit_concat_ignored (regex : List Char) (pos : Nat) (k : Char)
    (hc : regex[pos]? = some k) (hk : ignored k) : implicit_concat regex pos = false := by
  simp [implicit_concat, hc, hk.1, hk.2.1]

theorem skip_parse_loop (H0 : Heap) (x k y : Char) (hx : isalnum x = true)
    (hy : isalnum y = true) (hk : ignored k) :
    parse_loop 7 [x, k, y] 0 H0 [] [] =
      .ok ((H0.with_char x).with_char y,
        [⟨H0.states.length + 2, H0.states.length + 3⟩, ⟨H0.states.length, H0.states.length + 1⟩],
        [], 3) := by
  rw [parse_loop_alnum 6 _ _ _ _ _ x rfl hx, implicit_concat_ignored _ _ k rfl hk]
  simp only [Bool.false_eq_true, if_false]
  rw [parse_loop_skip 5 _ _ _ _ _ k rfl hk, parse_loop_alnum 4 _ _ _ _ _ y rfl hy,
    implicit_concat_end _ _ rfl]
  simp only [Bool.false_eq_true, if_false]
  rw [parse_loop_end 3 _ _ _ _ _ rfl]
  simp [Heap.with_char, add_assoc]

theorem skip_dead (x y : Char) (cur : List Nat) (d : Char) (u : List Char)
    (h : keys_within (skip_heap x y) cur []) :
    NFA.run_from (skip_heap x y) cur (d :: u) = .ok false :=
  run_from_cons_dead _ cur [] d u h (by simp)

theorem skip_matches (x k y : Char) (hx : isalnum x = true) (hy : isalnum y = true)
    (hk : ignored k) (s : List Char) :
    regex_matches Heap.init [x, k, y] s = .ok (decide (s = [y])) := by
  have hp : NFA.regex_to_nfa Heap.init [x, k, y] = .ok (⟨2, 3⟩, skip_heap x y) := by
    show (regex_to_nfa_helper 8 [x, k, y] 0 Heap.init >>= _) = _
    rw [helper_eq_finish, skip_parse_loop Heap.init x k y hx hy hk]
    rfl
  rw [regex_matches_eq _ s _ _ [2] hp rfl]
  cases s with
  | nil => rfl
  | cons c t =>
    by_cases h : c = y
    · subst h
      have hs : NFA.step (skip_heap x c) [2] c = .ok [3] :=
        step_eq _ _ _ [3] _
          (by simp [skip_heap, NFA.move, Heap.deref, lookup_single_self, set_insert]) rfl
      rw [run_from_cons _ _ _ _ _ hs]
      cases t with
      | nil => simp [run_from_nil]; rfl
      | cons d u =>
        rw [skip_dead x c _ d u (by simp [keys_within, skip_heap])]
        simp
    · rw [run_from_cons_dead _ _ [y] c t (by simp [keys_within, skip_heap]) (by simp [h])]
      simp [h]

/-- C18: for alphanumeric `x`, `y` and a skipped character `k`, the main loop on
the pattern `x k y` ends with the two fragments of `x` and `y` on the operand
stack and no operator; `regex_to_nfa` returns the fragment of `y`, and the
automaton accepts exactly the one-character input `y`. -/
theorem skipped_char_suppresses_concat (H0 : Heap) (x k y : Char) (hx : isalnum x = true)
    (hy : isalnum y = true) (hk : ignored k) (s : List Char) :
    parse_loop 7 [x, k, y] 0 H0 [] [] =
      .ok ((H0.with_char x).with_char y,
        [⟨H0.states.length + 2, H0.states.length + 3⟩, ⟨H0.states.length, H0.states.length + 1⟩],
        [], 3) ∧
    NFA.regex_to_nfa H0 [x, k, y] =
      .ok (⟨H0.states.length + 2, H0.states.length + 3⟩, (H0.with_char x).with_char y) ∧
    regex_matches H0 [x, k, y] s = .ok (decide (s = [y])) := by
  refine ⟨skip_parse_loop H0 x k y hx hy hk, ?_, regex_matches_lift H0 _ _ _
    (skip_matches x k y hx hy hk s)⟩
  show (regex_to_nfa_helper 8 [x, k, y] 0 H0 >>= _) = _
  rw [helper_eq_finish, skip_parse_loop H0 x k y hx hy hk]
  rfl

theorem skipped_char_suppresses_concat_witness :
    isalnum 'a' = true ∧ isalnum 'c' = true ∧ ignored '.' ∧
      parse_loop 7 ['a', '.', 'c'] 0 Heap.init [] [] =
        .ok ((Heap.init.with_char 'a').with_char 'c',
          [⟨Heap.init.states.length + 2, Heap.init.states.length + 3⟩,
            ⟨Heap.init.states.length, Heap.init.states.length + 1⟩], [], 3) ∧
      NFA.regex_to_nfa Heap.init ['a', '.', 'c'] =
        .ok (⟨Heap.init.states.length + 2, Heap.init.states.length + 3⟩,
          (Heap.init.with_char 'a').with_char 'c') ∧
      regex_matches Heap.init ['a', '.', 'c'] ['a', 'c'] = .ok (decide (['a', 'c'] = ['c'])) :=
  ⟨by decide, by decide, by decide,
    skipped_char_suppresses_concat Heap.init 'a' '.' 'c' (by decide) (by decide) (by decide)
      ['a', 'c']⟩

/-! ## C19: an unmatched opening parenthesis -/

theorem implicit_concat_cons (c0 : Char) (regex : List Char) (pos : Nat) :
    implicit_concat (c0 :: regex) (pos + 1) = implicit_concat regex pos := by
  simp [implicit_concat]

/-- A pattern with one more character in front is parsed, from the next
position on, like the pattern itself: only the positions are one higher. -/
theorem parse_cons (c0 : Char) (regex : List Char) (fuel : Nat) :
    (∀ pos H nfa_stack op_stack,
      parse_loop fuel (c0 :: regex) (pos + 1) H nfa_stack op_stack =
        (fun r => (r.1, r.2.1, r.2.2.1, r.2.2.2 + 1)) <$>
          parse_loop fuel regex pos H nfa_stack op_stack) ∧
    (∀ pos H,
      regex_to_nfa_helper fuel (c0 :: regex) (pos + 1) H =
        (fun r => (r.1, r.2.1 + 1, r.2.2)) <$> regex_to_nfa_helper fuel regex pos H) := by
  induction fuel with
  | zero => exact ⟨fun _ _ _ _ => rfl, fun _ _ => rfl⟩
  | succ fuel ih =>
    obtain ⟨ihl, ihh⟩ := ih
    have hpush : ∀ (op : Char) (pos : Nat) (H : Heap) (nfa_stack : List NFA)
        (op_stack : List Char),
        (push_op op H nfa_stack op_stack >>= fun q =>
          parse_loop fuel (c0 :: regex) (pos + 1) q.1 q.2.1 q.2.2) =
        (fun r => (r.1, r.2.1, r.2.2.1, r.2.2.2 + 1)) <$>
          (push_op op H nfa_stack op_stack >>= fun q =>
            parse_loop fuel regex pos q.1 q.2.1 q.2.2) := by
      intro op pos H nfa_stack op_stack
      cases push_op op H nfa_stack op_stack with
      | error e => rfl
      | ok q => simp only [ok_bind, ihl]
    constructor
    · intro pos H nfa_stack op_stack
      rw [parse_loop, parse_loop]
      simp only [List.getElem?_cons_succ, implicit_concat_cons]
      cases regex[pos]? with
      | none => rfl
      | some c =>
        simp only []
        split_ifs
        · simp only [from_char_eq, ok_bind]
          exact hpush '.' (pos + 1) _ _ _
        · simp only [from_char_eq, ok_bind]
          exact ihl _ _ _ _
        · rw [ihh]
          cases regex_to_nfa_helper fuel regex (pos + 1) H with
          | error e => rfl
          | ok q =>
            obtain ⟨a, p1, H1⟩ := q
            simp only [map_ok, ok_bind, implicit_concat_cons]
            split_ifs
            · exact hpush '.' p1 _ _ _
            · exact ihl _ _ _ _
        · rfl
        · exact hpush '*' (pos + 1) _ _ _
        · exact hpush '+' (pos + 1) _ _ _
        · exact hpush '?' (pos + 1) _ _ _
        · exact hpush '|' (pos + 1) _ _ _
        · exact ihl _ _ _ _
    · intro pos H
      rw [helper_eq_finish, helper_eq_finish, ihl]
      cases parse_loop fuel regex pos H [] [] with
      | error e => rfl
      | ok q =>
        simp only [map_ok, ok_bind, helper_finish]
        cases drain q.2.2.1.length q.1 q.2.1 q.2.2.1 with
        | error e => rfl
        | ok q2 =>
          obtain ⟨H2, n2, o2⟩ := q2
          cases n2 <;> rfl

theorem alnum_ne_paren (c : Char) (h : isalnum c = true) : c ≠ '(' ∧ c ≠ ')' := by
  constructor <;> (intro hc; subst hc; revert h; decide)

/-- Where the main loop stops: with `d` parentheses open at `pos`, the loop
returns either at the `)` that closes the innermost one or at the end of the
pattern; with none open, only at the end. -/
theorem parse_end_pos (regex : List Char) (fuel : Nat) :
    (∀ d pos H nfa_stack op_stack r, pos ≤ regex.length →
      closes_earlier d (regex.drop pos) = true →
      parse_loop fuel regex pos H nfa_stack op_stack = .ok r →
        r.2.2.2 ≤ regex.length ∧ closes_earlier (d - 1) (regex.drop r.2.2.2) = true ∧
          (d = 0 → r.2.2.2 = regex.length)) ∧
    (∀ d pos H r, pos ≤ regex.length →
      closes_earlier d (regex.drop pos) = true →
      regex_to_nfa_helper fuel regex pos H = .ok r →
        r.2.1 ≤ regex.length ∧ closes_earlier (d - 1) (regex.drop r.2.1) = true ∧
          (d = 0 → r.2.1 = regex.length)) := by
  induction fuel with
  | zero =>
    constructor
    · intro d pos H nfa_stack op_stack r _ _ h; cases h
    · intro d pos H r _ _ h; cases h
  | succ fuel ih =>
    obtain ⟨ihl, ihh⟩ := ih
    have hpush : ∀ (d : Nat) (op : Char) (pos : Nat) (H : Heap) (nfa_stack : List NFA)
        (op_stack : List Char) (r : Heap × List NFA × List Char × Nat), pos ≤ regex.length →
        closes_earlier d (regex.drop pos) = true →
        (push_op op H nfa_stack op_stack >>= fun q =>
          parse_loop fuel regex pos q.1 q.2.1 q.2.2) = .ok r →
        r.2.2.2 ≤ regex.length ∧ closes_earlier (d - 1) (regex.drop r.2.2.2) = true ∧
          (d = 0 → r.2.2.2 = regex.length) := by
      intro d op pos H nfa_stack op_stack r hle hcl h
      cases hp : push_op op H nfa_stack op_stack with
      | error e => rw [hp] at h; cases h
      | ok q => rw [hp] at h; exact ihl d pos _ _ _ r hle hcl h
    constructor
    · intro d pos H nfa_stack op_stack r hle hcl h
      rw [parse_loop] at h
      by_cases hlt : pos < regex.length
      · have hc : regex[pos]? = some regex[pos] := List.getElem?_eq_getElem hlt
        rw [List.drop_eq_getElem_cons hlt] at hcl
        generalize regex[pos] = c at hc hcl
        simp only [hc] at h
        simp only [closes_earlier] at hcl
        by_cases hx : isalnum c = true
        · obtain ⟨hn1, hn2⟩ := alnum_ne_paren c hx
          simp only [hn1, hn2, if_false] at hcl
          simp only [hx, if_true, from_char_eq, ok_bind] at h
          split_ifs at h
          · exact hpush d '.' (pos + 1) _ _ _ r hlt hcl h
          · exact ihl d (pos + 1) _ _ _ r hlt hcl h
        · have hx2 : isalnum c = false := by simpa using hx
          simp only [hx2, Bool.false_eq_true, if_false] at h
          by_cases h1 : c = '('
          · simp only [h1, if_true] at h hcl
            cases hh : regex_to_nfa_helper fuel regex (pos + 1) H with
            | error e => rw [hh] at h; cases h
            | ok q =>
              rw [hh] at h
              obtain ⟨hq1, hq2, _⟩ := ihh (d + 1) (pos + 1) H q hlt hcl hh
              obtain ⟨a, p1, H1⟩ := q
              simp only [ok_bind] at h hq1 hq2
              rw [Nat.add_sub_cancel] at hq2
              split_ifs at h
              · exact hpush d '.' p1 _ _ _ r hq1 hq2 h
              · exact ihl d p1 _ _ _ r hq1 hq2 h
          · simp only [h1, if_false] at h hcl
            by_cases h2 : c = ')'
            · simp only [h2, if_true, Bool.and_eq_true, decide_eq_true_eq] at h hcl
              cases h
              exact ⟨hlt, hcl.2, fun h0 => by omega⟩
            · simp only [h2, if_false] at h hcl
              split_ifs at h
              · exact hpush d '*' (pos + 1) _ _ _ r hlt hcl h
              · exact hpush d '+' (pos + 1) _ _ _ r hlt hcl h
              · exact hpush d '?' (pos + 1) _ _ _ r hlt hcl h
              · exact hpush d '|' (pos + 1) _ _ _ r hlt hcl h
              · exact ihl d (pos + 1) _ _ _ r hlt hcl h
      · have hpos : pos = regex.length := by omega
        rw [List.getElem?_eq_none (by omega)] at h
        cases h
        subst hpos
        simp [List.drop_length, closes_earlier]
    · intro d pos H r hle hcl h
      rw [helper_eq_finish] at h
      cases hl : parse_loop fuel regex pos H [] [] with
      | error e => rw [hl] at h; cases h
      | ok q =>
        rw [hl] at h
        have hq := ihl d pos H [] [] q hle hcl hl
        simp only [ok_bind, helper_finish] at h
        cases hd : drain q.2.2.1.length q.1 q.2.1 q.2.2.1 with
        | error e => rw [hd] at h; cases h
        | ok q2 =>
          rw [hd] at h
          obtain ⟨H2, n2, o2⟩ := q2
          cases n2 with
          | nil => cases h
          | cons top rest => cases h; exact hq

/-- C19: if `regex_to_nfa` returns an automaton for `p`, and every `)` of `p`
closes an earlier `(` of `p`, then for the pattern `(` followed by `p` it
returns the same fragment in the same store, so that every input is matched
alike. -/
theorem unmatched_open_paren_is_closed_at_end (H : Heap) (p : List Char) (nfa : NFA)
    (H2 : Heap) (hcl : closes_earlier 0 p = true)
    (hp : NFA.regex_to_nfa H p = .ok (nfa, H2)) :
    NFA.regex_to_nfa H ('(' :: p) = .ok (nfa, H2) ∧
      ∀ s, regex_matches H ('(' :: p) s = regex_matches H p s := by
  have key : NFA.regex_to_nfa H ('(' :: p) = .ok (nfa, H2) := by
    unfold NFA.regex_to_nfa at hp ⊢
    cases hh : regex_to_nfa_helper (2 * p.length + 2) p 0 H with
    | error e => rw [hh] at hp; cases hp
    | ok q =>
      rw [hh] at hp
      obtain ⟨hq1, _, hq3⟩ := (parse_end_pos p _).2 0 0 H q (Nat.zero_le _)
        (by rwa [List.drop_zero]) hh
      obtain ⟨a, p1, H1⟩ := q
      simp only [ok_bind, pure_eq_ok, Except.ok.injEq, Prod.mk.injEq] at hp
      obtain ⟨rfl, rfl⟩ := hp
      have hp1 : p1 = p.length := hq3 rfl
      subst hp1
      have hnone : ('(' :: p)[p.length + 1]? = none := List.getElem?_eq_none (by simp)
      rw [show 2 * ('(' :: p).length + 2 = 2 * p.length + 2 + 1 + 1 by
        simp only [List.length_cons]; omega, helper_eq_finish, parse_loop]
      simp only [List.getElem?_cons_zero, (parse_cons '(' p _).2 0 H, hh, map_ok, ok_bind,
        implicit_concat_end _ _ hnone]
      have hx : isalnum '(' = false := by decide
      simp only [hx, Bool.false_eq_true, if_false, if_true]
      rw [show 2 * p.length + 2 = 2 * p.length + 1 + 1 by omega,
        parse_loop_end _ _ _ _ _ _ hnone]
      rfl
  exact ⟨key, fun s => by simp only [regex_matches, key, hp]⟩

theorem unmatched_open_paren_is_closed_at_end_witness :
    closes_earlier 0 "(a|b)c".toList = true ∧
      NFA.regex_to_nfa Heap.init "(a|b)c".toList = .ok (⟨4, 7⟩, group_then_c_heap) ∧
      NFA.regex_to_nfa Heap.init ('(' :: "(a|b)c".toList) = .ok (⟨4, 7⟩, group_then_c_heap) ∧
      ∀ s, regex_matches Heap.init ('(' :: "(a|b)c".toList) s =
        regex_matches Heap.init "(a|b)c".toList s :=
  ⟨rfl, rfl,
    unmatched_open_paren_is_closed_at_end Heap.init "(a|b)c".toList ⟨4, 7⟩ group_then_c_heap
      rfl rfl⟩

/-! ## The parser: operators applied in a row, and fuel -/

theorem apply_operator_cons (H : Heap) (nfa_stack : List NFA) (op : Char) (rest : List Char) :
    apply_operator H nfa_stack (op :: rest) =
      apply_operator H nfa_stack [op] >>= fun r => .ok (r.1, r.2.1, rest) := by
  have key : ∀ (x : Res (NFA × Heap)) (tl : List NFA),
      (x >>= fun r => (Except.ok (r.2, r.1 :: tl, rest) : Res (Heap × List NFA × List Char))) =
        (x >>= fun r => (Except.ok (r.2, r.1 :: tl, ([] : List Char)) :
          Res (Heap × List NFA × List Char))) >>= fun r => .ok (r.1, r.2.1, rest) := by
    intro x tl
    cases x <;> rfl
  simp only [apply_operator]
  split_ifs
  · rcases nfa_stack with _ | ⟨a, _ | ⟨b, tl⟩⟩
    · rfl
    · rfl
    · exact key (NFA.concat H b a) tl
  · rcases nfa_stack with _ | ⟨a, _ | ⟨b, tl⟩⟩
    · rfl
    · rfl
    · exact key (NFA.alternation H b a) tl
  · rcases nfa_stack with _ | ⟨a, tl⟩
    · rfl
    · exact key (NFA.kleene_star H a) tl
  · rcases nfa_stack with _ | ⟨a, tl⟩
    · rfl
    · exact key (NFA.plus H a) tl
  · rcases nfa_stack with _ | ⟨a, tl⟩
    · rfl
    · exact key (NFA.optional H a) tl
  · rfl

theorem apply_ops_append (a b : List Char) (H : Heap) (nfa_stack : List NFA) :
    apply_ops (a ++ b) H nfa_stack = apply_ops a H nfa_stack >>= fun r => apply_ops b r.1 r.2 := by
  induction a generalizing H nfa_stack with
  | nil => rfl
  | cons op a ih =>
    simp only [List.cons_append, apply_ops]
    cases apply_operator H nfa_stack [op] with
    | error e => rfl
    | ok r => simp only [ok_bind]; exact ih r.1 r.2.1

theorem reduce_stop (fuel prec : Nat) (H : Heap) (nfa_stack : List NFA) (ops : List Char)
    (hs : stops prec ops) : reduce fuel prec H nfa_stack ops = .ok (H, nfa_stack, ops) := by
  cases ops with
  | nil => cases fuel <;> rfl
  | cons op ops =>
    have h : ¬ precedence op ≥ prec := by
      have := hs op (by simp)
      omega
    cases fuel <;> simp only [reduce, h, if_false]

theorem reduce_append (prec : Nat) (opsX ops0 : List Char) (k : Nat) (H : Heap)
    (nfa_stack : List NFA) (hX : ∀ op ∈ opsX, prec ≤ precedence op) :
    reduce (opsX.length + k) prec H nfa_stack (opsX ++ ops0) =
      apply_ops opsX H nfa_stack >>= fun r => reduce k prec r.1 r.2 ops0 := by
  induction opsX generalizing H nfa_stack with
  | nil => simp only [List.length_nil, Nat.zero_add, List.nil_append, apply_ops, ok_bind]
  | cons op opsX ih =>
    have e : (op :: opsX).length + k = (opsX.length + k) + 1 := by
      simp only [List.length_cons]; omega
    have hp : precedence op ≥ prec := hX op (List.mem_cons_self _ _)
    rw [e, List.cons_append]
    simp only [reduce, hp, if_true, apply_ops]
    rw [apply_operator_cons]
    cases apply_operator H nfa_stack [op] with
    | error e => rfl
    | ok r =>
      simp only [ok_bind]
      exact ih r.1 r.2.1 (fun op2 h2 => hX op2 (List.mem_cons_of_mem _ h2))

/-- Pushing an operator onto a stack that holds pending operators of at least
its precedence applies them all first. -/
theorem push_op_pending (c : Char) (opsX ops0 : List Char) (H H2 : Heap)
    (nfa_stack nfa_stack2 : List NFA) (hX : ∀ op ∈ opsX, precedence c ≤ precedence op)
    (hs : stops (precedence c) ops0) (ha : apply_ops opsX H nfa_stack = .ok (H2, nfa_stack2)) :
    push_op c H nfa_stack (opsX ++ ops0) = .ok (H2, nfa_stack2, c :: ops0) := by
  unfold push_op
  rw [List.length_append, reduce_append _ _ _ _ _ _ hX, ha]
  simp only [ok_bind]
  rw [reduce_stop _ _ _ _ _ hs]
  rfl

theorem drain_eq (ops : List Char) (H : Heap) (nfa_stack : List NFA) :
    drain ops.length H nfa_stack ops =
      apply_ops ops H nfa_stack >>= fun r => .ok (r.1, r.2, []) := by
  induction ops generalizing H nfa_stack with
  | nil => rfl
  | cons op ops ih =>
    simp only [List.length_cons, drain, apply_ops]
    rw [apply_operator_cons]
    cases apply_operator H nfa_stack [op] with
    | error e => rfl
    | ok r =>
      simp only [ok_bind]
      exact ih r.1 r.2.1

theorem fuel_sufficed_of_bind {α β : Type} (x : Res α) (k : α → Res β)
    (h : fuel_sufficed (x >>= k)) : fuel_sufficed x := by
  intro hx
  rw [hx] at h
  exact h rfl

theorem bind_congr_fuel {α β : Type} (x : Res α) (k1 k2 : α → Res β)
    (hk : ∀ a, fuel_sufficed (k2 a) → k1 a = k2 a) (h : fuel_sufficed (x >>= k2)) :
    x >>= k1 = x >>= k2 := by
  cases x with
  | error e => rfl
  | ok a => exact hk a h

theorem parse_loop_operand (fuel : Nat) (regex : List Char) (pos : Nat) (H : Heap)
    (nfa_stack : List NFA) (op_stack : List Char) (c : Char) (hc : regex[pos]? = some c)
    (hx : isalnum c = true) :
    parse_loop (fuel + 1) regex pos H nfa_stack op_stack =
      after_operand fuel regex (pos + 1) (H.with_char c)
        (⟨H.states.length, H.states.length + 1⟩ :: nfa_stack) op_stack := by
  rw [parse_loop_alnum fuel regex pos H nfa_stack op_stack c hc hx]
  rfl

theorem parse_loop_open (fuel : Nat) (regex : List Char) (pos : Nat) (H : Heap)
    (nfa_stack : List NFA) (op_stack : List Char) (hc : regex[pos]? = some '(') :
    parse_loop (fuel + 1) regex pos H nfa_stack op_stack =
      regex_to_nfa_helper fuel regex (pos + 1) H >>= fun r =>
        after_operand fuel regex r.2.1 r.2.2 (r.1 :: nfa_stack) op_stack := by
  have h0 : isalnum '(' = false := by decide
  rw [parse_loop]
  simp only [hc, h0, Bool.false_eq_true, if_false, if_true]
  rfl

theorem parse_loop_close (fuel : Nat) (regex : List Char) (pos : Nat) (H : Heap)
    (nfa_stack : List NFA) (op_stack : List Char) (hc : regex[pos]? = some ')') :
    parse_loop (fuel + 1) regex pos H nfa_stack op_stack =
      .ok (H, nfa_stack, op_stack, pos + 1) := by
  have h0 : isalnum ')' = false := by decide
  have h1 : ¬ ')' = '(' := by decide
  rw [parse_loop]
  simp only [hc, h0, h1, Bool.false_eq_true, if_false, if_true]

theorem parse_loop_op (fuel : Nat) (regex : List Char) (pos : Nat) (H : Heap)
    (nfa_stack : List NFA) (op_stack : List Char) (c : Char) (hc : regex[pos]? = some c)
    (hop : c = '*' ∨ c = '+' ∨ c = '?' ∨ c = '|') :
    parse_loop (fuel + 1) regex pos H nfa_stack op_stack =
      push_op c H nfa_stack op_stack >>= fun q =>
        parse_loop fuel regex (pos + 1) q.1 q.2.1 q.2.2 := by
  rw [parse_loop]
  rcases hop with rfl | rfl | rfl | rfl
  · have h0 : isalnum '*' = false := by decide
    have h1 : ¬ '*' = '(' := by decide
    have h2 : ¬ '*' = ')' := by decide
    simp only [hc, h0, h1, h2, Bool.false_eq_true, if_false, if_true]
  · have h0 : isalnum '+' = false := by decide
    have h1 : ¬ '+' = '(' := by decide
    have h2 : ¬ '+' = ')' := by decide
    have h3 : ¬ '+' = '*' := by decide
    simp only [hc, h0, h1, h2, h3, Bool.false_eq_true, if_false, if_true]
  · have h0 : isalnum '?' = false := by decide
    have h1 : ¬ '?' = '(' := by decide
    have h2 : ¬ '?' = ')' := by decide
    have h3 : ¬ '?' = '*' := by decide
    have h4 : ¬ '?' = '+' := by decide
    simp only [hc, h0, h1, h2, h3, h4, Bool.false_eq_true, if_false, if_true]
  · have h0 : isalnum '|' = false := by decide
    have h1 : ¬ '|' = '(' := by decide
    have h2 : ¬ '|' = ')' := by decide
    have h3 : ¬ '|' = '*' := by decide
    have h4 : ¬ '|' = '+' := by decide
    have h5 : ¬ '|' = '?' := by decide
    simp only [hc, h0, h1, h2, h3, h4, h5, Bool.false_eq_true, if_false, if_true]

/-- The seven kinds of character the main loop tells apart. -/
theorem char_kinds (c : Char) :
    isalnum c = true ∨ c = '(' ∨ c = ')' ∨ (c = '*' ∨ c = '+' ∨ c = '?' ∨ c = '|') ∨ ignored c := by
  unfold ignored
  by_cases h0 : isalnum c = true
  · exact Or.inl h0
  · have h0b : isalnum c = false := by simpa using h0
    by_cases h1 : c = '('
    · exact Or.inr (Or.inl h1)
    · by_cases h2 : c = ')'
      · exact Or.inr (Or.inr (Or.inl h2))
      · by_cases h3 : c = '*'
        · exact Or.inr (Or.inr (Or.inr (Or.inl (Or.inl h3))))
        · by_cases h4 : c = '+'
          · exact Or.inr (Or.inr (Or.inr (Or.inl (Or.inr (Or.inl h4)))))
          · by_cases h5 : c = '?'
            · exact Or.inr (Or.inr (Or.inr (Or.inl (Or.inr (Or.inr (Or.inl h5))))))
            · by_cases h6 : c = '|'
              · exact Or.inr (Or.inr (Or.inr (Or.inl (Or.inr (Or.inr (Or.inr h6))))))
              · exact Or.inr (Or.inr (Or.inr (Or.inr ⟨h0b, h1, h2, h3, h4, h5, h6⟩)))

/-- A run of the parser that did not stop for lack of fuel is not changed by
one more unit of fuel. -/
theorem parse_mono (regex : List Char) (fuel : Nat) :
    (∀ pos H nfa_stack op_stack,
      fuel_sufficed (parse_loop fuel regex pos H nfa_stack op_stack) →
      parse_loop (fuel + 1) regex pos H nfa_stack op_stack =
        parse_loop fuel regex pos H nfa_stack op_stack) ∧
    (∀ pos H, fuel_sufficed (regex_to_nfa_helper fuel regex pos H) →
      regex_to_nfa_helper (fuel + 1) regex pos H = regex_to_nfa_helper fuel regex pos H) := by
  induction fuel with
  | zero =>
    constructor
    · intro pos H nfa_stack op_stack h
      exact absurd rfl h
    · intro pos H h
      exact absurd rfl h
  | succ fuel ih =>
    obtain ⟨ihl, ihh⟩ := ih
    have hstep : ∀ (pos1 : Nat) (x : Res (Heap × List NFA × List Char)),
        fuel_sufficed (x >>= fun q => parse_loop fuel regex pos1 q.1 q.2.1 q.2.2) →
        (x >>= fun q => parse_loop (fuel + 1) regex pos1 q.1 q.2.1 q.2.2) =
          (x >>= fun q => parse_loop fuel regex pos1 q.1 q.2.1 q.2.2) :=
      fun pos1 x h => bind_congr_fuel x _ _ (fun a ha => ihl pos1 a.1 a.2.1 a.2.2 ha) h
    have hafter : ∀ (pos1 : Nat) (H1 : Heap) (n1 : List NFA) (o1 : List Char),
        fuel_sufficed (after_operand fuel regex pos1 H1 n1 o1) →
        after_operand (fuel + 1) regex pos1 H1 n1 o1 = after_operand fuel regex pos1 H1 n1 o1 := by
      intro pos1 H1 n1 o1 h
      unfold after_operand at h ⊢
      split_ifs at h ⊢
      · exact hstep _ _ h
      · exact ihl _ _ _ _ h
    constructor
    · intro pos H nfa_stack op_stack h
      cases hc : regex[pos]? with
      | none => rw [parse_loop_end _ _ _ _ _ _ hc, parse_loop_end _ _ _ _ _ _ hc]
      | some c =>
        rcases char_kinds c with hx | rfl | rfl | hop | hig
        · rw [parse_loop_operand fuel _ _ _ _ _ c hc hx] at h
          rw [parse_loop_operand (fuel + 1) _ _ _ _ _ c hc hx,
            parse_loop_operand fuel _ _ _ _ _ c hc hx]
          exact hafter _ _ _ _ h
        · rw [parse_loop_open fuel _ _ _ _ _ hc] at h
          rw [parse_loop_open (fuel + 1) _ _ _ _ _ hc, parse_loop_open fuel _ _ _ _ _ hc,
            ihh _ _ (fuel_sufficed_of_bind _ _ h)]
          exact bind_congr_fuel _ _ _ (fun a ha => hafter _ _ _ _ ha) h
        · rw [parse_loop_close _ _ _ _ _ _ hc, parse_loop_close _ _ _ _ _ _ hc]
        · rw [parse_loop_op fuel _ _ _ _ _ c hc hop] at h
          rw [parse_loop_op (fuel + 1) _ _ _ _ _ c hc hop, parse_loop_op fuel _ _ _ _ _ c hc hop]
          exact hstep _ _ h
        · rw [parse_loop_skip fuel _ _ _ _ _ c hc hig] at h
          rw [parse_loop_skip (fuel + 1) _ _ _ _ _ c hc hig,
            parse_loop_skip fuel _ _ _ _ _ c hc hig]
          exact ihl _ _ _ _ h
    · intro pos H h
      rw [helper_eq_finish fuel] at h
      rw [helper_eq_finish (fuel + 1), helper_eq_finish fuel,
        ihl _ _ _ _ (fuel_sufficed_of_bind _ _ h)]

theorem parse_loop_mono_le (regex : List Char) (f g : Nat) (hfg : f ≤ g) (pos : Nat) (H : Heap)
    (nfa_stack : List NFA) (op_stack : List Char)
    (h : fuel_sufficed (parse_loop f regex pos H nfa_stack op_stack)) :
    parse_loop g regex pos H nfa_stack op_stack = parse_loop f regex pos H nfa_stack op_stack := by
  induction g with
  | zero =>
    have : f = 0 := by omega
    subst this
    rfl
  | succ g ih =>
    by_cases c : f = g + 1
    · subst c
      rfl
    · have e := ih (by omega)
      rw [(parse_mono regex g).1 _ _ _ _ (by rw [e]; exact h), e]

theorem helper_mono_le (regex : List Char) (f g : Nat) (hfg : f ≤ g) (pos : Nat) (H : Heap)
    (h : fuel_sufficed (regex_to_nfa_helper f regex pos H)) :
    regex_to_nfa_helper g regex pos H = regex_to_nfa_helper f regex pos H := by
  induction g with
  | zero =>
    have : f = 0 := by omega
    subst this
    rfl
  | succ g ih =>
    by_cases c : f = g + 1
    · subst c
      rfl
    · have e := ih (by omega)
      rw [(parse_mono regex g).2 _ _ (by rw [e]; exact h), e]

theorem after_operand_mono_le (regex : List Char) (f g : Nat) (hfg : f ≤ g) (pos : Nat) (H : Heap)
    (nfa_stack : List NFA) (op_stack : List Char) (r : Heap × List NFA × List Char × Nat)
    (h : after_operand f regex pos H nfa_stack op_stack = .ok r) :
    after_operand g regex pos H nfa_stack op_stack = .ok r := by
  unfold after_operand at h ⊢
  split_ifs at h ⊢
  · cases hx : push_op '.' H nfa_stack op_stack with
    | error e => rw [hx] at h; cases h
    | ok q =>
      rw [hx] at h
      simp only [ok_bind] at h ⊢
      rw [parse_loop_mono_le regex f g hfg _ _ _ _ (by rw [h]; exact fuel_sufficed_ok _), h]
  · rw [parse_loop_mono_le regex f g hfg _ _ _ _ (by rw [h]; exact fuel_sufficed_ok _), h]

theorem implicit_concat_drop (regex : List Char) (pos : Nat) :
    implicit_concat regex pos = starts_operand (regex.drop pos) := by
  unfold implicit_concat starts_operand
  rw [List.head?_drop]

theorem getElem?_of_drop (regex : List Char) (pos : Nat) (c : Char) (t : List Char)
    (h : regex.drop pos = c :: t) : regex[pos]? = some c := by
  have := List.head?_drop regex pos
  rw [h] at this
  exact this.symm

theorem drop_of_drop (regex : List Char) (pos : Nat) (x t : List Char)
    (h : regex.drop pos = x ++ t) : regex.drop (pos + x.length) = t := by
  rw [← List.drop_drop, h, List.drop_left]

/-! ## The parser on the grammar -/

theorem FragOK.lo_le_hi {H : Heap} {f : NFA} {lo hi : Nat} {L : Language Char}
    (h : FragOK H f lo hi L) : lo ≤ hi := by
  have := h.start_lo
  have := h.start_hi
  omega

theorem precedence_dot : precedence '.' = 2 := by decide

theorem precedence_bar : precedence '|' = 1 := by decide

theorem precedence_post (c : Char) (hc : c = '*' ∨ c = '+' ∨ c = '?') : precedence c = 3 := by
  rcases hc with rfl | rfl | rfl <;> decide

theorem stops_nil (k : Nat) : stops k [] := by
  intro op h
  cases h

theorem stops_cons (k : Nat) (op : Char) (ops : List Char) (h : precedence op < k) :
    stops k (op :: ops) := by
  intro op2 h2
  simp only [List.head?_cons, Option.mem_def, Option.some.injEq] at h2
  subst h2
  exact h

theorem stops_mono (k1 k2 : Nat) (ops : List Char) (h : stops k1 ops) (hk : k1 ≤ k2) :
    stops k2 ops := fun op hop => lt_of_lt_of_le (h op hop) hk

theorem apply_ops_dot (H H2 : Heap) (f1 f2 r : NFA) (nfa_stack : List NFA)
    (h : NFA.concat H f1 f2 = .ok (r, H2)) :
    apply_ops ['.'] H (f2 :: f1 :: nfa_stack) = .ok (H2, r :: nfa_stack) := by
  simp only [apply_ops, apply_operator, if_true, h, ok_bind, pure_eq_ok]

theorem apply_ops_bar (H H2 : Heap) (f1 f2 r : NFA) (nfa_stack : List NFA)
    (h : NFA.alternation H f1 f2 = .ok (r, H2)) :
    apply_ops ['|'] H (f2 :: f1 :: nfa_stack) = .ok (H2, r :: nfa_stack) := by
  have h1 : ¬ '|' = '.' := by decide
  simp only [apply_ops, apply_operator, h1, if_false, if_true, h, ok_bind, pure_eq_ok]

/-- A postfix operator applied to a sound fragment that ends at the top of the
store gives a sound fragment for the language the operator makes. -/
theorem post_sem (c : Char) (hc : c = '*' ∨ c = '+' ∨ c = '?') (H : Heap) (f : NFA) (lo : Nat)
    (L : Language Char) (nfa_stack : List NFA) (hf : FragOK H f lo H.states.length L) :
    ∃ H2 T, apply_ops [c] H (f :: nfa_stack) = .ok (H2, T :: nfa_stack) ∧
      Heap.agree lo H H2 ∧ FragOK H2 T lo H2.states.length (apply_post c L) := by
  have he : f.end_ < H.states.length := hf.end_hi
  rcases hc with rfl | rfl | rfl
  · obtain ⟨H2, hok, hw⟩ := kleene_star_wrapped H f he
    obtain ⟨hag, hfr⟩ := wrapped_sem H H2 f lo L true true hf hw
    rw [wrap_lang_star] at hfr
    have h1 : ¬ '*' = '.' := by decide
    have h2 : ¬ '*' = '|' := by decide
    refine ⟨H2, _, ?_, hag, hfr⟩
    simp only [apply_ops, apply_operator, h1, h2, if_false, if_true, hok, ok_bind, pure_eq_ok]
  · obtain ⟨H2, hok, hw⟩ := plus_wrapped H f he
    obtain ⟨hag, hfr⟩ := wrapped_sem H H2 f lo L false true hf hw
    rw [wrap_lang_plus] at hfr
    have h1 : ¬ '+' = '.' := by decide
    have h2 : ¬ '+' = '|' := by decide
    have h3 : ¬ '+' = '*' := by decide
    refine ⟨H2, _, ?_, hag, hfr⟩
    simp only [apply_ops, apply_operator, h1, h2, h3, if_false, if_true, hok, ok_bind,
      pure_eq_ok]
  · obtain ⟨H2, hok, hw⟩ := optional_wrapped H f he
    obtain ⟨hag, hfr⟩ := wrapped_sem H H2 f lo L true false hf hw
    rw [wrap_lang_optional] at hfr
    have h1 : ¬ '?' = '.' := by decide
    have h2 : ¬ '?' = '|' := by decide
    have h3 : ¬ '?' = '*' := by decide
    have h4 : ¬ '?' = '+' := by decide
    refine ⟨H2, _, ?_, hag, hfr⟩
    simp only [apply_ops, apply_operator, h1, h2, h3, h4, if_false, if_true, hok, ok_bind,
      pure_eq_ok]

/-- Every piece of a pattern generated by the grammar starts with an operand. -/
theorem generates_starts (lvl : Level) (x : List Char) (L : Language Char)
    (h : Generates lvl x L) : ∀ t, starts_operand (x ++ t) = true := by
  induction h with
  | atom c hc => intro t; simp [starts_operand, hc]
  | group e L _ _ => intro t; simp [starts_operand]
  | pre_one p L _ ih => exact ih
  | pre_cons x p L1 L2 _ _ ih1 _ => intro t; rw [List.append_assoc]; exact ih1 _
  | last_prim p L _ ih => exact ih
  | last_post x c L _ _ ih => intro t; rw [List.append_assoc]; exact ih _
  | term_last x L _ ih => exact ih
  | term_pre x y L1 L2 _ _ ih1 _ => intro t; rw [List.append_assoc]; exact ih1 _
  | expr_term x L _ ih => exact ih
  | expr_alt x y L1 L2 _ _ ih1 _ => intro t; rw [List.append_assoc]; exact ih1 _

theorem after_operand_true (f : Nat) (regex : List Char) (pos : Nat) (x t : List Char)
    (H H2 : Heap) (n n2 : List NFA) (o o2 : List Char) (hd : regex.drop pos = x ++ t)
    (ht : starts_operand t = true) (hp : push_op '.' H n o = .ok (H2, n2, o2)) :
    after_operand f regex (pos + x.length) H n o = parse_loop f regex (pos + x.length) H2 n2 o2 := by
  unfold after_operand
  rw [implicit_concat_drop, drop_of_drop regex pos x t hd, ht, hp]
  rfl

theorem after_operand_false (f : Nat) (regex : List Char) (pos : Nat) (x t : List Char)
    (H : Heap) (n : List NFA) (o : List Char) (hd : regex.drop pos = x ++ t)
    (ht : starts_operand t = false) :
    after_operand f regex (pos + x.length) H n o = parse_loop f regex (pos + x.length) H n o := by
  unfold after_operand
  rw [implicit_concat_drop, drop_of_drop regex pos x t hd, ht]
  rfl

theorem prim_atom (c : Char) (hc : isalnum c = true) : PrimSpec [c] ({[c]} : Language Char) := by
  intro regex pos t H n o hd
  obtain ⟨H2, hok, hag, hfr⟩ := from_char_sem H c
  have e : H2 = H.with_char c := by
    rw [from_char_eq] at hok
    cases hok
    rfl
  subst e
  refine ⟨_, _, hag, hfr, fun f r h => ⟨f + 1, ?_⟩⟩
  rw [parse_loop_operand f regex pos H n o c (getElem?_of_drop regex pos c t hd) hc]
  exact h

theorem prim_group (e : List Char) (L : Language Char) (ih : TailSpec 1 e L) :
    PrimSpec ('(' :: e ++ [')']) L := by
  intro regex pos t H n o hd
  have hc : regex[pos]? = some '(' := getElem?_of_drop regex pos '(' ((e ++ [')']) ++ t) hd
  have hd1 : regex.drop (pos + 1) = e ++ (')' :: t) := by
    have h1 : regex.drop (pos + 1) = (e ++ [')']) ++ t :=
      drop_of_drop regex pos ['('] ((e ++ [')']) ++ t) hd
    rw [h1, List.append_assoc]
    rfl
  obtain ⟨H1, n1, opsX, hR, _, H2, T, hap, hag, hfr⟩ :=
    ih regex (pos + 1) (')' :: t) H [] [] hd1 rfl (stops_nil 1)
  have hcl : regex[pos + 1 + e.length]? = some ')' :=
    getElem?_of_drop regex _ ')' t (drop_of_drop regex (pos + 1) e (')' :: t) hd1)
  obtain ⟨g, hg⟩ := hR 1 _ (parse_loop_close 0 regex _ H1 n1 (opsX ++ []) hcl)
  have hh : regex_to_nfa_helper (g + 1) regex (pos + 1) H =
      .ok (T, pos + 1 + e.length + 1, H2) := by
    rw [helper_eq_finish, hg]
    simp only [ok_bind, helper_finish, List.append_nil, drain_eq, hap, pure_eq_ok]
  have hlen : pos + ('(' :: e ++ [')']).length = pos + 1 + e.length + 1 := by
    simp only [List.length_cons, List.length_append, List.length_singleton, List.length_nil]
    omega
  refine ⟨H2, T, hag, hfr, fun f r h => ⟨max f (g + 1) + 1, ?_⟩⟩
  rw [hlen] at h
  rw [parse_loop_open _ regex pos H n o hc,
    helper_mono_le regex (g + 1) (max f (g + 1)) (le_max_right _ _) _ _
      (by rw [hh]; exact fuel_sufficed_ok _), hh]
  simp only [ok_bind]
  exact after_operand_mono_le regex f _ (le_max_left _ _) _ _ _ _ r h

theorem pre_of_prim (p : List Char) (L : Language Char) (ih : PrimSpec p L) : PreSpec p L := by
  intro regex pos t H n o hd ht hs
  obtain ⟨H2, P, hag, hfr, hk⟩ := ih regex pos t H n o hd
  refine ⟨H2, P, hag, hfr, fun f r h => hk f r ?_⟩
  have hp : push_op '.' H2 (P :: n) o = .ok (H2, P :: n, '.' :: o) :=
    push_op_pending '.' [] o H2 H2 (P :: n) (P :: n) (fun _ h => absurd h (List.not_mem_nil _))
      (by rw [precedence_dot]; exact hs) rfl
  rw [after_operand_true f regex pos p t _ _ _ _ _ _ hd ht hp]
  exact h

theorem pre_snoc (x p : List Char) (L1 L2 : Language Char) (hp : Generates .prim p L2)
    (ihx : PreSpec x L1) (ihp : PrimSpec p L2) : PreSpec (x ++ p) (L1 * L2) := by
  intro regex pos t H n o hd ht hs
  have hd1 : regex.drop pos = x ++ (p ++ t) := by rw [hd, List.append_assoc]
  obtain ⟨H1, F, hag1, hfr1, hR1⟩ :=
    ihx regex pos (p ++ t) H n o hd1 (generates_starts _ _ _ hp t) hs
  have hd2 : regex.drop (pos + x.length) = p ++ t := drop_of_drop regex pos x _ hd1
  obtain ⟨H2, P, hag2, hfr2, hk2⟩ := ihp regex (pos + x.length) t H1 (F :: n) ('.' :: o) hd2
  have hF2 := hfr1.frame H2 hag2
  obtain ⟨C, H3, hcat, hlen3, hag3, hfr3⟩ := concat_sem H2 F P _ _ _ L1 L2 hF2 hfr2
  have hlen : pos + (x ++ p).length = pos + x.length + p.length := by
    rw [List.length_append]; omega
  refine ⟨H3, C, ?_, by rw [hlen3]; exact hfr3, fun f r h => ?_⟩
  · exact agree_trans _ _ _ _ _ (agree_trans _ _ _ _ _ hag1 hag2 hfr1.lo_le_hi) hag3 (le_refl _)
  · rw [hlen] at h
    have hpush : push_op '.' H2 (P :: F :: n) ('.' :: o) = .ok (H3, C :: n, '.' :: o) :=
      push_op_pending '.' ['.'] o H2 H3 (P :: F :: n) (C :: n)
        (fun op hop => by rw [List.mem_singleton.mp hop])
        (by rw [precedence_dot]; exact hs) (apply_ops_dot H2 H3 F P C n hcat)
    obtain ⟨g1, hg1⟩ := hk2 f r (by
      rw [after_operand_true f regex (pos + x.length) p t _ _ _ _ _ _ hd2 ht hpush]
      exact h)
    exact hR1 g1 r hg1

theorem last_of_prim (p : List Char) (L : Language Char) (ih : PrimSpec p L) :
    TailSpec 3 p L := by
  intro regex pos t H n o hd ht _
  obtain ⟨H2, P, hag, hfr, hk⟩ := ih regex pos t H n o hd
  refine ⟨H2, P :: n, [], fun f r h => hk f r ?_, fun _ h => absurd h (List.not_mem_nil _),
    H2, P, rfl, hag, hfr⟩
  rw [after_operand_false f regex pos p t _ _ _ hd ht]
  exact h

theorem last_snoc (x : List Char) (c : Char) (L : Language Char)
    (hc : c = '*' ∨ c = '+' ∨ c = '?') (ih : TailSpec 3 x L) :
    TailSpec 3 (x ++ [c]) (apply_post c L) := by
  intro regex pos t H n o hd _ hs
  have hd1 : regex.drop pos = x ++ (c :: t) := by
    rw [hd, List.append_assoc]
    rfl
  have hct : starts_operand (c :: t) = false := by
    rcases hc with rfl | rfl | rfl <;> rfl
  obtain ⟨H1, n1, opsX, hR, hprec, H2, T, hap, hag, hfr⟩ := ih regex pos (c :: t) H n o hd1 hct hs
  have hcc : regex[pos + x.length]? = some c :=
    getElem?_of_drop regex _ c t (drop_of_drop regex pos x (c :: t) hd1)
  have hpc := precedence_post c hc
  have hpush := push_op_pending c opsX o H1 H2 n1 (T :: n)
    (fun op hop => by rw [hpc]; exact hprec op hop) (by rw [hpc]; exact hs) hap
  obtain ⟨H3, T2, hap3, hag3, hfr3⟩ := post_sem c hc H2 T _ L n hfr
  have hlen : pos + (x ++ [c]).length = pos + x.length + 1 := by
    rw [List.length_append, List.length_singleton]; omega
  refine ⟨H2, T :: n, [c], fun f r h => hR (f + 1) r ?_, ?_, H3, T2, hap3,
    agree_trans _ _ _ _ _ hag hag3 (le_refl _), hfr3⟩
  · rw [hlen] at h
    rw [parse_loop_op f regex _ H1 n1 (opsX ++ o) c hcc
      (by rcases hc with h | h | h <;> simp [h]), hpush]
    exact h
  · intro op hop
    rw [List.mem_singleton.mp hop, hpc]

theorem tail_weaken (k1 k2 : Nat) (hk : k2 ≤ k1) (x : List Char) (L : Language Char)
    (ih : TailSpec k1 x L) : TailSpec k2 x L := by
  intro regex pos t H n o hd ht hs
  obtain ⟨H1, n1, opsX, hR, hprec, rest⟩ := ih regex pos t H n o hd ht (stops_mono _ _ _ hs hk)
  exact ⟨H1, n1, opsX, hR, fun op hop => le_trans hk (hprec op hop), rest⟩

theorem term_of_pre_last (x y : List Char) (L1 L2 : Language Char) (hy : Generates .last y L2)
    (ihx : PreSpec x L1) (ihy : TailSpec 3 y L2) : TailSpec 2 (x ++ y) (L1 * L2) := by
  intro regex pos t H n o hd ht hs
  have hd1 : regex.drop pos = x ++ (y ++ t) := by rw [hd, List.append_assoc]
  obtain ⟨H1, F, hag1, hfr1, hR1⟩ :=
    ihx regex pos (y ++ t) H n o hd1 (generates_starts _ _ _ hy t) hs
  have hd2 : regex.drop (pos + x.length) = y ++ t := drop_of_drop regex pos x _ hd1
  obtain ⟨H2, n2, opsY, hR2, hprec, H3, T, hap, hag3, hfr3⟩ :=
    ihy regex (pos + x.length) t H1 (F :: n) ('.' :: o) hd2 ht
      (stops_cons 3 '.' o (by rw [precedence_dot]; omega))
  have hF3 := hfr1.frame H3 hag3
  obtain ⟨C, H4, hcat, hlen4, hag4, hfr4⟩ := concat_sem H3 F T _ _ _ L1 L2 hF3 hfr3
  have hlen : pos + (x ++ y).length = pos + x.length + y.length := by
    rw [List.length_append]; omega
  refine ⟨H2, n2, opsY ++ ['.'], fun f r h => ?_, ?_, H4, C, ?_, ?_, by rw [hlen4]; exact hfr4⟩
  · rw [hlen, List.append_assoc] at h
    obtain ⟨g, hg⟩ := hR2 f r h
    exact hR1 g r hg
  · intro op hop
    rcases List.mem_append.mp hop with h1 | h1
    · exact le_trans (by omega) (hprec op h1)
    · rw [List.mem_singleton.mp h1, precedence_dot]
  · rw [apply_ops_append, hap]
    exact apply_ops_dot H3 H4 F T C n hcat
  · exact agree_trans _ _ _ _ _ (agree_trans _ _ _ _ _ hag1 hag3 hfr1.lo_le_hi) hag4 (le_refl _)

theorem expr_of_alt (x y : List Char) (L1 L2 : Language Char)
    (ihx : TailSpec 1 x L1) (ihy : TailSpec 2 y L2) : TailSpec 1 (x ++ '|' :: y) (L1 + L2) := by
  intro regex pos t H n o hd ht hs
  have hd1 : regex.drop pos = x ++ ('|' :: (y ++ t)) := by
    rw [hd, List.append_assoc]
    rfl
  obtain ⟨H1, n1, opsX, hR1, hprec1, H2, E, hap1, hag1, hfr1⟩ :=
    ihx regex pos ('|' :: (y ++ t)) H n o hd1 rfl hs
  have hd2 : regex.drop (pos + x.length) = '|' :: (y ++ t) := drop_of_drop regex pos x _ hd1
  have hcc : regex[pos + x.length]? = some '|' := getElem?_of_drop regex _ '|' _ hd2
  have hpush := push_op_pending '|' opsX o H1 H2 n1 (E :: n)
    (fun op hop => by rw [precedence_bar]; exact hprec1 op hop)
    (by rw [precedence_bar]; exact hs) hap1
  have hd3 : regex.drop (pos + x.length + 1) = y ++ t :=
    drop_of_drop regex (pos + x.length) ['|'] _ hd2
  obtain ⟨H3, n3, opsY, hR3, hprec3, H4, T, hap3, hag3, hfr3⟩ :=
    ihy regex (pos + x.length + 1) t H2 (E :: n) ('|' :: o) hd3 ht
      (stops_cons 2 '|' o (by rw [precedence_bar]; omega))
  have hE4 := hfr1.frame H4 hag3
  obtain ⟨A, H5, halt, hag5, hfr5⟩ := alternation_sem H4 E T _ _ L1 L2 hE4 hfr3
  have hlen : pos + (x ++ '|' :: y).length = pos + x.length + 1 + y.length := by
    rw [List.length_append, List.length_cons]; omega
  refine ⟨H3, n3, opsY ++ ['|'], fun f r h => ?_, ?_, H5, A, ?_, ?_, hfr5⟩
  · rw [hlen, List.append_assoc] at h
    obtain ⟨g, hg⟩ := hR3 f r h
    refine hR1 (g + 1) r ?_
    rw [parse_loop_op g regex _ H1 n1 (opsX ++ o) '|' hcc (by simp), hpush]
    exact hg
  · intro op hop
    rcases List.mem_append.mp hop with h1 | h1
    · exact le_trans (by omega) (hprec3 op h1)
    · rw [List.mem_singleton.mp h1, precedence_bar]
  · rw [apply_ops_append, hap3]
    exact apply_ops_bar H4 H5 E T A n halt
  · exact agree_trans _ _ _ _ _ (agree_trans _ _ _ _ _ hag1 hag3 hfr1.lo_le_hi) hag5 (le_refl _)

/-- The parser on every piece of a pattern generated by the grammar. -/
theorem generates_spec (lvl : Level) (x : List Char) (L : Language Char)
    (h : Generates lvl x L) : Statement lvl x L := by
  induction h with
  | atom c hc => exact prim_atom c hc
  | group e L _ ih => exact prim_group e L ih
  | pre_one p L _ ih => exact pre_of_prim p L ih
  | pre_cons x p L1 L2 _ hp ih1 ih2 => exact pre_snoc x p L1 L2 hp ih1 ih2
  | last_prim p L _ ih => exact last_of_prim p L ih
  | last_post x c L _ hc ih => exact last_snoc x c L hc ih
  | term_last x L _ ih => exact tail_weaken 3 2 (by omega) x L ih
  | term_pre x y L1 L2 _ hy ih1 ih2 => exact term_of_pre_last x y L1 L2 hy ih1 ih2
  | expr_term x L _ ih => exact tail_weaken 2 1 (by omega) x L ih
  | expr_alt x y L1 L2 _ _ ih1 ih2 => exact expr_of_alt x y L1 L2 ih1 ih2

/-! ## C20: compile correctness on the grammar -/

/-- On a pattern generated by the grammar the main loop consumes the whole
pattern, the final loop leaves exactly one fragment on the operand stack, and
this fragment is a sound automaton for the language of the pattern. -/
theorem compile_on_grammar (H : Heap) (pattern : List Char) (L : Language Char)
    (hg : Generates .expr pattern L) :
    ∃ H1 nfa_stack op_stack H2 top,
      parse_loop (2 * pattern.length + 1) pattern 0 H [] [] =
        .ok (H1, nfa_stack, op_stack, pattern.length) ∧
      drain op_stack.length H1 nfa_stack op_stack = .ok (H2, [top], []) ∧
      NFA.regex_to_nfa H pattern = .ok (top, H2) ∧
      FragOK H2 top H.states.length H2.states.length L := by
  have hspec : TailSpec 1 pattern L := generates_spec _ _ _ hg
  obtain ⟨H1, n1, opsX, hR, _, H2, T, hap, _, hfr⟩ :=
    hspec pattern 0 [] H [] [] (by simp) rfl (stops_nil 1)
  rw [List.append_nil, Nat.zero_add] at hR
  obtain ⟨g, hg1⟩ := hR 1 _ (parse_loop_end 0 pattern pattern.length H1 n1 opsX
    (List.getElem?_eq_none (le_refl _)))
  have hsuff := ((parse_fuel pattern (2 * pattern.length + 1)).1 0 H [] [] (by omega)).1
  have hloop : parse_loop (2 * pattern.length + 1) pattern 0 H [] [] =
      .ok (H1, n1, opsX, pattern.length) := by
    by_cases c : g ≤ 2 * pattern.length + 1
    · rw [parse_loop_mono_le pattern g _ c _ _ _ _ (by rw [hg1]; exact fuel_sufficed_ok _), hg1]
    · rw [← parse_loop_mono_le pattern _ g (by omega) _ _ _ _ hsuff, hg1]
  have hdrain : drain opsX.length H1 n1 opsX = .ok (H2, [T], []) := by
    rw [drain_eq, hap]
    rfl
  refine ⟨H1, n1, opsX, H2, T, hloop, hdrain, ?_, hfr⟩
  unfold NFA.regex_to_nfa
  rw [helper_eq_finish, hloop]
  simp only [ok_bind, helper_finish, hdrain, pure_eq_ok]

/-- C20: for every pattern generated by the grammar
`expr ::= term ('|' term)*`, `term ::= prim* prim post*`,
`prim ::= alphanumeric | '(' expr ')'`, `post ::= '*' | '+' | '?'`, with the
language `L` it denotes under the usual semantics, in every store and for every
input `s`: compiling the pattern and matching `s` returns a boolean that is
true exactly when `s` belongs to `L`; and the main loop followed by the final
loop ends with exactly one fragment on the operand stack. -/
theorem compile_correct_on_grammar (H0 : Heap) (pattern s : List Char) (L : Language Char)
    (hg : Generates .expr pattern L) :
    (∃ b, regex_matches H0 pattern s = .ok b ∧ (b = true ↔ s ∈ L)) ∧
    ∃ H1 nfa_stack op_stack H2 top,
      parse_loop (2 * pattern.length + 1) pattern 0 H0 [] [] =
        .ok (H1, nfa_stack, op_stack, pattern.length) ∧
      drain op_stack.length H1 nfa_stack op_stack = .ok (H2, [top], []) := by
  constructor
  · obtain ⟨_, _, _, H2, T, _, _, hreg, hfr⟩ := compile_on_grammar Heap.init pattern L hg
    obtain ⟨hwf, hstart⟩ := regex_to_nfa_wf Heap.init pattern T H2 wf_init hreg
    obtain ⟨b, hb, hiff⟩ := matches_spec H2 hwf T hstart s
    refine ⟨b, regex_matches_lift H0 pattern s b ?_, hiff.trans (hfr.ref_matches_iff s)⟩
    unfold regex_matches
    rw [hreg]
    exact hb
  · obtain ⟨H1, n1, o1, H2, T, h1, h2, _, _⟩ := compile_on_grammar H0 pattern L hg
    exact ⟨H1, n1, o1, H2, T, h1, h2⟩

theorem compile_correct_on_grammar_witness :
    Generates .expr ['a', '(', 'b', '|', 'c', ')', '*']
        (({['a']} : Language Char) * apply_post '*' ({['b']} + {['c']})) ∧
      ((∃ b, regex_matches Heap.init ['a', '(', 'b', '|', 'c', ')', '*'] ['a', 'b', 'c'] = .ok b ∧
          (b = true ↔ ['a', 'b', 'c'] ∈
            (({['a']} : Language Char) * apply_post '*' ({['b']} + {['c']})))) ∧
        ∃ H1 nfa_stack op_stack H2 top,
          parse_loop (2 * ['a', '(', 'b', '|', 'c', ')', '*'].length + 1)
              ['a', '(', 'b', '|', 'c', ')', '*'] 0 Heap.init [] [] =
            .ok (H1, nfa_stack, op_stack, ['a', '(', 'b', '|', 'c', ')', '*'].length) ∧
          drain op_stack.length H1 nfa_stack op_stack = .ok (H2, [top], [])) :=
  have hb : Generates .expr ['b'] ({['b']} : Language Char) :=
    .expr_term _ _ (.term_last _ _ (.last_prim _ _ (.atom 'b' rfl)))
  have hc : Generates .term ['c'] ({['c']} : Language Char) :=
    .term_last _ _ (.last_prim _ _ (.atom 'c' rfl))
  have hgrp : Generates .prim ['(', 'b', '|', 'c', ')'] ({['b']} + {['c']} : Language Char) :=
    .group _ _ (.expr_alt ['b'] ['c'] _ _ hb hc)
  have hlast : Generates .last ['(', 'b', '|', 'c', ')', '*']
      (apply_post '*' ({['b']} + {['c']} : Language Char)) :=
    .last_post ['(', 'b', '|', 'c', ')'] '*' _ (.last_prim _ _ hgrp) (Or.inl rfl)
  have hg : Generates .expr ['a', '(', 'b', '|', 'c', ')', '*']
      (({['a']} : Language Char) * apply_post '*' ({['b']} + {['c']})) :=
    .expr_term _ _ (.term_pre ['a'] ['(', 'b', '|', 'c', ')', '*'] _ _
      (.pre_one _ _ (.atom 'a' rfl)) hlast)
  ⟨hg, compile_correct_on_grammar Heap.init _ ['a', 'b', 'c'] _ hg⟩

end RegexNFA
